import Mathlib

/-
Verification development for the chained hash table with incremental
rehashing (`src/dict.c`, `src/dict.h`).

Modelling conventions (shallow embedding):
* `unsigned long` / `long long` arithmetic is `Nat` reduced `% 2 ^ 64` where
  overflow can matter; `unsigned int` hash values are reduced `% 2 ^ 32`.
* A bucket (`dictEntry *` chain) is a `List` of entries; the `next` pointer is
  the list tail.  `table == NULL` is the empty array.
* The table pointer's numeric value (used only by `dictFingerprint`) is
  modelled by a `tableId : Nat` field; `zcalloc` returning a fresh address is
  modelled by an explicit `addr` argument to `dictExpand`.
* The C `assert` and out-of-bounds dereferences are modelled by `Option`
  results (`none` = abort / undefined behaviour).
* The process-wide `dict_can_resize` flag is passed explicitly as `canResize`.
* `privdata` is dropped: all callbacks are already closed terms.
* Value-destructor and value-assignment side effects (needed for the
  `dictReplace` contract) are recorded as `DictEvent` traces.
-/

namespace RedisDict

/-- 2 ^ 64, the modulus of `unsigned long` / `long long` arithmetic. -/
def M64 : Nat := 2 ^ 64

/-- `LONG_MAX` on the 64-bit platform the source targets. -/
def LONG_MAX : Nat := 2 ^ 63 - 1

/-- A key/value node (`dictEntry`).  The value union is unset until
`dictSetVal` runs, hence `Option`. -/
structure DictEntry (K V : Type) where
  key : K
  val : Option V
  deriving Repr, DecidableEq

/-- The capability bundle (`dictType`).  Function presence mirrors the C
`NULL`-checks; destructors have no functional effect, only their invocation
matters, so they are tracked as presence flags. -/
structure DictType (K V : Type) where
  hashFunction : K → Nat
  keyDup : Option (K → K)
  valDup : Option (V → V)
  keyCompare : Option (K → K → Bool)
  keyDestructor : Bool
  valDestructor : Bool

/-- One hash table (`dictht`).  `tableId` stands for the numeric value of the
`table` pointer (0 = `NULL`). -/
structure Dictht (K V : Type) where
  table : Array (List (DictEntry K V))
  tableId : Nat
  size : Nat
  sizemask : Nat
  used : Nat
  deriving Repr, DecidableEq

/-- The dictionary (`dict`). -/
structure Dict (K V : Type) where
  type : DictType K V
  ht0 : Dictht K V
  ht1 : Dictht K V
  rehashidx : Int
  iterators : Int

/-- Destructor/assignment side effects recorded by value-manipulating
operations (the argument is the value handed to the callback). -/
inductive DictEvent (V : Type) where
  | setVal (v : Option V)
  | freeVal (v : Option V)
  deriving Repr, DecidableEq

variable {K V : Type} [DecidableEq K]

/-- `dictHashKey`: the hash callback returns `unsigned int` (32 bits). -/
def hashOf (t : DictType K V) (k : K) : Nat := t.hashFunction k % 2 ^ 32

/-- `dictCompareKeys`: the comparator if present, else pointer identity,
which the embedding reads as equality of the key values. -/
def dictCompareKeys (t : DictType K V) (k1 k2 : K) : Bool :=
  match t.keyCompare with
  | some f => f k1 k2
  | none => decide (k1 = k2)

/-- `dictSetKey`: apply `keyDup` when provided. -/
def dictKeyDupApply (t : DictType K V) (k : K) : K :=
  match t.keyDup with
  | some f => f k
  | none => k

/-- `dictSetVal`: apply `valDup` when provided. -/
def dictValDupApply (t : DictType K V) (v : V) : V :=
  match t.valDup with
  | some f => f v
  | none => v

/-- `dictFreeVal`: the value destructor runs only when provided. -/
def dictFreeValEvents (t : DictType K V) (v : Option V) : List (DictEvent V) :=
  if t.valDestructor then [DictEvent.freeVal v] else []

/-- Read a bucket; C reads `ht->table[idx]` (in reachable states the index is
in bounds). -/
def bucketGet (ht : Dictht K V) (i : Nat) : List (DictEntry K V) :=
  ht.table.getD i []

/-- Overwrite a bucket. -/
def bucketSet (ht : Dictht K V) (i : Nat) (l : List (DictEntry K V)) :
    Dictht K V :=
  { ht with table := ht.table.setD i l }

/-- `d->ht[t]` for `t` 0 or 1. -/
def htGet (d : Dict K V) (t : Nat) : Dictht K V :=
  if t = 0 then d.ht0 else d.ht1

/-- Write back `d->ht[t]`. -/
def htPut (d : Dict K V) (t : Nat) (ht : Dictht K V) : Dict K V :=
  if t = 0 then { d with ht0 := ht } else { d with ht1 := ht }

/-- `dictSize(d)`. -/
def dictSize (d : Dict K V) : Nat := d.ht0.used + d.ht1.used

/-- `dictIsRehashing(d)`. -/
def dictIsRehashing (d : Dict K V) : Bool := d.rehashidx != -1

/-- `_dictReset`. -/
def _dictReset : Dictht K V :=
  { table := #[], tableId := 0, size := 0, sizemask := 0, used := 0 }

/-- `dictCreate` / `_dictInit`. -/
def dictCreate (t : DictType K V) : Dict K V :=
  { type := t, ht0 := _dictReset, ht1 := _dictReset,
    rehashidx := -1, iterators := 0 }

/-- The doubling loop of `_dictNextPower` (`i` starts at
`DICT_HT_INITIAL_SIZE = 4`); the fuel is an upper bound on the doubling count,
never reached from `i = 4` with `size < LONG_MAX`. -/
def _dictNextPowerLoop : Nat → Nat → Nat → Nat
  | 0, i, _ => i
  | fuel + 1, i, size => if i ≥ size then i else _dictNextPowerLoop fuel (i * 2) size

/-- `_dictNextPower`. -/
def _dictNextPower (size : Nat) : Nat :=
  if size ≥ LONG_MAX then LONG_MAX
  else _dictNextPowerLoop 64 4 size

/-- `dictExpand`.  `addr` models the address `zcalloc` returns for the new
bucket array.  Returns `(ok, dict)` with `ok = false` for `DICT_ERR`. -/
def dictExpand (d : Dict K V) (size : Nat) (addr : Nat) : Bool × Dict K V :=
  let realsize := _dictNextPower size
  if dictIsRehashing d ∨ d.ht0.used > size then (false, d)
  else
    let n : Dictht K V :=
      { table := Array.mkArray realsize [], tableId := addr,
        size := realsize, sizemask := realsize - 1, used := 0 }
    if d.ht0.table.size = 0 then (true, { d with ht0 := n })
    else (true, { d with ht1 := n, rehashidx := 0 })

/-- The skip-empty scan `while(d->ht[0].table[d->rehashidx] == NULL)
d->rehashidx++;`, scanning from index `i` with `fuel = size - i` remaining
slots; running past the end of the array is undefined behaviour (`none`). -/
def findNonemptyFrom (tbl : Array (List (DictEntry K V))) : Nat → Nat → Option Nat
  | 0, _ => none
  | fuel + 1, i =>
    if (tbl.getD i []).isEmpty then findNonemptyFrom tbl fuel (i + 1) else some i

/-- Move every entry of one old-table chain into `ht[1]`, head first, each
prepended to its recomputed bucket (`h = dictHashKey(d, de->key) &
d->ht[1].sizemask`). -/
def moveChain (t : DictType K V) (chain : List (DictEntry K V))
    (ht0 ht1 : Dictht K V) : Dictht K V × Dictht K V :=
  match chain with
  | [] => (ht0, ht1)
  | de :: rest =>
    let h := hashOf t de.key &&& ht1.sizemask
    let ht1 := { bucketSet ht1 h (de :: bucketGet ht1 h) with used := ht1.used + 1 }
    let ht0 := { ht0 with used := ht0.used - 1 }
    moveChain t rest ht0 ht1

/-- The `while(n--)` body of `dictRehash`. -/
def dictRehashLoop : Dict K V → Nat → Option (Bool × Dict K V)
  | d, 0 => some (true, d)
  | d, n + 1 =>
    if d.ht0.used = 0 then
      some (false, { d with ht0 := d.ht1, ht1 := _dictReset, rehashidx := -1 })
    else if ¬ (0 ≤ d.rehashidx ∧ d.rehashidx < (d.ht0.size : Int)) then
      none
    else
      match findNonemptyFrom d.ht0.table (d.ht0.size - d.rehashidx.toNat) d.rehashidx.toNat with
      | none => none
      | some j =>
        let chain := bucketGet d.ht0 j
        let (ht0, ht1) := moveChain d.type chain d.ht0 d.ht1
        let ht0 := bucketSet ht0 j []
        dictRehashLoop { d with ht0 := ht0, ht1 := ht1, rehashidx := (j : Int) + 1 } n

/-- `dictRehash(d, n)`; the Bool is the C return value (1 = keys remain). -/
def dictRehash (d : Dict K V) (n : Nat) : Option (Bool × Dict K V) :=
  if ¬ dictIsRehashing d then some (false, d)
  else dictRehashLoop d n

/-- `_dictRehashStep`: a single step, suppressed while safe iterators are
open. -/
def _dictRehashStep (d : Dict K V) : Option (Dict K V) :=
  if d.iterators = 0 then (dictRehash d 1).map (·.2) else some d

/-- `_dictExpandIfNeeded`; `canResize` is the global `dict_can_resize`,
`dict_force_resize_ratio` is 5.  Returns `(ok, dict)`. -/
def _dictExpandIfNeeded (canResize : Bool) (addr : Nat) (d : Dict K V) :
    Bool × Dict K V :=
  if dictIsRehashing d then (true, d)
  else if d.ht0.size = 0 then dictExpand d 4 addr
  else if d.ht0.used ≥ d.ht0.size ∧ (canResize ∨ d.ht0.used / d.ht0.size > 5) then
    dictExpand d (d.ht0.used * 2) addr
  else (true, d)

/-- Walk a chain comparing keys (`while(he) { if (dictCompareKeys(...)) ... }`),
returning the position of the first match. -/
def chainFindPos (t : DictType K V) (k : K) : List (DictEntry K V) → Option Nat
  | [] => none
  | he :: rest =>
    if dictCompareKeys t k he.key then some 0
    else (chainFindPos t k rest).map (· + 1)

/-- `_dictKeyIndex`: returns the free-slot index for `k`, or `none` when the
key already exists (C returns -1).  The two-iteration table loop is unrolled. -/
def _dictKeyIndex (canResize : Bool) (addr : Nat) (d : Dict K V) (k : K) :
    Option Nat × Dict K V :=
  let (ok, d) := _dictExpandIfNeeded canResize addr d
  if ¬ ok then (none, d)
  else
    let h := hashOf d.type k
    let idx0 := h &&& d.ht0.sizemask
    if (chainFindPos d.type k (bucketGet d.ht0 idx0)).isSome then (none, d)
    else if ¬ dictIsRehashing d then (some idx0, d)
    else
      let idx1 := h &&& d.ht1.sizemask
      if (chainFindPos d.type k (bucketGet d.ht1 idx1)).isSome then (none, d)
      else (some idx1, d)

/-- `dictAddRaw`.  On success returns the location `(table, bucket)` of the new
entry (it sits at the head of that bucket); `none` inside means the key
already exists (C returns `NULL`). -/
def dictAddRaw (canResize : Bool) (addr : Nat) (d : Dict K V) (k : K) :
    Option (Option (Nat × Nat) × Dict K V) := do
  let d ← if dictIsRehashing d then _dictRehashStep d else some d
  let (idx?, d) := _dictKeyIndex canResize addr d k
  match idx? with
  | none => some (none, d)
  | some idx =>
    let t := if dictIsRehashing d then 1 else 0
    let ht := htGet d t
    let entry : DictEntry K V := { key := dictKeyDupApply d.type k, val := none }
    let ht := { bucketSet ht idx (entry :: bucketGet ht idx) with used := ht.used + 1 }
    some (some (t, idx), htPut d t ht)

/-- Set the value of the entry at the head of bucket `(t, idx)`
(the entry `dictAddRaw` just created). -/
def setHeadVal (d : Dict K V) (t idx : Nat) (v : Option V) : Dict K V :=
  let ht := htGet d t
  match bucketGet ht idx with
  | [] => d
  | e :: rest => htPut d t (bucketSet ht idx ({ e with val := v } :: rest))

/-- `dictAdd`: `dictAddRaw` followed by `dictSetVal`.  The Bool is true for
`DICT_OK`; the trace records the value installation. -/
def dictAdd (canResize : Bool) (addr : Nat) (d : Dict K V) (k : K) (v : V) :
    Option ((Bool × Dict K V) × List (DictEvent V)) := do
  let (loc?, d) ← dictAddRaw canResize addr d k
  match loc? with
  | none => some ((false, d), [])
  | some (t, idx) =>
    let stored := some (dictValDupApply d.type v)
    some ((true, setHeadVal d t idx stored), [DictEvent.setVal stored])

/-- `dictFind`: returns the location `(table, bucket, chain position)` of the
matching entry, or `none` when absent. -/
def dictFind (d : Dict K V) (k : K) :
    Option (Option (Nat × Nat × Nat) × Dict K V) := do
  if d.ht0.size = 0 then some (none, d)
  else do
    let d ← if dictIsRehashing d then _dictRehashStep d else some d
    let h := hashOf d.type k
    let i0 := h &&& d.ht0.sizemask
    match chainFindPos d.type k (bucketGet d.ht0 i0) with
    | some p => some (some (0, i0, p), d)
    | none =>
      if ¬ dictIsRehashing d then some (none, d)
      else
        let i1 := h &&& d.ht1.sizemask
        match chainFindPos d.type k (bucketGet d.ht1 i1) with
        | some p => some (some (1, i1, p), d)
        | none => some (none, d)

/-- The entry a `dictFind` location points at. -/
def entryAt (d : Dict K V) (loc : Nat × Nat × Nat) : Option (DictEntry K V) :=
  (bucketGet (htGet d loc.1) loc.2.1).get? loc.2.2

/-- Replace the value of the entry at `loc`. -/
def setValAt (d : Dict K V) (loc : Nat × Nat × Nat) (v : Option V) : Dict K V :=
  let ht := htGet d loc.1
  let chain := bucketGet ht loc.2.1
  let chain := List.modify (fun e => { e with val := v }) loc.2.2 chain
  htPut d loc.1 (bucketSet ht loc.2.1 chain)

/-- Unlink the first chain entry matching `k`
(the `prevHe` splice of `dictGenericDelete`). -/
def chainUnlink (t : DictType K V) (k : K) :
    List (DictEntry K V) → Option (DictEntry K V × List (DictEntry K V))
  | [] => none
  | he :: rest =>
    if dictCompareKeys t k he.key then some (he, rest)
    else (chainUnlink t k rest).map (fun (e, l) => (e, he :: l))

/-- `dictGenericDelete`.  The Bool is true for `DICT_OK`; the trace records
the value-destructor invocation (`!nofree` path). -/
def dictGenericDelete (d : Dict K V) (k : K) (nofree : Bool) :
    Option ((Bool × Dict K V) × List (DictEvent V)) := do
  if d.ht0.size = 0 then some ((false, d), [])
  else do
    let d ← if dictIsRehashing d then _dictRehashStep d else some d
    let h := hashOf d.type k
    let i0 := h &&& d.ht0.sizemask
    match chainUnlink d.type k (bucketGet d.ht0 i0) with
    | some (he, rest) =>
      let ht0 := { bucketSet d.ht0 i0 rest with used := d.ht0.used - 1 }
      some ((true, { d with ht0 := ht0 }),
            if nofree then [] else dictFreeValEvents d.type he.val)
    | none =>
      if ¬ dictIsRehashing d then some ((false, d), [])
      else
        let i1 := h &&& d.ht1.sizemask
        match chainUnlink d.type k (bucketGet d.ht1 i1) with
        | some (he, rest) =>
          let ht1 := { bucketSet d.ht1 i1 rest with used := d.ht1.used - 1 }
          some ((true, { d with ht1 := ht1 }),
                if nofree then [] else dictFreeValEvents d.type he.val)
        | none => some ((false, d), [])

/-- `dictDelete`. -/
def dictDelete (d : Dict K V) (k : K) :
    Option ((Bool × Dict K V) × List (DictEvent V)) :=
  dictGenericDelete d k false

/-- `dictDeleteNoFree`. -/
def dictDeleteNoFree (d : Dict K V) (k : K) :
    Option ((Bool × Dict K V) × List (DictEvent V)) :=
  dictGenericDelete d k true

/-- `dictReplace`.  The Bool is the C return value (1 = newly created).  On the
update path the trace shows set-then-free: `dictSetVal` on the found entry,
then `dictFreeVal` on `auxentry` (the old value).  A failed `dictFind` after a
failed add would dereference `NULL` in C (`none`). -/
def dictReplace (canResize : Bool) (addr : Nat) (d : Dict K V) (k : K) (v : V) :
    Option ((Bool × Dict K V) × List (DictEvent V)) := do
  let ((added, d), evs) ← dictAdd canResize addr d k v
  if added then some ((true, d), evs)
  else do
    let (loc?, d) ← dictFind d k
    match loc? with
    | none => none
    | some loc =>
      match entryAt d loc with
      | none => none
      | some aux =>
        let stored := some (dictValDupApply d.type v)
        let d := setValAt d loc stored
        some ((false, d),
              evs ++ [DictEvent.setVal stored] ++ dictFreeValEvents d.type aux.val)

/-- Arithmetic (sign-extending) right shift of a 64-bit value, the behaviour
of `>>` on the C `long long` fingerprint accumulator. -/
def sar64 (x s : Nat) : Nat :=
  if x < 2 ^ 63 then x >>> s else (x >>> s) ||| (M64 - 2 ^ (64 - s))

/-- One round of the fingerprint mix (Tomas Wang's 64-bit integer hash),
on the two's-complement bit pattern.  `~hash` is `M64 - 1 - h`. -/
def fingerprintMix (h : Nat) : Nat :=
  let h := ((M64 - 1 - h % M64) + (h % M64) <<< 21) % M64
  let h := h ^^^ sar64 h 24
  let h := ((h + h <<< 3) + h <<< 8) % M64
  let h := h ^^^ sar64 h 14
  let h := ((h + h <<< 2) + h <<< 4) % M64
  let h := h ^^^ sar64 h 28
  let h := (h + h <<< 31) % M64
  h

/-- `dictFingerprint`: fold the six structural integers
(table pointer, size, used of each table) through the mix. -/
def dictFingerprint (d : Dict K V) : Nat :=
  let ints := [d.ht0.tableId, d.ht0.size, d.ht0.used,
               d.ht1.tableId, d.ht1.size, d.ht1.used]
  ints.foldl (fun hash i => fingerprintMix ((hash + i) % M64)) 0

/-- `dictIterator`.  `entry` is the chain suffix headed by the current entry
(`[]` = `NULL`); `nextEntry` its prefetched tail.  The dictionary itself is
passed separately to each operation (the C struct holds a pointer to it).
`fingerprint` starts 0 (uninitialised in C until the first advance). -/
structure DictIterator (K V : Type) where
  table : Nat
  index : Int
  safe : Bool
  entry : List (DictEntry K V)
  nextEntry : List (DictEntry K V)
  fingerprint : Nat
  deriving Repr

/-- `dictGetIterator`. -/
def dictGetIterator : DictIterator K V :=
  { table := 0, index := -1, safe := false, entry := [], nextEntry := [],
    fingerprint := 0 }

/-- `dictGetSafeIterator`. -/
def dictGetSafeIterator : DictIterator K V :=
  { (dictGetIterator : DictIterator K V) with safe := true }

/-- The tail of each `dictNext` loop pass: `if (iter->entry) { save next;
return entry; }` else loop (`none` in the first component). -/
def dictNextEmit (d : Dict K V) (it : DictIterator K V) :
    Option (Option (DictEntry K V)) × Dict K V × DictIterator K V :=
  match it.entry with
  | [] => (none, d, it)
  | e :: rest => (some (some e), d, { it with nextEntry := rest })

/-- One pass of the `while(1)` body of `dictNext`: either produce the result
(`some r`, with `r = none` for the final `NULL`) or loop again. -/
def dictNextBody (d : Dict K V) (it : DictIterator K V) :
    Option (Option (DictEntry K V)) × Dict K V × DictIterator K V :=
  if it.entry.isEmpty then
    let (d, it) :=
      if it.index = -1 ∧ it.table = 0 then
        if it.safe then ({ d with iterators := d.iterators + 1 }, it)
        else (d, { it with fingerprint := dictFingerprint d })
      else (d, it)
    let it := { it with index := it.index + 1 }
    if it.index ≥ ((htGet d it.table).size : Int) then
      if dictIsRehashing d ∧ it.table = 0 then
        let it := { it with table := 1, index := 0 }
        dictNextEmit d { it with entry := bucketGet (htGet d 1) 0 }
      else (some none, d, it)
    else
      dictNextEmit d { it with entry := bucketGet (htGet d it.table) it.index.toNat }
  else
    dictNextEmit d { it with entry := it.nextEntry }

/-- The `while(1)` loop of `dictNext`, fuelled; each loop pass advances the
bucket index, so the fuel below is never exhausted. -/
def dictNextAux : Nat → Dict K V → DictIterator K V →
    Option (DictEntry K V) × Dict K V × DictIterator K V
  | 0, d, it => (none, d, it)
  | fuel + 1, d, it =>
    match dictNextBody d it with
    | (some r, d, it) => (r, d, it)
    | (none, d, it) => dictNextAux fuel d it

/-- `dictNext`. -/
def dictNext (d : Dict K V) (it : DictIterator K V) :
    Option (DictEntry K V) × Dict K V × DictIterator K V :=
  dictNextAux (d.ht0.size + d.ht1.size + 4) d it

/-- `dictReleaseIterator`: `none` models the fatal
`assert(iter->fingerprint == dictFingerprint(iter->d))` failing
(the FingerprintViolation). -/
def dictReleaseIterator (d : Dict K V) (it : DictIterator K V) :
    Option (Dict K V) :=
  if ¬ (it.index = -1 ∧ it.table = 0) then
    if it.safe then some { d with iterators := d.iterators - 1 }
    else if it.fingerprint = dictFingerprint d then some d else none
  else some d

/-- The bit-reversal helper `rev` of `dictScan`: the Stanford bithack loop,
fuelled structurally (from `s = 64` the loop body runs exactly six times). -/
def revLoop : Nat → Nat → Nat → Nat → Nat
  | 0, v, _, _ => v
  | fuel + 1, v, mask, s =>
    if s / 2 = 0 then v
    else
      let s2 := s / 2
      let mask2 := (mask ^^^ ((mask <<< s2) % M64)) % M64
      let v2 := ((v >>> s2) &&& mask2) ||| ((v <<< s2) &&& ((M64 - 1) ^^^ mask2))
      revLoop fuel v2 mask2 s2

/-- `rev(v)` on 64-bit `unsigned long`. -/
def rev (v : Nat) : Nat := revLoop 7 v (M64 - 1) 64

/-- The do-while loop of `dictScan` over the larger table's expansions of the
cursor; collects the emitted entries.  The fuel bounds the loop passes (at
most `t1.size / t0.size`). -/
def scanLoop (t1 : Dictht K V) (m0 m1 : Nat) :
    Nat → Nat → List (DictEntry K V) × Nat
  | 0, v => ([], v)
  | fuel + 1, v =>
    let emitted := bucketGet t1 (v &&& m1)
    let v2 := ((((v ||| m0) + 1) % M64) &&& ((M64 - 1) ^^^ m0)) ||| (v &&& m0)
    if v2 &&& (m0 ^^^ m1) ≠ 0 then
      let (rest, vfin) := scanLoop t1 m0 m1 fuel v2
      (emitted ++ rest, vfin)
    else (emitted, v2)

/-- `dictScan`: emits the entries the callback `fn` would receive (in order)
and returns the next cursor. -/
def dictScan (d : Dict K V) (v : Nat) : List (DictEntry K V) × Nat :=
  if dictSize d = 0 then ([], 0)
  else if ¬ dictIsRehashing d then
    let t0 := d.ht0
    let m0 := t0.sizemask
    let emitted := bucketGet t0 (v &&& m0)
    let v := v ||| ((M64 - 1) ^^^ m0)
    let v := rev v
    let v := (v + 1) % M64
    let v := rev v
    (emitted, v)
  else
    let (t0, t1) := if d.ht0.size > d.ht1.size then (d.ht1, d.ht0) else (d.ht0, d.ht1)
    let m0 := t0.sizemask
    let m1 := t1.sizemask
    let emitted0 := bucketGet t0 (v &&& m0)
    let (emitted1, v) := scanLoop t1 m0 m1 (t1.size + 1) v
    let v := v ||| ((M64 - 1) ^^^ m0)
    let v := rev v
    let v := (v + 1) % M64
    let v := rev v
    (emitted0 ++ emitted1, v)

/-- The bucket-selection retry loop of `dictGetRandomKey`: attempt `j` draws
`rand j`; C loops until a non-empty bucket comes up, so the fuel models the
number of attempts observed. -/
def randomBucketLoop (d : Dict K V) (rand : Nat → Nat) :
    Nat → Nat → Option (List (DictEntry K V) × Nat)
  | 0, _ => none
  | fuel + 1, j =>
    let he :=
      if dictIsRehashing d then
        let h := rand j % (d.ht0.size + d.ht1.size)
        if h ≥ d.ht0.size then bucketGet d.ht1 (h - d.ht0.size)
        else bucketGet d.ht0 h
      else
        bucketGet d.ht0 (rand j &&& d.ht0.sizemask)
    if he.isEmpty then randomBucketLoop d rand fuel (j + 1)
    else some (he, j + 1)

/-- `dictGetRandomKey`.  `rand` is the stream of `random()` results; the
dictionary comes back with the opportunistic rehash step applied. -/
def dictGetRandomKey (d : Dict K V) (rand : Nat → Nat) (fuel : Nat) :
    Option (Option (DictEntry K V) × Dict K V) := do
  if dictSize d = 0 then some (none, d)
  else do
    let d ← if dictIsRehashing d then _dictRehashStep d else some d
    match randomBucketLoop d rand fuel 0 with
    | none => none
    | some (he, j) =>
      let listele := rand j % he.length
      some (he.get? listele, d)

/-! ## Semantic notions used by the specification claims -/

/-- All entries of one table, bucket-major, chain order. -/
def tableFlatten (ht : Dictht K V) : List (DictEntry K V) :=
  ht.table.toList.flatten

/-- All entries stored in the dictionary. -/
def allEntries (d : Dict K V) : List (DictEntry K V) :=
  tableFlatten d.ht0 ++ tableFlatten d.ht1

/-- The key `k` is present: some stored entry's key compares equal to it. -/
def keyPresent (d : Dict K V) (k : K) : Prop :=
  ∃ e ∈ allEntries d, dictCompareKeys d.type k e.key = true

/-- Structural sanity of one table: the array length and the mask agree with
the `size` field (`sizemask = size - 1`, with `0 - 1 = 0` for the reset
table). -/
def htWF (ht : Dictht K V) : Prop :=
  ht.table.size = ht.size ∧ ht.sizemask = ht.size - 1

/-- The `used` field counts the stored entries. -/
def usedWF (ht : Dictht K V) : Prop :=
  ht.used = (ht.table.toList.map List.length).sum

/-- Bucket-placement: every entry sits at its key's hash masked by the
table's `sizemask`. -/
def placedWF (t : DictType K V) (ht : Dictht K V) : Prop :=
  ∀ i, i < ht.table.size → ∀ e ∈ bucketGet ht i,
    hashOf t e.key &&& ht.sizemask = i

/-- The rehash-progress invariant: a valid cursor with everything below it
already migrated while rehashing; a reset `ht[1]` otherwise. -/
def rehashWF (d : Dict K V) : Prop :=
  (dictIsRehashing d = true →
    0 ≤ d.rehashidx ∧ d.rehashidx ≤ (d.ht0.size : Int) ∧
    (∀ i, i < d.rehashidx.toNat → bucketGet d.ht0 i = []) ∧
    0 < d.ht1.size ∧ 0 < d.ht0.size) ∧
  (dictIsRehashing d = false → d.ht1 = _dictReset)

/-- Reachable-state invariant of a dictionary. -/
def WF (d : Dict K V) : Prop :=
  htWF d.ht0 ∧ htWF d.ht1 ∧ usedWF d.ht0 ∧ usedWF d.ht1 ∧
  placedWF d.type d.ht0 ∧ placedWF d.type d.ht1 ∧ rehashWF d

instance (ht : Dictht K V) : Decidable (htWF ht) := by
  unfold htWF
  infer_instance

instance (ht : Dictht K V) : Decidable (usedWF ht) := by
  unfold usedWF
  infer_instance

instance (t : DictType K V) (ht : Dictht K V) : Decidable (placedWF t ht) := by
  unfold placedWF
  infer_instance

instance [DecidableEq V] (d : Dict K V) : Decidable (rehashWF d) := by
  unfold rehashWF
  infer_instance

instance [DecidableEq V] (d : Dict K V) : Decidable (WF d) := by
  unfold WF
  infer_instance

/-- Type-descriptor coherence: the comparator only identifies keys with equal
hashes (true of every descriptor the system installs). -/
def CompareCoherent (t : DictType K V) : Prop :=
  ∀ k1 k2, dictCompareKeys t k1 k2 = true → hashOf t k1 = hashOf t k2

/-- Type-descriptor coherence: `keyDup` produces a key with the same hash. -/
def DupCoherent (t : DictType K V) : Prop :=
  ∀ k, hashOf t (dictKeyDupApply t k) = hashOf t k

/-! ## Concrete instances used for witnesses and counterexamples -/

/-- A descriptor with identity hash on small `Nat` keys, no duplication, key
identity comparison, no destructors. -/
def natDictType : DictType Nat Nat :=
  { hashFunction := fun k => k, keyDup := none, valDup := none,
    keyCompare := none, keyDestructor := false, valDestructor := false }

/-- `natDictType` with a value destructor installed. -/
def natDictTypeD : DictType Nat Nat :=
  { natDictType with valDestructor := true }

/-- Run `dictAdd` and keep the dictionary (fallback never taken in the
concrete runs below, all of which are checked by evaluation). -/
def addRun (cr : Bool) (addr : Nat) (d : Dict Nat Nat) (k v : Nat) :
    Dict Nat Nat :=
  match dictAdd cr addr d k v with
  | some ((_, d2), _) => d2
  | none => d

/-- Run `dictRehash` and keep the dictionary. -/
def rehashRun (d : Dict Nat Nat) (n : Nat) : Dict Nat Nat :=
  match dictRehash d n with
  | some (_, d2) => d2
  | none => d

/-! ## C1: the scan protocol on a shrinking table -/

/-- Size-16 table allocated directly (first allocation, no migration). -/
def scanBugD0 : Dict Nat Nat := (dictExpand (dictCreate natDictType) 16 100).2

/-- One entry, key 4 (hash 4, bucket 4 of the size-16 table). -/
def scanBugD1 : Dict Nat Nat := addRun true 0 scanBugD0 4 0

/-- `dictExpand` to 4 arms a shrinking rehash (16 → 4); no step taken yet. -/
def scanBugD2 : Dict Nat Nat := (dictExpand scanBugD1 4 200).2

/-- The migration completed: key 4 now lives in bucket 0 of the size-4
table. -/
def scanBugD3 : Dict Nat Nat := rehashRun scanBugD2 10

/-- The table `dictExpand` allocates. -/
def newHt (realsize addr : Nat) : Dictht K V :=
  { table := Array.mkArray realsize [], tableId := addr,
    size := realsize, sizemask := realsize - 1, used := 0 }

/-- One entry (key 1), then an unsafe iterator advanced once. -/
def fpBugD0 : Dict Nat Nat := addRun true 50 (dictCreate natDictType) 1 10

/-- The dictionary after the unsafe iterator's first advance. -/
def fpBugD1 : Dict Nat Nat :=
  (dictNext fpBugD0 (dictGetIterator : DictIterator Nat Nat)).2.1

/-- The advanced unsafe iterator (fingerprint recorded). -/
def fpBugIt : DictIterator Nat Nat :=
  (dictNext fpBugD0 (dictGetIterator : DictIterator Nat Nat)).2.2

/-- Structural mutation while the iterator is live: `dictAdd` of key 2. -/
def fpBugD2 : Dict Nat Nat := addRun true 60 fpBugD1 2 20

/-- A second mutation undoing the first: `dictDelete` of key 2. -/
def fpBugD3 : Dict Nat Nat :=
  match dictDelete fpBugD2 2 with
  | some ((_, d), _) => d
  | none => fpBugD2

/-- The search part of `dictFind` (everything after the rehash step). -/
def findPure (d : Dict K V) (k : K) : Option (Nat × Nat × Nat) :=
  let h := hashOf d.type k
  let i0 := h &&& d.ht0.sizemask
  match chainFindPos d.type k (bucketGet d.ht0 i0) with
  | some p => some (0, i0, p)
  | none =>
    if ¬ dictIsRehashing d then none
    else
      let i1 := h &&& d.ht1.sizemask
      match chainFindPos d.type k (bucketGet d.ht1 i1) with
      | some p => some (1, i1, p)
      | none => none

/-- The part of `dictGenericDelete` after the rehash step. -/
def deleteCore (d : Dict K V) (k : K) (nofree : Bool) :
    (Bool × Dict K V) × List (DictEvent V) :=
  let h := hashOf d.type k
  let i0 := h &&& d.ht0.sizemask
  match chainUnlink d.type k (bucketGet d.ht0 i0) with
  | some (he, rest) =>
    ((true, { d with ht0 := { bucketSet d.ht0 i0 rest with used := d.ht0.used - 1 } }),
      if nofree then [] else dictFreeValEvents d.type he.val)
  | none =>
    if ¬ dictIsRehashing d then ((false, d), [])
    else
      let i1 := h &&& d.ht1.sizemask
      match chainUnlink d.type k (bucketGet d.ht1 i1) with
      | some (he, rest) =>
        ((true, { d with ht1 := { bucketSet d.ht1 i1 rest with used := d.ht1.used - 1 } }),
          if nofree then [] else dictFreeValEvents d.type he.val)
      | none => ((false, d), [])

/-- The part of `dictAddRaw` after the rehash step. -/
def addRawCore (canResize : Bool) (addr : Nat) (d : Dict K V) (k : K) :
    Option (Nat × Nat) × Dict K V :=
  let (idx?, d) := _dictKeyIndex canResize addr d k
  match idx? with
  | none => (none, d)
  | some idx =>
    let t := if dictIsRehashing d then 1 else 0
    let ht := htGet d t
    let entry : DictEntry K V := { key := dictKeyDupApply d.type k, val := none }
    let ht := { bucketSet ht idx (entry :: bucketGet ht idx) with used := ht.used + 1 }
    (some (t, idx), htPut d t ht)

/-- The conditional opportunistic step shared by the mutating operations. -/
def stepIfRehashing (d : Dict K V) : Option (Dict K V) :=
  if dictIsRehashing d then _dictRehashStep d else some d

/-- Repeated single-bucket `dictRehash` calls (the claim's
"repeatedly calling dictRehash"). -/
def rehashNIter (d : Dict K V) : Nat → Option (Dict K V)
  | 0 => some d
  | k + 1 =>
    match dictRehash d 1 with
    | some (_, d2) => rehashNIter d2 k
    | none => none

/-- A concrete dictionary caught mid-rehash: keys 0..3 fill the size-4
table, adding key 4 arms the migration to a size-8 table. -/
def rehashingEx : Dict Nat Nat :=
  addRun true 99
    (addRun true 0 (addRun true 0 (addRun true 0 (addRun true 0
      (dictCreate natDictType) 0 10) 1 11) 2 12) 3 13) 4 14

/-- A full size-4 table (keys 0..3), not rehashing. -/
def c5base : Dict Nat Nat :=
  addRun true 0 (addRun true 0 (addRun true 0 (addRun true 0
    (dictCreate natDictType) 0 10) 1 11) 2 12) 3 13

/-- `c5base` with a safe iterator bound (after its first advance the
dictionary's safe-iterator counter is 1). -/
def c5bound : Dict Nat Nat := (dictNext c5base dictGetSafeIterator).2.1

/-- A rehashing dictionary with the safe-iterator counter at 1. -/
def c5reh : Dict Nat Nat := (dictNext rehashingEx dictGetSafeIterator).2.1

/-- The bucket insertion performed by `dictAddRaw`: new entry at the head of
chain `i`, used-count incremented. -/
def htInsert (ht : Dictht K V) (i : Nat) (e : DictEntry K V) : Dictht K V :=
  { bucketSet ht i (e :: bucketGet ht i) with used := ht.used + 1 }

/-- The bucket splice performed by `dictGenericDelete`: the unlinked chain
written back, used-count decremented. -/
def htRemoveAt (ht : Dictht K V) (i : Nat) (rest : List (DictEntry K V)) :
    Dictht K V :=
  { bucketSet ht i rest with used := ht.used - 1 }

instance (d : Dict K V) (k : K) : Decidable (keyPresent d k) := by
  unfold keyPresent
  infer_instance

/-- One entry (key 1, value 10) under the descriptor with a value
destructor. -/
def c6d : Dict Nat Nat := addRun true 50 (dictCreate natDictTypeD) 1 10

/-- The mutating operations of the public API, as data (the claim's "any
sequence of operations"). -/
inductive DictOp (K V : Type) where
  | add (cr : Bool) (a : Nat) (k : K) (v : V)
  | replace (cr : Bool) (a : Nat) (k : K) (v : V)
  | delete (k : K)
  | deleteNoFree (k : K)
  | expand (size : Nat) (a : Nat)
  | rehash (n : Nat)

/-- Run one operation, keeping the resulting dictionary. -/
def applyOp (d : Dict K V) : DictOp K V → Option (Dict K V)
  | DictOp.add cr a k v => (dictAdd cr a d k v).map (fun p => p.1.2)
  | DictOp.replace cr a k v => (dictReplace cr a d k v).map (fun p => p.1.2)
  | DictOp.delete k => (dictDelete d k).map (fun p => p.1.2)
  | DictOp.deleteNoFree k => (dictDeleteNoFree d k).map (fun p => p.1.2)
  | DictOp.expand n a => some (dictExpand d n a).2
  | DictOp.rehash n => (dictRehash d n).map (fun p => p.2)

/-- Run a sequence of operations. -/
def applyOps (d : Dict K V) : List (DictOp K V) → Option (Dict K V)
  | [] => some d
  | op :: ops =>
    match applyOp d op with
    | some d2 => applyOps d2 ops
    | none => none

/-- A concrete operation sequence exercising expansion, rehash steps,
replacement and deletion. -/
def c3ops : List (DictOp Nat Nat) :=
  [DictOp.add true 0 0 10, DictOp.add true 0 1 11, DictOp.add true 0 2 12,
   DictOp.add true 0 3 13, DictOp.add true 0 4 14, DictOp.rehash 1,
   DictOp.replace true 0 3 99, DictOp.delete 2, DictOp.deleteNoFree 0,
   DictOp.expand 32 7, DictOp.rehash 100]

/-- The state the sequence produces. -/
def c3final : Dict Nat Nat :=
  (applyOps (dictCreate natDictType) c3ops).getD (dictCreate natDictType)

/-- The entries of buckets `i, i+1, …` of one table, in bucket order. -/
def tailBuckets (ht : Dictht K V) (i : Nat) : List (DictEntry K V) :=
  (ht.table.toList.drop i).flatten

/-- What remains to be emitted after finishing bucket `j` of table `T`. -/
def tailAll (d : Dict K V) (T j : Nat) : List (DictEntry K V) :=
  tailBuckets (htGet d T) (j + 1) ++
    (if T = 0 ∧ dictIsRehashing d = true then tableFlatten d.ht1 else [])

/-- The safe-iterator invariant between `dictNext` calls: the iterator sits
inside bucket `j` of table `T` (the head of `entry` was just emitted), and
`rem` is exactly the list of entries still to come. -/
def IterInv (d : Dict K V) (it : DictIterator K V)
    (rem : List (DictEntry K V)) : Prop :=
  it.safe = true ∧ ∃ (T j : Nat) (next : List (DictEntry K V)),
    (T = 0 ∨ (T = 1 ∧ dictIsRehashing d = true)) ∧
    it.table = T ∧ it.index = (j : Int) ∧ j < (htGet d T).size ∧
    it.entry ≠ [] ∧ it.nextEntry = next ∧
    rem = next ++ tailAll d T j

/-- Run the iterator to exhaustion, collecting the entries `dictNext`
returns (the canonical `while((entry = dictNext(iter)) != NULL)` client
loop, fuelled by the number of calls). -/
def runIter (d : Dict K V) (it : DictIterator K V) : Nat → List (DictEntry K V)
  | 0 => []
  | fuel + 1 =>
    match dictNext d it with
    | (none, _, _) => []
    | (some e, d2, it2) => e :: runIter d2 it2 fuel

/-! ## Theorems -/

/-- C1: Scan cursor protocol.  The claim asserts that every key present in
the dictionary for the entire duration of a scan session is delivered to the
callback at least once.  The code violates this (contradicting the guarantee
stated in the `dictScan` comment block): with one entry of hash 4 present
throughout, the session started at cursor 0 over a 16-bucket table, shrunk
mid-session to 4 buckets, follows the cursors 0, 8, 2, 1, 3 back to 0 —
finitely many calls, but every call's emission list is empty, so the key is
never delivered.  Call 1 (cursor 8, mid-rehash) scans new-table bucket 0 and
old-table buckets 8 and 12 only: the old-table expansion loop starts at the
cursor's own mid bits, silently skipping not-yet-migrated bucket 4. -/
theorem C1_scan_misses_present_key :
    ((dictExpand scanBugD1 4 200).1 = true ∧
      (dictRehash scanBugD2 10).map (fun p => p.1) = some false ∧
      scanBugD3.rehashidx = -1) ∧
    (allEntries scanBugD1 = [{ key := 4, val := some 0 }] ∧
      allEntries scanBugD2 = [{ key := 4, val := some 0 }] ∧
      allEntries scanBugD3 = [{ key := 4, val := some 0 }]) ∧
    (dictScan scanBugD1 0 = ([], 8) ∧
      dictScan scanBugD2 8 = ([], 2) ∧
      dictScan scanBugD3 2 = ([], 1) ∧
      dictScan scanBugD3 1 = ([], 3) ∧
      dictScan scanBugD3 3 = ([], 0)) := by
  decide

/-! ## C9: the `dictExpand` contract -/

/-- The doubling loop computes the least power of two that is at least
`size`, starting from `2 ^ k`, given enough fuel. -/
theorem nextPowerLoop_spec (fuel : Nat) :
    ∀ k size : Nat, size ≤ 2 ^ (k + fuel) →
    ∃ m, k ≤ m ∧ _dictNextPowerLoop fuel (2 ^ k) size = 2 ^ m ∧ size ≤ 2 ^ m ∧
      (∀ j, k ≤ j → size ≤ 2 ^ j → m ≤ j) := by
  induction fuel with
  | zero =>
    intro k size h
    exact ⟨k, le_refl k, rfl, by simpa using h, fun j hj _ => hj⟩
  | succ fuel ih =>
    intro k size h
    by_cases hge : 2 ^ k ≥ size
    · exact ⟨k, le_refl k, by simp [_dictNextPowerLoop, hge], hge, fun j hj _ => hj⟩
    · have h2 : size ≤ 2 ^ (k + 1 + fuel) := by
        have : k + 1 + fuel = k + (fuel + 1) := by omega
        rw [this]; exact h
      obtain ⟨m, hkm, hloop, hsz, hmin⟩ := ih (k + 1) size h2
      refine ⟨m, by omega, ?_, hsz, ?_⟩
      · have : (2 : Nat) ^ k * 2 = 2 ^ (k + 1) := by ring
        simp only [_dictNextPowerLoop, hge, if_neg (by omega : ¬ 2 ^ k ≥ size)]
        rw [this]; exact hloop
      · intro j hj hjs
        have hjk : j ≠ k := by
          rintro rfl; exact hge hjs
        exact hmin j (by omega) hjs

/-- `_dictNextPower` below `LONG_MAX`: the least power of two ≥ `size`,
minimum 4. -/
theorem nextPower_spec (size : Nat) (h : size < LONG_MAX) :
    ∃ m, 2 ≤ m ∧ _dictNextPower size = 2 ^ m ∧ size ≤ 2 ^ m ∧
      (∀ j, 2 ≤ j → size ≤ 2 ^ j → m ≤ j) := by
  have hn : ¬ size ≥ LONG_MAX := by omega
  have hb : size ≤ 2 ^ (2 + 64) := by
    have : LONG_MAX ≤ 2 ^ (2 + 64) := by norm_num [LONG_MAX]
    omega
  obtain ⟨m, hm2, hloop, hsz, hmin⟩ := nextPowerLoop_spec 64 2 size hb
  refine ⟨m, hm2, ?_, hsz, hmin⟩
  simpa [_dictNextPower, hn] using hloop

/-- `dictExpand` on the error path. -/
theorem dictExpand_err (d : Dict K V) (size addr : Nat)
    (h : dictIsRehashing d = true ∨ d.ht0.used > size) :
    dictExpand d size addr = (false, d) := by
  simp only [dictExpand]
  rw [if_pos h]

/-- `dictExpand` on the first-allocation path. -/
theorem dictExpand_first (d : Dict K V) (size addr : Nat)
    (hne : ¬ (dictIsRehashing d = true ∨ d.ht0.used > size))
    (htbl : d.ht0.table.size = 0) :
    dictExpand d size addr =
      (true, { d with ht0 := newHt (_dictNextPower size) addr }) := by
  simp only [dictExpand, newHt]
  rw [if_neg hne, if_pos htbl]

/-- `dictExpand` on the rehash-arming path. -/
theorem dictExpand_arm (d : Dict K V) (size addr : Nat)
    (hne : ¬ (dictIsRehashing d = true ∨ d.ht0.used > size))
    (htbl : ¬ d.ht0.table.size = 0) :
    dictExpand d size addr =
      (true,
        { d with ht1 := newHt (_dictNextPower size) addr, rehashidx := 0 }) := by
  simp only [dictExpand, newHt]
  rw [if_neg hne, if_neg htbl]

/-- C9 counterexample: `dictExpand` on a fresh dictionary with requested size
`2 ^ 63` succeeds, but the allocated capacity is `LONG_MAX = 2 ^ 63 - 1`,
which is smaller than the requested size and not a power of two — refuting
"the least power of two that is >= the requested size". -/
theorem C9_counterexample_expand_capacity_not_power :
    (dictExpand (dictCreate natDictType) (2 ^ 63) 7).1 = true ∧
    (dictExpand (dictCreate natDictType) (2 ^ 63) 7).2.ht0.size = 2 ^ 63 - 1 ∧
    2 ^ 63 - 1 < 2 ^ 63 ∧
    (∀ m : Nat, 2 ^ m ≠ 2 ^ 63 - 1) := by
  have hnp : _dictNextPower (2 ^ 63) = 2 ^ 63 - 1 := by
    have h : (2 : Nat) ^ 63 ≥ LONG_MAX := by norm_num [LONG_MAX]
    rw [_dictNextPower, if_pos h]
    norm_num [LONG_MAX]
  have hfirst := dictExpand_first (dictCreate natDictType) (2 ^ 63) 7
    (by simp [dictCreate, dictIsRehashing, _dictReset]) (by simp [dictCreate, _dictReset])
  refine ⟨?_, ?_, by norm_num, ?_⟩
  · rw [hfirst]
  · rw [hfirst, hnp]
    simp [newHt]
  · intro m
    match m with
    | 0 => norm_num
    | j + 1 =>
      intro hcon
      have heven : 2 ∣ 2 ^ (j + 1) := Dvd.intro (2 ^ j) (by ring)
      have hodd : ¬ (2 ∣ (2 ^ 63 - 1 : Nat)) := by decide
      rw [hcon] at heven
      exact hodd heven

/-- C9 (amended): `dictExpand` errs iff already rehashing or `ht[0].used`
exceeds the requested size, leaving the dictionary unchanged; on success the
new table's capacity is the least power of two ≥ the requested size (minimum
4) **provided the requested size is below `LONG_MAX`** (beyond that the
capacity is capped at `LONG_MAX`, which is not a power of two); the new table
becomes `ht[0]` when `ht[0]` was never allocated (`rehashidx` staying -1) and
otherwise `ht[1]` with `rehashidx` set to 0. -/
theorem C9_amended_expand_contract (d : Dict K V) (size addr : Nat) :
    ((dictExpand d size addr).1 = false ↔
      (dictIsRehashing d = true ∨ d.ht0.used > size)) ∧
    ((dictExpand d size addr).1 = false → (dictExpand d size addr).2 = d) ∧
    ((dictExpand d size addr).1 = true → size < LONG_MAX →
      (∃ m, 2 ≤ m ∧ _dictNextPower size = 2 ^ m ∧ size ≤ 2 ^ m ∧
        (∀ j, 2 ≤ j → size ≤ 2 ^ j → m ≤ j)) ∧
      (d.ht0.table.size = 0 →
        (dictExpand d size addr).2.ht0.size = _dictNextPower size ∧
        (dictExpand d size addr).2.ht0.used = 0 ∧
        (dictExpand d size addr).2.rehashidx = -1 ∧
        (dictExpand d size addr).2.ht1 = d.ht1) ∧
      (d.ht0.table.size ≠ 0 →
        (dictExpand d size addr).2.ht1.size = _dictNextPower size ∧
        (dictExpand d size addr).2.ht1.used = 0 ∧
        (dictExpand d size addr).2.rehashidx = 0 ∧
        (dictExpand d size addr).2.ht0 = d.ht0)) := by
  by_cases herr : dictIsRehashing d = true ∨ d.ht0.used > size
  · have h1 := dictExpand_err d size addr herr
    refine ⟨by simp [h1, herr], ?_, ?_⟩
    · intro _
      rw [h1]
    · intro hok
      rw [h1] at hok; exact absurd hok (by simp)
  · have hne : ¬ (dictIsRehashing d = true ∨ d.ht0.used > size) := herr
    by_cases htbl : d.ht0.table.size = 0
    · have h2 := dictExpand_first d size addr hne htbl
      have hreh : d.rehashidx = -1 := by
        rcases Decidable.em (d.rehashidx = -1) with h | h
        · exact h
        · exact absurd (Or.inl (by simp [dictIsRehashing, h])) hne
      refine ⟨by simp [h2, hne], by simp [h2], ?_⟩
      intro _ hsize
      exact ⟨nextPower_spec size hsize,
        fun _ => by simp [h2, newHt, hreh], fun hc => absurd htbl hc⟩
    · have h2 := dictExpand_arm d size addr hne htbl
      refine ⟨by simp [h2, hne], by simp [h2], ?_⟩
      intro _ hsize
      exact ⟨nextPower_spec size hsize,
        fun hc => absurd hc htbl, fun _ => by simp [h2, newHt]⟩

/-- Witness for C9 (amended): expand of a fresh dictionary to requested size
5 allocates capacity 8 in `ht[0]`, rehash not armed. -/
theorem C9_amended_witness :
    (dictExpand (dictCreate natDictType) 5 7).2.ht0.size = _dictNextPower 5 ∧
    _dictNextPower 5 = 8 ∧
    (dictExpand (dictCreate natDictType) 5 7).2.rehashidx = -1 := by
  have h := C9_amended_expand_contract (dictCreate natDictType) 5 7
  have hok : (dictExpand (dictCreate natDictType) 5 7).1 = true := by decide
  have h3 := (h.2.2 hok (by norm_num [LONG_MAX])).2.1 (by decide)
  exact ⟨h3.1, by decide, h3.2.2.1⟩

/-! ## C10 / C8: iterator first-advance and release -/

/-- A loop pass of `dictNext` on an already-advanced iterator (`index ≥ 0`)
leaves the dictionary untouched and preserves the advanced state, the safe
flag and the recorded fingerprint. -/
theorem dictNextBody_advanced (d : Dict K V) (it : DictIterator K V)
    (h : 0 ≤ it.index) :
    ∃ r it2, dictNextBody d it = (r, d, it2) ∧ 0 ≤ it2.index ∧
      it2.safe = it.safe ∧ it2.fingerprint = it.fingerprint := by
  have hne : ¬ (it.index = -1 ∧ it.table = 0) := by
    intro hc
    omega
  by_cases h1 : it.entry.isEmpty
  · simp only [dictNextBody, dictNextEmit, if_pos h1, if_neg hne]
    by_cases h2 : it.index + 1 ≥ ((htGet d it.table).size : Int)
    · simp only [if_pos h2]
      by_cases h3 : dictIsRehashing d = true ∧ it.table = 0
      · simp only [if_pos h3]
        rcases hb : bucketGet (htGet d 1) 0 with _ | ⟨e, rest⟩
        · exact ⟨none, _, rfl, by simp, rfl, rfl⟩
        · exact ⟨some (some e), _, rfl, by simp, rfl, rfl⟩
      · simp only [if_neg h3]
        exact ⟨some none, _, rfl, by simpa using by omega, rfl, rfl⟩
    · simp only [if_neg h2]
      rcases hb : bucketGet (htGet d it.table) (it.index + 1).toNat with _ | ⟨e, rest⟩
      · exact ⟨none, _, rfl, by simpa using by omega, rfl, rfl⟩
      · exact ⟨some (some e), _, rfl, by simpa using by omega, rfl, rfl⟩
  · simp only [dictNextBody, dictNextEmit, if_neg h1]
    rcases hb : it.nextEntry with _ | ⟨e, rest⟩
    · exact ⟨none, _, rfl, h, rfl, rfl⟩
    · exact ⟨some (some e), _, rfl, h, rfl, rfl⟩

/-- `dictNextAux` on an already-advanced iterator: dictionary unchanged,
iterator stays advanced with the same safe flag and fingerprint. -/
theorem dictNextAux_advanced (fuel : Nat) :
    ∀ (d : Dict K V) (it : DictIterator K V), 0 ≤ it.index →
    (dictNextAux fuel d it).2.1 = d ∧ 0 ≤ (dictNextAux fuel d it).2.2.index ∧
    (dictNextAux fuel d it).2.2.safe = it.safe ∧
    (dictNextAux fuel d it).2.2.fingerprint = it.fingerprint := by
  induction fuel with
  | zero =>
    intro d it h
    exact ⟨rfl, h, rfl, rfl⟩
  | succ fuel ih =>
    intro d it h
    obtain ⟨r, it2, heq, hidx, hsafe, hfp⟩ := dictNextBody_advanced d it h
    cases r with
    | some r0 =>
      simp only [dictNextAux, heq]
      exact ⟨by trivial, hidx, hsafe, hfp⟩
    | none =>
      simp only [dictNextAux, heq]
      obtain ⟨h1, h2, h3, h4⟩ := ih d it2 hidx
      exact ⟨h1, h2, by rw [h3, hsafe], by rw [h4, hfp]⟩

/-- The first loop pass of `dictNext` on a fresh iterator performs the
first-advance bookkeeping: safe bumps the counter, unsafe snapshots the
fingerprint; afterwards the iterator counts as advanced. -/
theorem dictNextBody_fresh (d : Dict K V) (safeFlag : Bool) (fp : Nat) :
    ∃ r it2,
      dictNextBody d { (dictGetIterator : DictIterator K V) with
          safe := safeFlag, fingerprint := fp } =
        (r, (if safeFlag then { d with iterators := d.iterators + 1 } else d), it2) ∧
      0 ≤ it2.index ∧ it2.safe = safeFlag ∧
      it2.fingerprint = (if safeFlag then fp else dictFingerprint d) := by
  by_cases h2 : d.ht0.size = 0
  · by_cases h3 : d.rehashidx = -1
    · refine ⟨some none,
        ⟨0, 0, safeFlag, [], [], if safeFlag then fp else dictFingerprint d⟩,
        ?_, by simp, rfl, rfl⟩
      cases safeFlag <;>
        simp [dictNextBody, dictNextEmit, dictGetIterator, htGet, dictIsRehashing, h2, h3]
    · rcases hb : bucketGet d.ht1 0 with _ | ⟨e, rest⟩
      · refine ⟨none,
          ⟨1, 0, safeFlag, [], [], if safeFlag then fp else dictFingerprint d⟩,
          ?_, by simp, rfl, rfl⟩
        cases safeFlag <;>
          simp [dictNextBody, dictNextEmit, dictGetIterator, htGet, dictIsRehashing, h2, h3, hb]
      · refine ⟨some (some e),
          ⟨1, 0, safeFlag, e :: rest, rest, if safeFlag then fp else dictFingerprint d⟩,
          ?_, by simp, rfl, rfl⟩
        cases safeFlag <;>
          simp [dictNextBody, dictNextEmit, dictGetIterator, htGet, dictIsRehashing, h2, h3, hb]
  · rcases hb : bucketGet d.ht0 0 with _ | ⟨e, rest⟩
    · refine ⟨none,
        ⟨0, 0, safeFlag, [], [], if safeFlag then fp else dictFingerprint d⟩,
        ?_, by simp, rfl, rfl⟩
      cases safeFlag <;>
        simp [dictNextBody, dictNextEmit, dictGetIterator, htGet, dictIsRehashing, h2, hb]
    · refine ⟨some (some e),
        ⟨0, 0, safeFlag, e :: rest, rest, if safeFlag then fp else dictFingerprint d⟩,
        ?_, by simp, rfl, rfl⟩
      cases safeFlag <;>
        simp [dictNextBody, dictNextEmit, dictGetIterator, htGet, dictIsRehashing, h2, hb]

/-- `dictNext` on a fresh iterator: safe bumps the counter (and only that),
unsafe leaves the dictionary alone and snapshots the fingerprint; either way
the iterator comes back advanced (`index ≥ 0`) with its flag intact. -/
theorem dictNext_fresh (d : Dict K V) (safeFlag : Bool) (fp : Nat) :
    (dictNext d { (dictGetIterator : DictIterator K V) with
        safe := safeFlag, fingerprint := fp }).2.1 =
      (if safeFlag then { d with iterators := d.iterators + 1 } else d) ∧
    0 ≤ (dictNext d { (dictGetIterator : DictIterator K V) with
        safe := safeFlag, fingerprint := fp }).2.2.index ∧
    (dictNext d { (dictGetIterator : DictIterator K V) with
        safe := safeFlag, fingerprint := fp }).2.2.safe = safeFlag ∧
    (dictNext d { (dictGetIterator : DictIterator K V) with
        safe := safeFlag, fingerprint := fp }).2.2.fingerprint =
      (if safeFlag then fp else dictFingerprint d) := by
  obtain ⟨r, it2, heq, hidx, hsafe, hfp⟩ := dictNextBody_fresh d safeFlag fp
  cases r with
  | some r0 =>
    have hstep : dictNext d { (dictGetIterator : DictIterator K V) with
        safe := safeFlag, fingerprint := fp } =
        (r0, (if safeFlag then { d with iterators := d.iterators + 1 } else d), it2) := by
      show dictNextAux (d.ht0.size + d.ht1.size + 3 + 1) d _ = _
      simp only [dictNextAux, heq]
    rw [hstep]
    exact ⟨rfl, hidx, hsafe, hfp⟩
  | none =>
    have hstep : dictNext d { (dictGetIterator : DictIterator K V) with
        safe := safeFlag, fingerprint := fp } =
        dictNextAux (d.ht0.size + d.ht1.size + 3)
          (if safeFlag then { d with iterators := d.iterators + 1 } else d) it2 := by
      show dictNextAux (d.ht0.size + d.ht1.size + 3 + 1) d _ = _
      simp only [dictNextAux, heq]
    rw [hstep]
    obtain ⟨h1, h2, h3, h4⟩ :=
      dictNextAux_advanced (d.ht0.size + d.ht1.size + 3)
        (if safeFlag then { d with iterators := d.iterators + 1 } else d) it2 hidx
    exact ⟨h1, h2, by rw [h3, hsafe], by rw [h4, hfp]⟩

/-- C10: releasing an iterator on which `next` was never called performs no
fingerprint check (any recorded fingerprint, matching or not, is ignored) and
leaves the safe-iterator counter alone; the counter increment (safe) and the
fingerprint snapshot (unsafe) happen exactly at the first `next` call. -/
theorem C10_fresh_iterator_release_no_effect (d : Dict K V) (safeFlag : Bool)
    (fp : Nat) :
    dictReleaseIterator d { (dictGetIterator : DictIterator K V) with
        safe := safeFlag, fingerprint := fp } = some d ∧
    (dictNext d (dictGetSafeIterator : DictIterator K V)).2.1 =
      { d with iterators := d.iterators + 1 } ∧
    (dictNext d (dictGetIterator : DictIterator K V)).2.1 = d ∧
    (dictNext d (dictGetIterator : DictIterator K V)).2.2.fingerprint =
      dictFingerprint d := by
  refine ⟨?_, ?_, ?_, ?_⟩
  · simp [dictReleaseIterator, dictGetIterator]
  · have hs : (dictGetSafeIterator : DictIterator K V) =
        { (dictGetIterator : DictIterator K V) with
            safe := true, fingerprint := 0 } := rfl
    rw [hs]
    simpa using (dictNext_fresh d true 0).1
  · have hu : (dictGetIterator : DictIterator K V) =
        { (dictGetIterator : DictIterator K V) with
            safe := false, fingerprint := 0 } := rfl
    rw [hu]
    simpa using (dictNext_fresh d false 0).1
  · have hu : (dictGetIterator : DictIterator K V) =
        { (dictGetIterator : DictIterator K V) with
            safe := false, fingerprint := 0 } := rfl
    rw [hu]
    simpa using (dictNext_fresh d false 0).2.2.2

/-! ## C8: fingerprint-based misuse detection -/

/-- C8 (amended): once an unsafe iterator has been advanced by `dictNext`,
releasing it fails the fatal `FingerprintViolation` assertion **iff** the
fingerprint recomputed at release differs from the one recorded at the first
advance — a structural mutation is detected exactly when it leaves the
six-integer structural summary (both tables' pointer, size, used) hashed to a
different value at release time. -/
theorem C8_amended_detection_iff_fingerprint_changed
    (d dRel : Dict K V) (r : Option (DictEntry K V)) (d2 : Dict K V)
    (it2 : DictIterator K V)
    (hNext : dictNext d (dictGetIterator : DictIterator K V) = (r, d2, it2)) :
    (dictReleaseIterator dRel it2 = none ↔
      dictFingerprint dRel ≠ dictFingerprint d) := by
  have hu : (dictGetIterator : DictIterator K V) =
      { (dictGetIterator : DictIterator K V) with
          safe := false, fingerprint := 0 } := rfl
  have hfresh := dictNext_fresh d false 0
  rw [← hu] at hfresh
  have hidx : 0 ≤ it2.index := by
    have := hfresh.2.1
    rw [hNext] at this
    exact this
  have hsafe : it2.safe = false := by
    have := hfresh.2.2.1
    rw [hNext] at this
    exact this
  have hfp : it2.fingerprint = dictFingerprint d := by
    have := hfresh.2.2.2
    rw [hNext] at this
    simpa using this
  have hadv : ¬ (it2.index = -1 ∧ it2.table = 0) := by
    intro hc
    omega
  rw [dictReleaseIterator, if_pos hadv, hsafe]
  constructor
  · intro hrel hcon
    rw [if_neg (by simp), hfp, if_pos hcon.symm] at hrel
    exact Option.noConfusion hrel
  · intro hne
    rw [if_neg (by simp), hfp, if_neg (fun hc => hne hc.symm)]

/-- C8 counterexample: structural mutations (an Add, changing `ht[0].used`,
then a Delete undoing it) occur between `next` and release of a live unsafe
iterator, yet releasing it passes the assertion (`some`, no
FingerprintViolation): the six structural integers are restored, so the
mismatch the claim promises to detect does not exist.  (The Add alone, at the
same release point, would be detected.) -/
theorem C8_counterexample_mutation_escapes_detection :
    (dictNext fpBugD0 (dictGetIterator : DictIterator Nat Nat)).1 =
      some { key := 1, val := some 10 } ∧
    fpBugD2.ht0.used = 2 ∧ fpBugD1.ht0.used = 1 ∧ fpBugD3.ht0.used = 1 ∧
    (dictReleaseIterator fpBugD3 fpBugIt).isSome = true ∧
    (dictReleaseIterator fpBugD2 fpBugIt).isSome = false := by
  decide

/-- Witness for C8 (amended): after the single Add (used-count 1 → 2), the
recomputed fingerprint differs and release indeed fails the assertion. -/
theorem C8_amended_witness :
    dictReleaseIterator fpBugD2 fpBugIt = none := by
  have h := C8_amended_detection_iff_fingerprint_changed fpBugD0 fpBugD2
    (dictNext fpBugD0 (dictGetIterator : DictIterator Nat Nat)).1
    fpBugD1 fpBugIt rfl
  exact h.mpr (by decide)

/-! ## Bucket-update toolkit -/

/-- Setting an in-bounds bucket updates the underlying list. -/
theorem bucketSet_toList (ht : Dictht K V) (i : Nat) (l : List (DictEntry K V))
    (h : i < ht.table.size) :
    (bucketSet ht i l).table.toList = ht.table.toList.set i l := by
  simp [bucketSet, Array.setD, h]

/-- `bucketSet` leaves every field but `table` alone, and the array size. -/
theorem bucketSet_fields (ht : Dictht K V) (i : Nat) (l : List (DictEntry K V)) :
    (bucketSet ht i l).size = ht.size ∧
    (bucketSet ht i l).sizemask = ht.sizemask ∧
    (bucketSet ht i l).used = ht.used ∧
    (bucketSet ht i l).tableId = ht.tableId ∧
    (bucketSet ht i l).table.size = ht.table.size := by
  refine ⟨rfl, rfl, rfl, rfl, ?_⟩
  simp [bucketSet, Array.setD]
  split <;> simp

/-- Reading a bucket through the underlying list. -/
theorem bucketGet_eq_getD (ht : Dictht K V) (i : Nat) :
    bucketGet ht i = ht.table.toList.getD i [] := by
  simp only [bucketGet, Array.getD, List.getD_eq_getElem?_getD]
  split <;> rename_i h
  · rw [List.getElem?_eq_getElem (by simpa using h)]
    simp only [Option.getD_some]
    exact Array.getElem_eq_getElem_toList (by simpa using h)
  · rw [List.getElem?_eq_none (by simpa using Nat.le_of_not_lt h)]
    simp

/-- Reading after writing. -/
theorem bucketGet_bucketSet (ht : Dictht K V) (i : Nat)
    (l : List (DictEntry K V)) (h : i < ht.table.size) (j : Nat) :
    bucketGet (bucketSet ht i l) j = if j = i then l else bucketGet ht j := by
  rw [bucketGet_eq_getD, bucketGet_eq_getD, bucketSet_toList ht i l h]
  by_cases hj : j = i
  · subst hj
    rw [List.getD_eq_getElem?_getD, List.getElem?_set_self (by simpa using h)]
    simp
  · rw [if_neg hj, List.getD_eq_getElem?_getD, List.getElem?_set_ne (by omega),
      List.getD_eq_getElem?_getD]

/-- Replacing a bucket trades its old contents for the new one: the flattened
table, viewed as a multiset, gains `l` and loses the old bucket. -/
theorem flatten_set_ms (xs : List (List (DictEntry K V))) (i : Nat)
    (l : List (DictEntry K V)) (h : i < xs.length) :
    ((xs.set i l).flatten : Multiset (DictEntry K V)) + (xs.getD i [] : List _) =
      (xs.flatten : Multiset (DictEntry K V)) + (l : List _) := by
  induction xs generalizing i with
  | nil => simp at h
  | cons a xs ih =>
    cases i with
    | zero =>
      simp only [List.set_cons_zero, List.flatten_cons, List.getD_cons_zero,
        ← Multiset.coe_add]
      abel
    | succ i =>
      have h2 : i < xs.length := by simpa using h
      have hih := ih i h2
      simp only [List.set_cons_succ, List.flatten_cons, List.getD_cons_succ,
        ← Multiset.coe_add] at hih ⊢
      rw [add_assoc, hih, ← add_assoc]

/-- `tableFlatten` version of `flatten_set_ms`. -/
theorem tableFlatten_bucketSet_ms (ht : Dictht K V) (i : Nat)
    (l : List (DictEntry K V)) (h : i < ht.table.size) :
    (tableFlatten (bucketSet ht i l) : Multiset (DictEntry K V)) +
        (bucketGet ht i : List _) =
      (tableFlatten ht : Multiset (DictEntry K V)) + (l : List _) := by
  have hlen : i < ht.table.toList.length := by simpa using h
  have hms := flatten_set_ms ht.table.toList i l hlen
  rw [tableFlatten, tableFlatten, bucketSet_toList ht i l h, bucketGet_eq_getD]
  exact hms

/-- The in-bounds bucket is part of the flattened table (as a sublist-style
multiset inequality). -/
theorem bucketGet_subset_flatten (ht : Dictht K V) (i : Nat) :
    ∀ e, e ∈ bucketGet ht i → e ∈ tableFlatten ht := by
  intro e he
  rw [bucketGet_eq_getD] at he
  rw [tableFlatten]
  rcases Nat.lt_or_ge i ht.table.toList.length with h | h
  · rw [List.getD_eq_getElem?_getD, List.getElem?_eq_getElem h] at he
    simp only [Option.getD_some] at he
    exact List.mem_flatten.2 ⟨ht.table.toList[i], List.getElem_mem h, he⟩
  · rw [List.getD_eq_getElem?_getD, List.getElem?_eq_none h] at he
    simp at he

/-! ## Compositional views of the mutating operations

Each operation is `opportunistic rehash step, then a pure core on the stepped
state`; the unfold lemmas below recover that structure from the definitions. -/

/-- `dictFind` is a rehash step followed by the pure search. -/
theorem dictFind_unfold (d : Dict K V) (k : K) :
    dictFind d k =
      if d.ht0.size = 0 then some (none, d)
      else
        match stepIfRehashing d with
        | none => none
        | some d2 => some (findPure d2 k, d2) := by
  by_cases h0 : d.ht0.size = 0
  · simp [dictFind, h0]
  · rw [dictFind, if_neg h0, if_neg h0, stepIfRehashing]
    by_cases hc : dictIsRehashing d = true
    · simp only [if_pos hc]
      cases hstep : _dictRehashStep d with
      | none => simp [hstep]
      | some d2 =>
        simp only [hstep, Option.bind_eq_bind, Option.some_bind, findPure]
        rcases chainFindPos d2.type k
            (bucketGet d2.ht0 (hashOf d2.type k &&& d2.ht0.sizemask)) with _ | p
        · by_cases hr : dictIsRehashing d2 = true
          · simp only [hr]
            rcases chainFindPos d2.type k
                (bucketGet d2.ht1 (hashOf d2.type k &&& d2.ht1.sizemask)) with _ | p <;> simp
          · simp only [Bool.not_eq_true] at hr
            simp [hr]
        · simp
    · simp only [if_neg hc, Option.bind_eq_bind, Option.some_bind, findPure]
      rcases chainFindPos d.type k
          (bucketGet d.ht0 (hashOf d.type k &&& d.ht0.sizemask)) with _ | p
      · simp only [Bool.not_eq_true] at hc
        simp [hc]
      · simp

/-- `dictGenericDelete` is a rehash step followed by the pure removal. -/
theorem dictGenericDelete_unfold (d : Dict K V) (k : K) (nofree : Bool) :
    dictGenericDelete d k nofree =
      if d.ht0.size = 0 then some ((false, d), [])
      else
        match stepIfRehashing d with
        | none => none
        | some d2 => some (deleteCore d2 k nofree) := by
  by_cases h0 : d.ht0.size = 0
  · simp [dictGenericDelete, h0]
  · rw [dictGenericDelete, if_neg h0, if_neg h0, stepIfRehashing]
    by_cases hc : dictIsRehashing d = true
    · simp only [if_pos hc]
      cases hstep : _dictRehashStep d with
      | none => simp [hstep]
      | some d2 =>
        simp only [hstep, Option.bind_eq_bind, Option.some_bind, deleteCore]
        rcases chainUnlink d2.type k
            (bucketGet d2.ht0 (hashOf d2.type k &&& d2.ht0.sizemask)) with _ | ⟨he, rest⟩
        · by_cases hr : dictIsRehashing d2 = true
          · simp only [hr]
            rcases chainUnlink d2.type k
                (bucketGet d2.ht1 (hashOf d2.type k &&& d2.ht1.sizemask)) with _ | ⟨he, rest⟩ <;> simp
          · simp only [Bool.not_eq_true] at hr
            simp [hr]
        · simp
    · simp only [if_neg hc, Option.bind_eq_bind, Option.some_bind, deleteCore]
      rcases chainUnlink d.type k
          (bucketGet d.ht0 (hashOf d.type k &&& d.ht0.sizemask)) with _ | ⟨he, rest⟩
      · simp only [Bool.not_eq_true] at hc
        simp [hc]
      · simp

/-- `dictAddRaw` is a rehash step followed by the pure index-and-insert. -/
theorem dictAddRaw_unfold (canResize : Bool) (addr : Nat) (d : Dict K V) (k : K) :
    dictAddRaw canResize addr d k =
      match stepIfRehashing d with
      | none => none
      | some d2 => some (addRawCore canResize addr d2 k) := by
  rw [dictAddRaw, stepIfRehashing]
  by_cases hc : dictIsRehashing d = true
  · simp only [if_pos hc]
    cases hstep : _dictRehashStep d with
    | none => simp [hstep]
    | some d2 =>
      simp only [hstep, Option.bind_eq_bind, Option.some_bind, addRawCore]
      rcases (_dictKeyIndex canResize addr d2 k) with ⟨_ | idx, d3⟩ <;> simp
  · simp only [if_neg hc, Option.bind_eq_bind, Option.some_bind, addRawCore]
    rcases (_dictKeyIndex canResize addr d k) with ⟨_ | idx, d3⟩ <;> simp

/-- The opportunistic step is suppressed while safe iterators are open. -/
theorem rehashStep_suppressed (d : Dict K V) (hit : d.iterators ≠ 0) :
    _dictRehashStep d = some d := by
  rw [_dictRehashStep, if_neg hit]

/-- With safe iterators open, the conditional step never changes the state. -/
theorem stepIfRehashing_suppressed (d : Dict K V) (hit : d.iterators ≠ 0) :
    stepIfRehashing d = some d := by
  rw [stepIfRehashing]
  by_cases hr : dictIsRehashing d = true
  · rw [if_pos hr]
    exact rehashStep_suppressed d hit
  · rw [if_neg hr]

/-! ## Well-formedness machinery: fresh tables -/

theorem newHt_tableSize (n addr : Nat) : (newHt n addr : Dictht K V).table.size = n := by
  simp [newHt]

theorem newHt_bucketGet (n addr i : Nat) :
    bucketGet (newHt n addr : Dictht K V) i = [] := by
  rw [bucketGet_eq_getD]
  simp only [newHt, Array.toList_mkArray, List.getD_eq_getElem?_getD]
  rcases Nat.lt_or_ge i n with h | h
  · rw [List.getElem?_eq_getElem (by simpa using h)]
    simp [List.getElem_replicate]
  · rw [List.getElem?_eq_none (by simpa using h)]
    simp

theorem flatten_replicate_nil (n : Nat) :
    (List.replicate n ([] : List (DictEntry K V))).flatten = [] := by
  induction n with
  | zero => rfl
  | succ n ih => simp [List.replicate_succ, ih]

theorem newHt_tableFlatten (n addr : Nat) :
    tableFlatten (newHt n addr : Dictht K V) = [] := by
  rw [tableFlatten]
  simp only [newHt, Array.toList_mkArray]
  exact flatten_replicate_nil n

theorem newHt_htWF (n addr : Nat) : htWF (newHt n addr : Dictht K V) := by
  constructor
  · simp [newHt]
  · rfl

theorem newHt_usedWF (n addr : Nat) : usedWF (newHt n addr : Dictht K V) := by
  rw [usedWF]
  have h := newHt_tableFlatten (K := K) (V := V) n addr
  rw [tableFlatten] at h
  rw [← List.length_flatten, h]
  rfl

theorem newHt_placedWF (t : DictType K V) (n addr : Nat) :
    placedWF t (newHt n addr) := by
  intro i hi e he
  rw [newHt_bucketGet] at he
  simp at he

theorem _dictReset_tableFlatten : tableFlatten (_dictReset : Dictht K V) = [] := rfl

theorem _dictReset_htWF : htWF (_dictReset : Dictht K V) := ⟨rfl, rfl⟩

theorem _dictReset_usedWF : usedWF (_dictReset : Dictht K V) := rfl

theorem _dictReset_placedWF (t : DictType K V) : placedWF t _dictReset := by
  intro i hi e he
  simp [_dictReset] at hi

/-- `usedWF` restated through `tableFlatten`. -/
theorem usedWF_iff (ht : Dictht K V) :
    usedWF ht ↔ ht.used = (tableFlatten ht).length := by
  rw [usedWF, tableFlatten, List.length_flatten]

/-- A non-empty bucket read is in bounds. -/
theorem bucketGet_ne_nil_lt (ht : Dictht K V) (i : Nat)
    (h : bucketGet ht i ≠ []) : i < ht.table.size := by
  by_contra hc
  rw [bucketGet_eq_getD, List.getD_eq_getElem?_getD,
    List.getElem?_eq_none (by simpa using Nat.le_of_not_lt hc)] at h
  simp at h

/-! ## Well-formedness machinery: the rehash engine -/

/-- What `moveChain` does to the fields of both tables. -/
theorem moveChain_fields (t : DictType K V) (chain : List (DictEntry K V)) :
    ∀ ht0 ht1 : Dictht K V,
      (moveChain t chain ht0 ht1).1 = { ht0 with used := ht0.used - chain.length } ∧
      (moveChain t chain ht0 ht1).2.size = ht1.size ∧
      (moveChain t chain ht0 ht1).2.sizemask = ht1.sizemask ∧
      (moveChain t chain ht0 ht1).2.tableId = ht1.tableId ∧
      (moveChain t chain ht0 ht1).2.table.size = ht1.table.size ∧
      (moveChain t chain ht0 ht1).2.used = ht1.used + chain.length := by
  induction chain with
  | nil =>
    intro ht0 ht1
    refine ⟨?_, rfl, rfl, rfl, rfl, rfl⟩
    rw [moveChain]
    cases ht0
    simp
  | cons de rest ih =>
    intro ht0 ht1
    rw [moveChain]
    set i := hashOf t de.key &&& ht1.sizemask with hidef
    set ht1b : Dictht K V :=
      { bucketSet ht1 i (de :: bucketGet ht1 i) with used := ht1.used + 1 } with hbdef
    set ht0b : Dictht K V := { ht0 with used := ht0.used - 1 } with h0def
    obtain ⟨h1, h2, h3, h4, h5, h6⟩ := ih ht0b ht1b
    have hf := bucketSet_fields ht1 i (de :: bucketGet ht1 i)
    refine ⟨?_, ?_, ?_, ?_, ?_, ?_⟩
    · rw [h1, h0def]
      simp only [List.length_cons]
      congr 1
      omega
    · rw [h2, hbdef]
      exact hf.1
    · rw [h3, hbdef]
      exact hf.2.1
    · rw [h4, hbdef]
      exact hf.2.2.2.1
    · rw [h5, hbdef]
      exact hf.2.2.2.2
    · rw [h6, hbdef]
      show ht1.used + 1 + rest.length = ht1.used + (de :: rest).length
      simp only [List.length_cons]
      omega

/-- `moveChain` conserves entries: the target table gains exactly the chain. -/
theorem moveChain_flatten_ms (t : DictType K V) (chain : List (DictEntry K V)) :
    ∀ ht0 ht1 : Dictht K V, htWF ht1 → 0 < ht1.size →
      ((tableFlatten (moveChain t chain ht0 ht1).2 : Multiset (DictEntry K V))) =
        (tableFlatten ht1 : Multiset (DictEntry K V)) + (chain : List _) := by
  induction chain with
  | nil =>
    intro ht0 ht1 hwf hpos
    simp [moveChain]
  | cons de rest ih =>
    intro ht0 ht1 hwf hpos
    rw [moveChain]
    set i := hashOf t de.key &&& ht1.sizemask with hi
    set ht1b : Dictht K V :=
      { bucketSet ht1 i (de :: bucketGet ht1 i) with used := ht1.used + 1 } with hht1b
    have hiLt : i < ht1.table.size := by
      rw [hwf.1]
      calc i ≤ ht1.sizemask := Nat.and_le_right
        _ = ht1.size - 1 := hwf.2
        _ < ht1.size := by omega
    have hf := bucketSet_fields ht1 i (de :: bucketGet ht1 i)
    have hwfb : htWF ht1b := by
      constructor
      · rw [hht1b]
        show (bucketSet ht1 i (de :: bucketGet ht1 i)).table.size =
          (bucketSet ht1 i (de :: bucketGet ht1 i)).size
        rw [hf.2.2.2.2, hf.1, hwf.1]
      · rw [hht1b]
        show (bucketSet ht1 i (de :: bucketGet ht1 i)).sizemask =
          (bucketSet ht1 i (de :: bucketGet ht1 i)).size - 1
        rw [hf.2.1, hf.1, hwf.2]
    have hposb : 0 < ht1b.size := by
      rw [hht1b]
      show 0 < (bucketSet ht1 i (de :: bucketGet ht1 i)).size
      rw [hf.1]
      exact hpos
    have hrec := ih { ht0 with used := ht0.used - 1 } ht1b hwfb hposb
    rw [hrec]
    have hflat : tableFlatten ht1b = tableFlatten (bucketSet ht1 i (de :: bucketGet ht1 i)) := rfl
    have hms := tableFlatten_bucketSet_ms ht1 i (de :: bucketGet ht1 i) hiLt
    have hX : (tableFlatten (bucketSet ht1 i (de :: bucketGet ht1 i)) : Multiset (DictEntry K V)) =
        (tableFlatten ht1 : Multiset (DictEntry K V)) + {de} := by
      have h2 : (tableFlatten (bucketSet ht1 i (de :: bucketGet ht1 i)) : Multiset (DictEntry K V)) +
            (bucketGet ht1 i : Multiset (DictEntry K V)) =
          ((tableFlatten ht1 : Multiset (DictEntry K V)) + {de}) +
            (bucketGet ht1 i : Multiset (DictEntry K V)) := by
        rw [hms, ← Multiset.cons_coe, ← Multiset.singleton_add, add_assoc]
      exact add_right_cancel h2
    rw [hflat, hX, add_assoc]
    congr 1

/-- `moveChain` keeps every target entry at its recomputed masked hash. -/
theorem moveChain_placedWF (t : DictType K V) (chain : List (DictEntry K V)) :
    ∀ ht0 ht1 : Dictht K V, htWF ht1 → 0 < ht1.size → placedWF t ht1 →
      placedWF t (moveChain t chain ht0 ht1).2 := by
  induction chain with
  | nil =>
    intro ht0 ht1 hwf hpos hp
    simpa [moveChain] using hp
  | cons de rest ih =>
    intro ht0 ht1 hwf hpos hp
    rw [moveChain]
    set i := hashOf t de.key &&& ht1.sizemask with hidef
    set ht1b : Dictht K V :=
      { bucketSet ht1 i (de :: bucketGet ht1 i) with used := ht1.used + 1 } with hbdef
    have hf := bucketSet_fields ht1 i (de :: bucketGet ht1 i)
    have hiLt : i < ht1.table.size := by
      rw [hwf.1]
      calc i ≤ ht1.sizemask := Nat.and_le_right
        _ = ht1.size - 1 := hwf.2
        _ < ht1.size := by omega
    have hwfb : htWF ht1b := by
      constructor
      · show (bucketSet ht1 i (de :: bucketGet ht1 i)).table.size =
          (bucketSet ht1 i (de :: bucketGet ht1 i)).size
        rw [hf.2.2.2.2, hf.1, hwf.1]
      · show (bucketSet ht1 i (de :: bucketGet ht1 i)).sizemask =
          (bucketSet ht1 i (de :: bucketGet ht1 i)).size - 1
        rw [hf.2.1, hf.1, hwf.2]
    have hposb : 0 < ht1b.size := by
      show 0 < (bucketSet ht1 i (de :: bucketGet ht1 i)).size
      rw [hf.1]
      exact hpos
    have hpb : placedWF t ht1b := by
      intro j hj e he
      have hjlt : j < ht1.table.size := by
        have : ht1b.table.size = ht1.table.size := hf.2.2.2.2
        omega
      have hbg : bucketGet ht1b j = bucketGet (bucketSet ht1 i (de :: bucketGet ht1 i)) j := rfl
      rw [hbg, bucketGet_bucketSet ht1 i _ hiLt j] at he
      have hmask : ht1b.sizemask = ht1.sizemask := hf.2.1
      rw [hmask]
      by_cases hji : j = i
      · rw [if_pos hji] at he
        rcases List.mem_cons.1 he with h | h
        · subst h
          rw [hidef] at hji
          exact hji.symm
        · rw [hji]
          exact hp i hiLt e h
      · rw [if_neg hji] at he
        exact hp j hjlt e he
    exact ih { ht0 with used := ht0.used - 1 } ht1b hwfb hposb hpb

/-- A table whose buckets are all empty flattens to nothing. -/
theorem tableFlatten_eq_nil_of_empty (ht : Dictht K V)
    (h : ∀ i, i < ht.table.size → bucketGet ht i = []) :
    tableFlatten ht = [] := by
  rw [tableFlatten, List.flatten_eq_nil_iff]
  intro l hl
  obtain ⟨i, hi, hget⟩ := List.getElem_of_mem hl
  have hi2 : i < ht.table.size := by simpa using hi
  have := h i hi2
  rw [bucketGet_eq_getD, List.getD_eq_getElem?_getD, List.getElem?_eq_getElem hi, hget] at this
  simpa using this

/-- A non-empty table has a non-empty bucket. -/
theorem exists_nonempty_bucket (ht : Dictht K V) (h : tableFlatten ht ≠ []) :
    ∃ i, i < ht.table.size ∧ bucketGet ht i ≠ [] := by
  by_contra hc
  push_neg at hc
  exact h (tableFlatten_eq_nil_of_empty ht hc)

/-- Output characterisation of the skip-empty scan. -/
theorem findNonemptyFrom_some (tbl : Array (List (DictEntry K V))) :
    ∀ (fuel i j : Nat), findNonemptyFrom tbl fuel i = some j →
      i ≤ j ∧ j < i + fuel ∧ tbl.getD j [] ≠ [] ∧
        (∀ m, i ≤ m → m < j → tbl.getD m [] = []) := by
  intro fuel
  induction fuel with
  | zero =>
    intro i j h
    simp [findNonemptyFrom] at h
  | succ fuel ih =>
    intro i j h
    rw [findNonemptyFrom] at h
    by_cases he : (tbl.getD i []).isEmpty
    · rw [if_pos he] at h
      obtain ⟨h1, h2, h3, h4⟩ := ih (i + 1) j h
      refine ⟨by omega, by omega, h3, ?_⟩
      intro m hm1 hm2
      rcases Nat.eq_or_lt_of_le hm1 with rfl | hlt
      · exact List.isEmpty_iff.1 he
      · exact h4 m hlt hm2
    · rw [if_neg he] at h
      obtain rfl : i = j := by simpa using h
      refine ⟨le_refl i, by omega, ?_, fun m hm1 hm2 => by omega⟩
      intro hc
      rw [hc] at he
      simp at he

/-- The skip-empty scan succeeds when a non-empty bucket is in range. -/
theorem findNonemptyFrom_isSome (tbl : Array (List (DictEntry K V))) :
    ∀ (fuel i : Nat), (∃ j, i ≤ j ∧ j < i + fuel ∧ tbl.getD j [] ≠ []) →
      (findNonemptyFrom tbl fuel i).isSome := by
  intro fuel
  induction fuel with
  | zero =>
    intro i ⟨j, h1, h2, _⟩
    omega
  | succ fuel ih =>
    intro i ⟨j, h1, h2, h3⟩
    rw [findNonemptyFrom]
    by_cases he : (tbl.getD i []).isEmpty
    · rw [if_pos he]
      refine ih (i + 1) ⟨j, ?_, by omega, h3⟩
      rcases Nat.eq_or_lt_of_le h1 with rfl | hlt
      · exact absurd (List.isEmpty_iff.1 he) h3
      · omega
    · rw [if_neg he]
      rfl

/-- The rehash loop: always returns (no assert failure), preserves
well-formedness, the descriptor, the iterator count, the total entry count
and the stored entries. -/
theorem dictRehashLoop_WF :
    ∀ (n : Nat) (d : Dict K V), WF d → dictIsRehashing d = true →
      ∃ r d2, dictRehashLoop d n = some (r, d2) ∧ WF d2 ∧
        d2.type = d.type ∧ d2.iterators = d.iterators ∧
        dictSize d2 = dictSize d ∧
        (allEntries d2 : Multiset (DictEntry K V)) =
          (allEntries d : Multiset (DictEntry K V)) ∧
        ((d2.rehashidx = -1 ∧ d2.ht1 = _dictReset) ∨
          (dictIsRehashing d2 = true ∧ d2.ht0.size = d.ht0.size ∧
            (n = 0 ∨ d.rehashidx < d2.rehashidx))) := by
  intro n
  induction n with
  | zero =>
    intro d hWF hreh
    exact ⟨true, d, rfl, hWF, rfl, rfl, rfl, rfl, Or.inr ⟨hreh, rfl, Or.inl rfl⟩⟩
  | succ n ih =>
    intro d hWF hreh
    obtain ⟨hwf0, hwf1, hu0, hu1, hp0, hp1, hrwf⟩ := hWF
    by_cases hz : d.ht0.used = 0
    · -- table[0] drained: finalize the migration
      have hflat0 : tableFlatten d.ht0 = [] := by
        rw [usedWF_iff] at hu0
        exact List.eq_nil_of_length_eq_zero (by omega)
      refine ⟨false, { d with ht0 := d.ht1, ht1 := _dictReset, rehashidx := -1 },
        by rw [dictRehashLoop, if_pos hz], ?_, rfl, rfl, ?_, ?_, Or.inl ⟨rfl, rfl⟩⟩
      · refine ⟨hwf1, _dictReset_htWF, hu1, _dictReset_usedWF, hp1,
          _dictReset_placedWF d.type, ?_, ?_⟩
        · intro hcon
          simp [dictIsRehashing] at hcon
        · intro _
          rfl
      · show d.ht1.used + (_dictReset : Dictht K V).used = d.ht0.used + d.ht1.used
        simp [_dictReset, hz]
      · show ((tableFlatten d.ht1 ++ tableFlatten (_dictReset : Dictht K V) : List _) :
            Multiset (DictEntry K V)) =
          ((tableFlatten d.ht0 ++ tableFlatten d.ht1 : List _) : Multiset _)
        rw [hflat0, _dictReset_tableFlatten]
        simp
    · -- migrate the first non-empty bucket at or after the cursor
      obtain ⟨hcur, hrest⟩ := hrwf
      obtain ⟨h0le, hlesize, hbelow, hpos1, hpos0⟩ := hcur hreh
      set i0 := d.rehashidx.toNat with hi0
      have hflat0 : tableFlatten d.ht0 ≠ [] := by
        rw [usedWF_iff] at hu0
        intro hc
        rw [hc] at hu0
        simp at hu0
        omega
      obtain ⟨b, hbLt, hbne⟩ := exists_nonempty_bucket d.ht0 hflat0
      have hbge : i0 ≤ b := by
        by_contra hc
        exact hbne (hbelow b (by omega))
      have hsize0 : d.ht0.table.size = d.ht0.size := hwf0.1
      have hi0lt : i0 < d.ht0.size := by omega
      have hassert : (0 ≤ d.rehashidx ∧ d.rehashidx < (d.ht0.size : Int)) := by
        constructor
        · omega
        · omega
      have hfind : (findNonemptyFrom d.ht0.table (d.ht0.size - i0) i0).isSome := by
        apply findNonemptyFrom_isSome
        exact ⟨b, hbge, by omega, hbne⟩
      obtain ⟨j, hj⟩ := Option.isSome_iff_exists.1 hfind
      obtain ⟨hjge, hjlt, hjne, hjbelow⟩ := findNonemptyFrom_some d.ht0.table _ _ _ hj
      have hjsize : j < d.ht0.size := by omega
      have hjtbl : j < d.ht0.table.size := by omega
      set chain := bucketGet d.ht0 j with hchain
      rcases hmc : moveChain d.type chain d.ht0 d.ht1 with ⟨mc1, mc2⟩
      obtain ⟨hmc1p, hmcsizep, hmcmaskp, hmcidp, hmctblp, hmcusedp⟩ :=
        moveChain_fields d.type chain d.ht0 d.ht1
      rw [hmc] at hmc1p hmcsizep hmcmaskp hmcidp hmctblp hmcusedp
      have hmc1 : mc1 = { d.ht0 with used := d.ht0.used - chain.length } := hmc1p
      have hmcsize : mc2.size = d.ht1.size := hmcsizep
      have hmcmask : mc2.sizemask = d.ht1.sizemask := hmcmaskp
      have hmctbl : mc2.table.size = d.ht1.table.size := hmctblp
      have hmcused : mc2.used = d.ht1.used + chain.length := hmcusedp
      have hmcflatp := moveChain_flatten_ms d.type chain d.ht0 d.ht1 hwf1 hpos1
      rw [hmc] at hmcflatp
      have hmcflat : (tableFlatten mc2 : Multiset (DictEntry K V)) =
          (tableFlatten d.ht1 : Multiset (DictEntry K V)) + (chain : Multiset _) := hmcflatp
      have hmcplacedp := moveChain_placedWF d.type chain d.ht0 d.ht1 hwf1 hpos1 hp1
      rw [hmc] at hmcplacedp
      have hmcplaced : placedWF d.type mc2 := hmcplacedp
      have hmc1tbl : mc1.table = d.ht0.table := by rw [hmc1]
      have hmc1get : ∀ m, bucketGet mc1 m = bucketGet d.ht0 m := by
        intro m
        show mc1.table.getD m [] = d.ht0.table.getD m []
        rw [hmc1tbl]
      have hjmc1 : j < mc1.table.size := by rw [hmc1tbl]; exact hjtbl
      have hbsf := bucketSet_fields mc1 j ([] : List (DictEntry K V))
      have hbs_used : (bucketSet mc1 j []).used = d.ht0.used - chain.length := by
        rw [hbsf.2.2.1, hmc1]
      have hbs_size : (bucketSet mc1 j []).size = d.ht0.size := by
        rw [hbsf.1, hmc1]
      have hbs_mask : (bucketSet mc1 j []).sizemask = d.ht0.sizemask := by
        rw [hbsf.2.1, hmc1]
      have hbs_tblsize : (bucketSet mc1 j []).table.size = d.ht0.table.size := by
        rw [hbsf.2.2.2.2, hmc1tbl]
      have hclear := tableFlatten_bucketSet_ms mc1 j [] hjmc1
      rw [hmc1get j, ← hchain] at hclear
      have hmc1flat : tableFlatten mc1 = tableFlatten d.ht0 := by
        rw [tableFlatten, tableFlatten, hmc1tbl]
      rw [hmc1flat] at hclear
      simp only [Multiset.coe_nil, add_zero] at hclear
      have hcard := congrArg Multiset.card hclear
      rw [Multiset.card_add] at hcard
      simp only [Multiset.coe_card] at hcard
      have hused0 : d.ht0.used = (tableFlatten d.ht0).length := (usedWF_iff d.ht0).1 hu0
      have hused1 : d.ht1.used = (tableFlatten d.ht1).length := (usedWF_iff d.ht1).1 hu1
      have hlen : chain.length ≤ (tableFlatten d.ht0).length := by omega
      have hcard2 := congrArg Multiset.card hmcflat
      rw [Multiset.card_add] at hcard2
      simp only [Multiset.coe_card] at hcard2
      set dn : Dict K V :=
        ({ d with
            ht0 := bucketSet mc1 j []
            ht1 := mc2
            rehashidx := (j : Int) + 1 }) with hdn
      have hloop : dictRehashLoop d (n + 1) = dictRehashLoop dn n := by
        rw [dictRehashLoop, if_neg hz, if_neg (by
          intro hc
          exact hc hassert)]
        rw [hj]
        dsimp only
        rw [← hchain, hmc]
      have hWFn : WF dn := by
        refine ⟨⟨?_, ?_⟩, ⟨?_, ?_⟩, ?_, ?_, ?_, ?_, ?_, ?_⟩
        · show (bucketSet mc1 j []).table.size = (bucketSet mc1 j []).size
          rw [hbs_tblsize, hbs_size, hsize0]
        · show (bucketSet mc1 j []).sizemask = (bucketSet mc1 j []).size - 1
          rw [hbs_mask, hbs_size, hwf0.2]
        · show mc2.table.size = mc2.size
          rw [hmctbl, hmcsize, hwf1.1]
        · show mc2.sizemask = mc2.size - 1
          rw [hmcmask, hmcsize, hwf1.2]
        · rw [usedWF_iff]
          show (bucketSet mc1 j []).used = (tableFlatten (bucketSet mc1 j [])).length
          rw [hbs_used]
          omega
        · rw [usedWF_iff]
          show mc2.used = (tableFlatten mc2).length
          rw [hmcused]
          omega
        · intro m hm e he
          have hmlt : m < mc1.table.size := by
            have h5 : (bucketSet mc1 j []).table.size = mc1.table.size := hbsf.2.2.2.2
            have hm2 : m < (bucketSet mc1 j []).table.size := hm
            omega
          have he2 : e ∈ bucketGet (bucketSet mc1 j []) m := he
          rw [bucketGet_bucketSet mc1 j [] hjmc1 m] at he2
          by_cases hmj : m = j
          · rw [if_pos hmj] at he2
            simp at he2
          · rw [if_neg hmj] at he2
            rw [hmc1get m] at he2
            show hashOf d.type e.key &&& (bucketSet mc1 j []).sizemask = m
            rw [hbs_mask]
            exact hp0 m (by rw [hmc1tbl] at hmlt; exact hmlt) e he2
        · exact hmcplaced
        · intro _
          refine ⟨?_, ?_, ?_, ?_, ?_⟩
          · show (0 : Int) ≤ (j : Int) + 1
            omega
          · show (j : Int) + 1 ≤ ((bucketSet mc1 j []).size : Int)
            rw [hbs_size]
            omega
          · intro m hm
            have hmj : m < j + 1 := by
              have h6 : ((j : Int) + 1).toNat = j + 1 := by omega
              rw [show dn.rehashidx = (j : Int) + 1 from rfl, h6] at hm
              exact hm
            show bucketGet (bucketSet mc1 j []) m = []
            rw [bucketGet_bucketSet mc1 j [] hjmc1 m]
            by_cases hmj2 : m = j
            · rw [if_pos hmj2]
            · rw [if_neg hmj2, hmc1get m]
              rcases Nat.lt_or_ge m i0 with hlt | hge
              · exact hbelow m hlt
              · exact hjbelow m hge (by omega)
          · show 0 < mc2.size
            rw [hmcsize]
            exact hpos1
          · show 0 < (bucketSet mc1 j []).size
            rw [hbs_size]
            omega
        · intro hcon
          exfalso
          have h7 : dictIsRehashing dn = true := by
            show (((j : Int) + 1) != -1) = true
            simp only [bne_iff_ne, ne_eq]
            omega
          rw [h7] at hcon
          exact Bool.noConfusion hcon
      have hrehn : dictIsRehashing dn = true := by
        show (((j : Int) + 1) != -1) = true
        simp only [bne_iff_ne, ne_eq]
        omega
      obtain ⟨r, d2, hrun, hWF2, htyp, hits, hsz, hall, hprog⟩ := ih dn hWFn hrehn
      have hdnidx : dn.rehashidx = (j : Int) + 1 := rfl
      have hdnsize : dn.ht0.size = d.ht0.size := hbs_size
      refine ⟨r, d2, ?_, hWF2, htyp, hits, ?_, ?_, ?_⟩
      · rw [hloop]
        exact hrun
      · rw [hsz]
        show (bucketSet mc1 j []).used + mc2.used = d.ht0.used + d.ht1.used
        rw [hbs_used, hmcused]
        omega
      · rw [hall]
        show ((tableFlatten (bucketSet mc1 j []) ++ tableFlatten mc2 : List _) :
            Multiset (DictEntry K V)) =
          ((tableFlatten d.ht0 ++ tableFlatten d.ht1 : List _) : Multiset _)
        rw [← Multiset.coe_add, ← Multiset.coe_add, hmcflat, ← hclear]
        abel
      · rcases hprog with hfin | ⟨hreh2, hsz2, hor⟩
        · exact Or.inl hfin
        · refine Or.inr ⟨hreh2, by rw [hsz2, hdnsize], Or.inr ?_⟩
          have hstep : d.rehashidx < dn.rehashidx := by
            rw [hdnidx]
            omega
          rcases hor with hn0 | hlt
          · subst hn0
            have : (true, dn) = (r, d2) := by
              have h8 : dictRehashLoop dn 0 = some (true, dn) := rfl
              rw [h8] at hrun
              exact Option.some.inj hrun
            have hd2 : d2 = dn := (Prod.mk.injEq _ _ _ _ ▸ this).2.symm
            rw [hd2]
            exact hstep
          · omega

/-- `dictRehash` never hits the assert from a well-formed state, and
preserves well-formedness, the total count and the stored entries. -/
theorem dictRehash_WF (d : Dict K V) (n : Nat) (hWF : WF d) :
    ∃ r d2, dictRehash d n = some (r, d2) ∧ WF d2 ∧ d2.type = d.type ∧
      d2.iterators = d.iterators ∧ dictSize d2 = dictSize d ∧
      (allEntries d2 : Multiset (DictEntry K V)) =
        (allEntries d : Multiset (DictEntry K V)) := by
  by_cases hreh : dictIsRehashing d = true
  · obtain ⟨r, d2, h1, h2, h3, h4, h5, h6, _⟩ := dictRehashLoop_WF n d hWF hreh
    refine ⟨r, d2, ?_, h2, h3, h4, h5, h6⟩
    rw [dictRehash, if_neg (by simp [hreh])]
    exact h1
  · exact ⟨false, d, by rw [dictRehash, if_pos (by simpa using hreh)], hWF,
      rfl, rfl, rfl, rfl⟩

/-- A single `dictRehash(d, 1)` from a well-formed rehashing state either
completes the migration or strictly advances the cursor. -/
theorem dictRehash_one (d : Dict K V) (hWF : WF d)
    (hreh : dictIsRehashing d = true) :
    ∃ r d2, dictRehash d 1 = some (r, d2) ∧ WF d2 ∧ d2.type = d.type ∧
      d2.iterators = d.iterators ∧ dictSize d2 = dictSize d ∧
      (allEntries d2 : Multiset (DictEntry K V)) =
        (allEntries d : Multiset (DictEntry K V)) ∧
      ((d2.rehashidx = -1 ∧ d2.ht1 = _dictReset) ∨
        (dictIsRehashing d2 = true ∧ d2.ht0.size = d.ht0.size ∧
          d.rehashidx < d2.rehashidx)) := by
  obtain ⟨r, d2, h1, h2, h3, h4, h5, h6, h7⟩ := dictRehashLoop_WF 1 d hWF hreh
  refine ⟨r, d2, ?_, h2, h3, h4, h5, h6, ?_⟩
  · rw [dictRehash, if_neg (by simp [hreh])]
    exact h1
  · rcases h7 with hfin | ⟨ha, hb, hc⟩
    · exact Or.inl hfin
    · refine Or.inr ⟨ha, hb, ?_⟩
      rcases hc with hc | hc
      · exact absurd hc (by omega)
      · exact hc

/-- `_dictRehashStep` from a well-formed state. -/
theorem _dictRehashStep_WF (d : Dict K V) (hWF : WF d) :
    ∃ d2, _dictRehashStep d = some d2 ∧ WF d2 ∧ d2.type = d.type ∧
      d2.iterators = d.iterators ∧ dictSize d2 = dictSize d ∧
      (allEntries d2 : Multiset (DictEntry K V)) =
        (allEntries d : Multiset (DictEntry K V)) := by
  by_cases hit : d.iterators = 0
  · obtain ⟨r, d2, h1, h2, h3, h4, h5, h6⟩ := dictRehash_WF d 1 hWF
    refine ⟨d2, ?_, h2, h3, h4, h5, h6⟩
    rw [_dictRehashStep, if_pos hit, h1]
    rfl
  · exact ⟨d, by rw [_dictRehashStep, if_neg hit], hWF, rfl, rfl, rfl, rfl⟩

/-- The conditional opportunistic step from a well-formed state. -/
theorem stepIfRehashing_WF (d : Dict K V) (hWF : WF d) :
    ∃ d2, stepIfRehashing d = some d2 ∧ WF d2 ∧ d2.type = d.type ∧
      d2.iterators = d.iterators ∧ dictSize d2 = dictSize d ∧
      (allEntries d2 : Multiset (DictEntry K V)) =
        (allEntries d : Multiset (DictEntry K V)) := by
  by_cases hreh : dictIsRehashing d = true
  · obtain ⟨d2, h1, h⟩ := _dictRehashStep_WF d hWF
    exact ⟨d2, by rw [stepIfRehashing, if_pos hreh]; exact h1, h⟩
  · exact ⟨d, by rw [stepIfRehashing, if_neg hreh], hWF, rfl, rfl, rfl, rfl⟩

theorem rehashNIter_step (d d2 : Dict K V) (r : Bool) (k : Nat)
    (h : dictRehash d 1 = some (r, d2)) :
    rehashNIter d (k + 1) = rehashNIter d2 k := by
  rw [rehashNIter, h]

/-- Fuelled termination argument for the incremental migration. -/
theorem rehashNIter_terminates :
    ∀ (M : Nat) (d : Dict K V), WF d → dictIsRehashing d = true →
      d.ht0.size + 1 - d.rehashidx.toNat ≤ M →
      ∃ k, k ≤ M ∧ ∃ d2, rehashNIter d k = some d2 ∧
        d2.rehashidx = -1 ∧ d2.ht1 = _dictReset ∧
        (∀ i, i ≤ k → ∃ di, rehashNIter d i = some di ∧ dictSize di = dictSize d) := by
  intro M
  induction M with
  | zero =>
    intro d hWF hreh hM
    obtain ⟨hcur, _⟩ := hWF.2.2.2.2.2.2
    obtain ⟨h0le, hle, _, _, _⟩ := hcur hreh
    omega
  | succ M ih =>
    intro d hWF hreh hM
    obtain ⟨hcur, _⟩ := hWF.2.2.2.2.2.2
    obtain ⟨h0le, hle, _, _, _⟩ := hcur hreh
    obtain ⟨r, dstep, hstep, hWF2, _, _, hsz, _, hprog⟩ := dictRehash_one d hWF hreh
    rcases hprog with ⟨hfin, hreset⟩ | ⟨hreh2, hsame, hinc⟩
    · refine ⟨1, by omega, dstep, ?_, hfin, hreset, ?_⟩
      · rw [rehashNIter_step d dstep r 0 hstep]
        rfl
      · intro i hi
        match i, hi with
        | 0, _ => exact ⟨d, rfl, rfl⟩
        | 1, _ =>
          refine ⟨dstep, ?_, hsz⟩
          rw [rehashNIter_step d dstep r 0 hstep]
          rfl
    · obtain ⟨hcur2, _⟩ := hWF2.2.2.2.2.2.2
      obtain ⟨h0le2, hle2, _, _, _⟩ := hcur2 hreh2
      have hmeas : dstep.ht0.size + 1 - dstep.rehashidx.toNat ≤ M := by
        omega
      obtain ⟨k, hk, d2, hrun, hfin, hreset, hsizes⟩ := ih dstep hWF2 hreh2 hmeas
      refine ⟨k + 1, by omega, d2, ?_, hfin, hreset, ?_⟩
      · rw [rehashNIter_step d dstep r k hstep]
        exact hrun
      · intro i hi
        match i with
        | 0 => exact ⟨d, rfl, rfl⟩
        | i + 1 =>
          obtain ⟨di, hdi, hdisz⟩ := hsizes i (by omega)
          refine ⟨di, ?_, by rw [hdisz, hsz]⟩
          rw [rehashNIter_step d dstep r i hstep]
          exact hdi

/-- C2: from any well-formed dictionary in the rehashing state, repeatedly
calling `dictRehash` completes the migration within `ht[0].size + 1` calls,
restoring `rehashidx` to -1 with `table[1]` reset, and `dictSize`
(`ht[0].used + ht[1].used`) is unchanged after every individual rehash step
along the way. -/
theorem C2_rehash_terminates_preserving_size (d : Dict K V) (hWF : WF d)
    (hreh : dictIsRehashing d = true) :
    ∃ k, k ≤ d.ht0.size + 1 ∧ ∃ d2, rehashNIter d k = some d2 ∧
      d2.rehashidx = -1 ∧ d2.ht1 = _dictReset ∧
      (∀ i, i ≤ k → ∃ di, rehashNIter d i = some di ∧
        dictSize di = dictSize d) := by
  exact rehashNIter_terminates (d.ht0.size + 1) d hWF hreh (by omega)

/-- Witness for C2 at `rehashingEx`. -/
theorem C2_witness :
    ∃ k, k ≤ rehashingEx.ht0.size + 1 ∧ ∃ d2, rehashNIter rehashingEx k = some d2 ∧
      d2.rehashidx = -1 ∧ d2.ht1 = _dictReset ∧
      (∀ i, i ≤ k → ∃ di, rehashNIter rehashingEx i = some di ∧
        dictSize di = dictSize rehashingEx) :=
  C2_rehash_terminates_preserving_size rehashingEx (by decide) (by decide)

/-- Unlinking trades the chain for the removed entry plus the remainder. -/
theorem chainUnlink_ms (t : DictType K V) (k : K) (l : List (DictEntry K V)) :
    ∀ he rest, chainUnlink t k l = some (he, rest) →
      (l : Multiset (DictEntry K V)) = he ::ₘ (rest : Multiset (DictEntry K V)) := by
  induction l with
  | nil =>
    intro he rest h
    simp [chainUnlink] at h
  | cons a l ih =>
    intro he rest h
    rw [chainUnlink] at h
    by_cases hc : dictCompareKeys t k a.key = true
    · rw [if_pos hc] at h
      simp only [Option.some.injEq, Prod.mk.injEq] at h
      obtain ⟨h1, h2⟩ := h
      rw [← h1, ← h2]
      exact (Multiset.cons_coe a l).symm
    · rw [if_neg hc, Option.map_eq_some'] at h
      obtain ⟨⟨e, l2⟩, hrec, heq⟩ := h
      simp only [Prod.mk.injEq] at heq
      obtain ⟨he1, he2⟩ := heq
      subst he1
      subst he2
      rw [← Multiset.cons_coe, ← Multiset.cons_coe, ih e l2 hrec]
      exact Multiset.cons_swap a e (l2 : Multiset (DictEntry K V))

/-- Prepending an entry to a bucket only grows the table's contents. -/
theorem tableFlatten_bucketSet_cons_le (ht : Dictht K V) (i : Nat)
    (e : DictEntry K V) :
    (tableFlatten ht : Multiset (DictEntry K V)) ≤
      (tableFlatten (bucketSet ht i (e :: bucketGet ht i)) :
        Multiset (DictEntry K V)) := by
  by_cases h : i < ht.table.size
  · have hms := tableFlatten_bucketSet_ms ht i (e :: bucketGet ht i) h
    rw [← Multiset.cons_coe, ← Multiset.singleton_add, ← add_assoc] at hms
    have h2 : (tableFlatten (bucketSet ht i (e :: bucketGet ht i)) :
        Multiset (DictEntry K V)) =
        (tableFlatten ht : Multiset (DictEntry K V)) + {e} :=
      add_right_cancel hms
    rw [h2]
    exact Multiset.le_add_right _ _
  · have htb : tableFlatten (bucketSet ht i (e :: bucketGet ht i)) =
        tableFlatten ht := by
      rw [tableFlatten, tableFlatten]
      have : (bucketSet ht i (e :: bucketGet ht i)).table = ht.table := by
        simp [bucketSet, Array.setD, h]
      rw [this]
    rw [htb]

/-- Removing an unlinked entry from a bucket only shrinks the table's
contents. -/
theorem tableFlatten_bucketSet_unlink_le (t : DictType K V) (k : K)
    (ht : Dictht K V) (i : Nat) (he : DictEntry K V)
    (rest : List (DictEntry K V))
    (hu : chainUnlink t k (bucketGet ht i) = some (he, rest)) :
    (tableFlatten (bucketSet ht i rest) : Multiset (DictEntry K V)) ≤
      (tableFlatten ht : Multiset (DictEntry K V)) := by
  have hne : bucketGet ht i ≠ [] := by
    intro hnil
    rw [hnil] at hu
    simp [chainUnlink] at hu
  have hlt := bucketGet_ne_nil_lt ht i hne
  have hms := tableFlatten_bucketSet_ms ht i rest hlt
  rw [chainUnlink_ms t k (bucketGet ht i) he rest hu,
    ← Multiset.singleton_add, ← add_assoc] at hms
  have h2 : (tableFlatten (bucketSet ht i rest) : Multiset (DictEntry K V)) +
      {he} = (tableFlatten ht : Multiset (DictEntry K V)) :=
    add_right_cancel hms
  calc (tableFlatten (bucketSet ht i rest) : Multiset (DictEntry K V))
      ≤ (tableFlatten (bucketSet ht i rest) : Multiset (DictEntry K V)) + {he} :=
        Multiset.le_add_right _ _
    _ = _ := h2

/-- C5 counterexample: with the safe-iterator counter positive (= 1) and the
dictionary not rehashing, `dictAdd` of a fifth key triggers the ratio-based
`_dictExpandIfNeeded` expansion inside `_dictKeyIndex`, which arms incremental
rehashing: `rehashidx` changes from -1 to 0 even though `iterators > 0`.  The
claim that `rehashidx` never changes during an Add while the counter is
positive is false — only the opportunistic `_dictRehashStep` migration is
suppressed. -/
theorem C5_counterexample_add_arms_rehash_with_iterator_open :
    c5bound.iterators = 1 ∧ c5bound.rehashidx = -1 ∧
    (dictAdd true 300 c5bound 4 40).map
        (fun p => (p.1.1, p.1.2.rehashidx, p.1.2.iterators)) =
      some (true, 0, 1) := by
  decide

/-- C5 (amended): while the safe-iterator counter is nonzero and a rehash is
in progress, the opportunistic `_dictRehashStep` is a no-op, so no
Add/Find/Delete/GetRandomKey call migrates entries between the tables or
moves `rehashidx`: Find and GetRandomKey return the dictionary unchanged,
Delete only removes entries within each table, and `dictAddRaw` only inserts
(into `ht[1]`), each preserving `rehashidx` and the counter.  (Without the
rehash in progress, an Add may still *arm* a new rehash via
`_dictExpandIfNeeded` — see the counterexample.) -/
theorem C5_amended_no_step_while_iterators_open
    (d : Dict K V) (k : K) (nofree cr : Bool) (a fuel : Nat)
    (rand : Nat → Nat)
    (hit : d.iterators ≠ 0) (hreh : dictIsRehashing d = true) :
    _dictRehashStep d = some d ∧
    (∃ r, dictFind d k = some (r, d)) ∧
    (∀ p, dictGetRandomKey d rand fuel = some p → p.2 = d) ∧
    (∃ r d2 evs, dictGenericDelete d k nofree = some ((r, d2), evs) ∧
      d2.rehashidx = d.rehashidx ∧ d2.iterators = d.iterators ∧
      (tableFlatten d2.ht0 : Multiset (DictEntry K V)) ≤
        (tableFlatten d.ht0 : Multiset (DictEntry K V)) ∧
      (tableFlatten d2.ht1 : Multiset (DictEntry K V)) ≤
        (tableFlatten d.ht1 : Multiset (DictEntry K V))) ∧
    (∃ r d2, dictAddRaw cr a d k = some (r, d2) ∧
      d2.rehashidx = d.rehashidx ∧ d2.iterators = d.iterators ∧
      (tableFlatten d.ht0 : Multiset (DictEntry K V)) ≤
        (tableFlatten d2.ht0 : Multiset (DictEntry K V)) ∧
      (tableFlatten d.ht1 : Multiset (DictEntry K V)) ≤
        (tableFlatten d2.ht1 : Multiset (DictEntry K V))) := by
  refine ⟨rehashStep_suppressed d hit, ?_, ?_, ?_, ?_⟩
  · rw [dictFind_unfold]
    by_cases h0 : d.ht0.size = 0
    · rw [if_pos h0]
      exact ⟨none, rfl⟩
    · rw [if_neg h0, stepIfRehashing_suppressed d hit]
      exact ⟨findPure d k, rfl⟩
  · intro p hp
    by_cases hsz : dictSize d = 0
    · rw [dictGetRandomKey, if_pos hsz] at hp
      obtain rfl : p = (none, d) := (Option.some.inj hp).symm
      rfl
    · rw [dictGetRandomKey, if_neg hsz] at hp
      simp only [hreh, if_true, rehashStep_suppressed d hit,
        Option.bind_eq_bind, Option.some_bind] at hp
      cases hrb : randomBucketLoop d rand fuel 0 with
      | none =>
        rw [hrb] at hp
        simp at hp
      | some hej =>
        obtain ⟨he, j⟩ := hej
        rw [hrb] at hp
        obtain rfl : p = (he.get? (rand j % he.length), d) :=
          (Option.some.inj hp).symm
        rfl
  · rw [dictGenericDelete_unfold]
    by_cases h0 : d.ht0.size = 0
    · rw [if_pos h0]
      exact ⟨false, d, [], rfl, rfl, rfl, le_refl _, le_refl _⟩
    · rw [if_neg h0, stepIfRehashing_suppressed d hit]
      cases hu0 : chainUnlink d.type k
          (bucketGet d.ht0 (hashOf d.type k &&& d.ht0.sizemask)) with
      | some p0 =>
        obtain ⟨he, rest⟩ := p0
        refine ⟨true,
          { d with ht0 := { bucketSet d.ht0
              (hashOf d.type k &&& d.ht0.sizemask) rest with
                used := d.ht0.used - 1 } },
          if nofree then [] else dictFreeValEvents d.type he.val,
          ?_, rfl, rfl, ?_, le_refl _⟩
        · simp only [deleteCore, hu0]
        · exact tableFlatten_bucketSet_unlink_le d.type k d.ht0 _ he rest hu0
      | none =>
        cases hu1 : chainUnlink d.type k
            (bucketGet d.ht1 (hashOf d.type k &&& d.ht1.sizemask)) with
        | some p1 =>
          obtain ⟨he, rest⟩ := p1
          refine ⟨true,
            { d with ht1 := { bucketSet d.ht1
                (hashOf d.type k &&& d.ht1.sizemask) rest with
                  used := d.ht1.used - 1 } },
            if nofree then [] else dictFreeValEvents d.type he.val,
            ?_, rfl, rfl, le_refl _, ?_⟩
          · simp [deleteCore, hu0, hu1, hreh]
          · exact tableFlatten_bucketSet_unlink_le d.type k d.ht1 _ he rest hu1
        | none =>
          refine ⟨false, d, [], ?_, rfl, rfl, le_refl _, le_refl _⟩
          simp [deleteCore, hu0, hu1, hreh]
  · rw [dictAddRaw_unfold, stepIfRehashing_suppressed d hit]
    by_cases hf0 : (chainFindPos d.type k
        (bucketGet d.ht0 (hashOf d.type k &&& d.ht0.sizemask))).isSome
    · have hki : _dictKeyIndex cr a d k = (none, d) := by
        rw [_dictKeyIndex, _dictExpandIfNeeded, if_pos hreh]
        simp [hf0]
      refine ⟨none, d, ?_, rfl, rfl, le_refl _, le_refl _⟩
      simp [addRawCore, hki]
    · by_cases hf1 : (chainFindPos d.type k
          (bucketGet d.ht1 (hashOf d.type k &&& d.ht1.sizemask))).isSome
      · have hki : _dictKeyIndex cr a d k = (none, d) := by
          rw [_dictKeyIndex, _dictExpandIfNeeded, if_pos hreh]
          simp [hf0, hf1, hreh]
        refine ⟨none, d, ?_, rfl, rfl, le_refl _, le_refl _⟩
        simp [addRawCore, hki]
      · have hki : _dictKeyIndex cr a d k =
            (some (hashOf d.type k &&& d.ht1.sizemask), d) := by
          rw [_dictKeyIndex, _dictExpandIfNeeded, if_pos hreh]
          simp [hf0, hf1, hreh]
        refine ⟨some (1, hashOf d.type k &&& d.ht1.sizemask),
          { d with ht1 := { bucketSet d.ht1
              (hashOf d.type k &&& d.ht1.sizemask)
              ({ key := dictKeyDupApply d.type k, val := none } ::
                bucketGet d.ht1 (hashOf d.type k &&& d.ht1.sizemask)) with
                  used := d.ht1.used + 1 } },
          ?_, rfl, rfl, le_refl _, ?_⟩
        · simp [addRawCore, hki, hreh, htGet, htPut]
        · exact tableFlatten_bucketSet_cons_le d.ht1 _ _

/-- Witness for the amended C5 at `c5reh`. -/
theorem C5_amended_witness :
    _dictRehashStep c5reh = some c5reh ∧
    (∃ r, dictFind c5reh 0 = some (r, c5reh)) ∧
    (∀ p, dictGetRandomKey c5reh (fun _ => 0) 3 = some p → p.2 = c5reh) ∧
    (∃ r d2 evs, dictGenericDelete c5reh 0 false = some ((r, d2), evs) ∧
      d2.rehashidx = c5reh.rehashidx ∧ d2.iterators = c5reh.iterators ∧
      (tableFlatten d2.ht0 : Multiset (DictEntry Nat Nat)) ≤
        (tableFlatten c5reh.ht0 : Multiset (DictEntry Nat Nat)) ∧
      (tableFlatten d2.ht1 : Multiset (DictEntry Nat Nat)) ≤
        (tableFlatten c5reh.ht1 : Multiset (DictEntry Nat Nat))) ∧
    (∃ r d2, dictAddRaw true 0 c5reh 0 = some (r, d2) ∧
      d2.rehashidx = c5reh.rehashidx ∧ d2.iterators = c5reh.iterators ∧
      (tableFlatten c5reh.ht0 : Multiset (DictEntry Nat Nat)) ≤
        (tableFlatten d2.ht0 : Multiset (DictEntry Nat Nat)) ∧
      (tableFlatten c5reh.ht1 : Multiset (DictEntry Nat Nat)) ≤
        (tableFlatten d2.ht1 : Multiset (DictEntry Nat Nat))) :=
  C5_amended_no_step_while_iterators_open c5reh 0 false true 0 3 (fun _ => 0)
    (by decide) (by decide)

/-! ## Well-formedness of the mutating operations -/

theorem nextPower_pos (size : Nat) : 0 < _dictNextPower size := by
  rw [_dictNextPower]
  by_cases h : size ≥ LONG_MAX
  · rw [if_pos h]
    norm_num [LONG_MAX]
  · rw [if_neg h]
    obtain ⟨m, _, hloop, _, _⟩ := nextPowerLoop_spec 64 2 size
      (by
        have : LONG_MAX ≤ 2 ^ (2 + 64) := by norm_num [LONG_MAX]
        omega)
    have : _dictNextPowerLoop 64 (2 ^ 2) size = 2 ^ m := hloop
    rw [show (4 : Nat) = 2 ^ 2 from rfl, this]
    positivity

/-- An empty-array table holds nothing. -/
theorem tableFlatten_of_size_zero (ht : Dictht K V) (h : ht.table.size = 0) :
    tableFlatten ht = [] := by
  rw [tableFlatten]
  have : ht.table.toList = [] :=
    List.eq_nil_of_length_eq_zero (by simpa using h)
  rw [this]
  rfl

/-- `dictExpand` preserves well-formedness, the descriptor, the iterator
counter, the entry count and the stored entries. -/
theorem dictExpand_WF (d : Dict K V) (size addr : Nat) (hWF : WF d) :
    WF (dictExpand d size addr).2 ∧
    (dictExpand d size addr).2.type = d.type ∧
    (dictExpand d size addr).2.iterators = d.iterators ∧
    dictSize (dictExpand d size addr).2 = dictSize d ∧
    ((allEntries (dictExpand d size addr).2 : Multiset (DictEntry K V)) =
      (allEntries d : Multiset (DictEntry K V))) := by
  obtain ⟨hwf0, hwf1, hu0, hu1, hp0, hp1, hcur, hnreh⟩ := hWF
  by_cases herr : dictIsRehashing d = true ∨ d.ht0.used > size
  · rw [dictExpand_err d size addr herr]
    exact ⟨⟨hwf0, hwf1, hu0, hu1, hp0, hp1, hcur, hnreh⟩, rfl, rfl, rfl, rfl⟩
  · have hnr : dictIsRehashing d = false := by
      have hni : ¬ dictIsRehashing d = true := fun h => herr (Or.inl h)
      simpa using hni
    have hreset : d.ht1 = _dictReset := hnreh hnr
    by_cases htbl : d.ht0.table.size = 0
    · rw [dictExpand_first d size addr herr htbl]
      have hflat0 : tableFlatten d.ht0 = [] := tableFlatten_of_size_zero d.ht0 htbl
      have hused0 : d.ht0.used = 0 := by
        rw [usedWF_iff] at hu0
        rw [hu0, hflat0]
        rfl
      refine ⟨⟨newHt_htWF _ _, hwf1, newHt_usedWF _ _, hu1,
        newHt_placedWF d.type _ _, hp1, ?_, fun _ => hreset⟩, rfl, rfl, ?_, ?_⟩
      · intro hcon
        rw [show dictIsRehashing { d with ht0 := newHt (_dictNextPower size) addr }
            = dictIsRehashing d from rfl, hnr] at hcon
        exact Bool.noConfusion hcon
      · show (newHt (_dictNextPower size) addr : Dictht K V).used + d.ht1.used =
          d.ht0.used + d.ht1.used
        rw [hused0]
        rfl
      · show ((tableFlatten (newHt (_dictNextPower size) addr) ++
            tableFlatten d.ht1 : List _) : Multiset (DictEntry K V)) =
          ((tableFlatten d.ht0 ++ tableFlatten d.ht1 : List _) : Multiset _)
        rw [newHt_tableFlatten, hflat0]
    · rw [dictExpand_arm d size addr herr htbl]
      have hflat1 : tableFlatten d.ht1 = [] := by
        rw [hreset]
        rfl
      have hused1 : d.ht1.used = 0 := by
        rw [hreset]
        rfl
      refine ⟨⟨hwf0, newHt_htWF _ _, hu0, newHt_usedWF _ _, hp0,
        newHt_placedWF d.type _ _, ?_, ?_⟩, rfl, rfl, ?_, ?_⟩
      · intro _
        refine ⟨?_, ?_, ?_, ?_, ?_⟩
        · show (0 : Int) ≤ (0 : Int)
          omega
        · show (0 : Int) ≤ (d.ht0.size : Int)
          omega
        · intro i hi
          have hi2 : i < (0 : Int).toNat := hi
          exact absurd hi2 (by omega)
        · show 0 < (newHt (_dictNextPower size) addr : Dictht K V).size
          show 0 < _dictNextPower size
          exact nextPower_pos size
        · show 0 < d.ht0.size
          rw [← hwf0.1]
          omega
      · intro hcon
        exact Bool.noConfusion hcon
      · show d.ht0.used + (newHt (_dictNextPower size) addr : Dictht K V).used =
          d.ht0.used + d.ht1.used
        rw [hused1]
        rfl
      · show ((tableFlatten d.ht0 ++
            tableFlatten (newHt (_dictNextPower size) addr) : List _) :
              Multiset (DictEntry K V)) =
          ((tableFlatten d.ht0 ++ tableFlatten d.ht1 : List _) : Multiset _)
        rw [newHt_tableFlatten, hflat1]

/-- `_dictExpandIfNeeded` always succeeds from a well-formed state, preserves
everything observable, and guarantees a usable insertion table. -/
theorem _dictExpandIfNeeded_spec (cr : Bool) (a : Nat) (d : Dict K V)
    (hWF : WF d) :
    ∃ d2, _dictExpandIfNeeded cr a d = (true, d2) ∧ WF d2 ∧
      d2.type = d.type ∧ d2.iterators = d.iterators ∧
      dictSize d2 = dictSize d ∧
      ((allEntries d2 : Multiset (DictEntry K V)) =
        (allEntries d : Multiset (DictEntry K V))) ∧
      (dictIsRehashing d2 = false → 0 < d2.ht0.size) ∧
      (dictIsRehashing d = true → d2 = d) := by
  by_cases hreh : dictIsRehashing d = true
  · refine ⟨d, ?_, hWF, rfl, rfl, rfl, rfl, ?_, fun _ => rfl⟩
    · rw [_dictExpandIfNeeded, if_pos hreh]
    · intro hcon
      rw [hreh] at hcon
      exact Bool.noConfusion hcon
  · have hnr : dictIsRehashing d = false := by
      simpa using hreh
    by_cases h0 : d.ht0.size = 0
    · have hused0 : d.ht0.used = 0 := by
        have hu := (usedWF_iff d.ht0).1 hWF.2.2.1
        rw [hu, tableFlatten_of_size_zero d.ht0 (by rw [hWF.1.1, h0])]
        rfl
      have hne : ¬ (dictIsRehashing d = true ∨ d.ht0.used > 4) := by
        rintro (h | h)
        · exact hreh h
        · omega
      have htbl : d.ht0.table.size = 0 := by rw [hWF.1.1, h0]
      obtain ⟨hW, hty, hit, hsz, hal⟩ := dictExpand_WF d 4 a hWF
      refine ⟨(dictExpand d 4 a).2, ?_, hW, hty, hit, hsz, hal, ?_, fun hc => absurd hc hreh⟩
      · rw [_dictExpandIfNeeded, if_neg hreh, if_pos h0]
        rw [dictExpand_first d 4 a hne htbl]
      · intro _
        rw [dictExpand_first d 4 a hne htbl]
        show 0 < (newHt (_dictNextPower 4) a : Dictht K V).size
        show 0 < _dictNextPower 4
        exact nextPower_pos 4
    · by_cases hratio : d.ht0.used ≥ d.ht0.size ∧ (cr ∨ d.ht0.used / d.ht0.size > 5)
      · have hne : ¬ (dictIsRehashing d = true ∨ d.ht0.used > d.ht0.used * 2) := by
          rintro (h | h)
          · exact hreh h
          · omega
        have htbl : ¬ d.ht0.table.size = 0 := by
          rw [hWF.1.1]
          exact h0
        obtain ⟨hW, hty, hit, hsz, hal⟩ := dictExpand_WF d (d.ht0.used * 2) a hWF
        refine ⟨(dictExpand d (d.ht0.used * 2) a).2, ?_, hW, hty, hit, hsz, hal,
          ?_, fun hc => absurd hc hreh⟩
        · rw [_dictExpandIfNeeded, if_neg hreh, if_neg h0, if_pos hratio,
            dictExpand_arm d (d.ht0.used * 2) a hne htbl]
        · intro hcon
          rw [dictExpand_arm d (d.ht0.used * 2) a hne htbl] at hcon
          exact Bool.noConfusion hcon
      · refine ⟨d, ?_, hWF, rfl, rfl, rfl, rfl, fun _ => by omega,
          fun hc => absurd hc hreh⟩
        rw [_dictExpandIfNeeded, if_neg hreh, if_neg h0, if_neg hratio]

/-- The chain walk hits iff some chain entry compares equal. -/
theorem chainFindPos_isSome_iff (t : DictType K V) (k : K)
    (l : List (DictEntry K V)) :
    (chainFindPos t k l).isSome = true ↔
      ∃ e ∈ l, dictCompareKeys t k e.key = true := by
  induction l with
  | nil =>
    rw [show chainFindPos t k [] = none from rfl]
    simp
  | cons a l ih =>
    by_cases hc : dictCompareKeys t k a.key = true
    · simp [chainFindPos, hc]
    · rw [chainFindPos, if_neg hc]
      have hiso : ((chainFindPos t k l).map (· + 1)).isSome =
          (chainFindPos t k l).isSome := by
        cases chainFindPos t k l <;> rfl
      rw [hiso, ih]
      constructor
      · rintro ⟨e, he, hcmp⟩
        exact ⟨e, List.mem_cons_of_mem a he, hcmp⟩
      · rintro ⟨e, he, hcmp⟩
        rcases List.mem_cons.1 he with rfl | he2
        · exact absurd hcmp hc
        · exact ⟨e, he2, hcmp⟩

/-- A successful chain walk points at a comparing-equal entry. -/
theorem chainFindPos_some_get (t : DictType K V) (k : K) :
    ∀ (l : List (DictEntry K V)) (p : Nat), chainFindPos t k l = some p →
      ∃ e, l.get? p = some e ∧ dictCompareKeys t k e.key = true := by
  intro l
  induction l with
  | nil =>
    intro p h
    simp [chainFindPos] at h
  | cons a l ih =>
    intro p h
    rw [chainFindPos] at h
    by_cases hc : dictCompareKeys t k a.key = true
    · rw [if_pos hc] at h
      obtain rfl : 0 = p := Option.some.inj h
      exact ⟨a, rfl, hc⟩
    · rw [if_neg hc, Option.map_eq_some'] at h
      obtain ⟨q, hq, rfl⟩ := h
      obtain ⟨e, hget, hcmp⟩ := ih q hq
      exact ⟨e, by simpa using hget, hcmp⟩

/-- Every stored entry sits in some in-bounds bucket. -/
theorem mem_flatten_bucket (ht : Dictht K V) (e : DictEntry K V)
    (h : e ∈ tableFlatten ht) :
    ∃ i, i < ht.table.size ∧ e ∈ bucketGet ht i := by
  rw [tableFlatten, List.mem_flatten] at h
  obtain ⟨l, hl, hel⟩ := h
  obtain ⟨i, hi, hget⟩ := List.getElem_of_mem hl
  refine ⟨i, by simpa using hi, ?_⟩
  rw [bucketGet_eq_getD, List.getD_eq_getElem?_getD,
    List.getElem?_eq_getElem hi, hget]
  exact hel

/-- Under the placement invariant and a hash-coherent comparator, a key is
present exactly when the chain walk hits in its hash bucket — in `ht[0]`, or
in `ht[1]` only while rehashing. -/
theorem keyPresent_iff_buckets (d : Dict K V) (k : K) (hWF : WF d)
    (hcc : CompareCoherent d.type) :
    keyPresent d k ↔
      ((chainFindPos d.type k
          (bucketGet d.ht0 (hashOf d.type k &&& d.ht0.sizemask))).isSome = true ∨
        (dictIsRehashing d = true ∧
          (chainFindPos d.type k
            (bucketGet d.ht1 (hashOf d.type k &&& d.ht1.sizemask))).isSome = true)) := by
  obtain ⟨hwf0, hwf1, hu0, hu1, hp0, hp1, hcur, hnreh⟩ := hWF
  constructor
  · rintro ⟨e, he, hcmp⟩
    have hhash : hashOf d.type k = hashOf d.type e.key := hcc k e.key hcmp
    rcases List.mem_append.1 he with h0 | h1
    · obtain ⟨i, hi, hbi⟩ := mem_flatten_bucket d.ht0 e h0
      have hplace := hp0 i hi e hbi
      left
      rw [chainFindPos_isSome_iff]
      refine ⟨e, ?_, hcmp⟩
      rw [hhash, hplace]
      exact hbi
    · by_cases hreh : dictIsRehashing d = true
      · obtain ⟨i, hi, hbi⟩ := mem_flatten_bucket d.ht1 e h1
        have hplace := hp1 i hi e hbi
        right
        refine ⟨hreh, ?_⟩
        rw [chainFindPos_isSome_iff]
        refine ⟨e, ?_, hcmp⟩
        rw [hhash, hplace]
        exact hbi
      · exfalso
        have hreset := hnreh (by simpa using hreh)
        rw [hreset, _dictReset_tableFlatten] at h1
        exact List.not_mem_nil e h1
  · rintro (h0 | ⟨_, h1⟩)
    · rw [chainFindPos_isSome_iff] at h0
      obtain ⟨e, he, hcmp⟩ := h0
      exact ⟨e, List.mem_append.2 (Or.inl (bucketGet_subset_flatten d.ht0 _ e he)),
        hcmp⟩
    · rw [chainFindPos_isSome_iff] at h1
      obtain ⟨e, he, hcmp⟩ := h1
      exact ⟨e, List.mem_append.2 (Or.inr (bucketGet_subset_flatten d.ht1 _ e he)),
        hcmp⟩

/-- Key presence only depends on the stored entries (as a multiset) and the
comparator. -/
theorem keyPresent_congr (d d2 : Dict K V) (k : K)
    (hall : (allEntries d2 : Multiset (DictEntry K V)) =
      (allEntries d : Multiset (DictEntry K V)))
    (hty : d2.type = d.type) :
    keyPresent d2 k ↔ keyPresent d k := by
  unfold keyPresent
  constructor
  · rintro ⟨e, he, hcmp⟩
    refine ⟨e, ?_, by rw [← hty]; exact hcmp⟩
    have : e ∈ (allEntries d : Multiset (DictEntry K V)) := by
      rw [← hall]
      exact he
    simpa using this
  · rintro ⟨e, he, hcmp⟩
    refine ⟨e, ?_, by rw [hty]; exact hcmp⟩
    have : e ∈ (allEntries d2 : Multiset (DictEntry K V)) := by
      rw [hall]
      exact he
    simpa using this

/-- Replacing a bucket with entries that hash there keeps the placement
invariant. -/
theorem placedWF_bucketSet (t : DictType K V) (ht : Dictht K V) (i : Nat)
    (l : List (DictEntry K V)) (hpl : placedWF t ht)
    (hkeys : ∀ e ∈ l, hashOf t e.key &&& ht.sizemask = i) :
    placedWF t (bucketSet ht i l) := by
  by_cases hi : i < ht.table.size
  · intro j hj e he
    have hj2 : j < ht.table.size := by
      have := (bucketSet_fields ht i l).2.2.2.2
      omega
    have he2 : e ∈ bucketGet (bucketSet ht i l) j := he
    rw [bucketGet_bucketSet ht i l hi j] at he2
    show hashOf t e.key &&& (bucketSet ht i l).sizemask = j
    rw [(bucketSet_fields ht i l).2.1]
    by_cases hji : j = i
    · rw [if_pos hji] at he2
      rw [hji]
      exact hkeys e he2
    · rw [if_neg hji] at he2
      exact hpl j hj2 e he2
  · have : bucketSet ht i l = ht := by
      show { ht with table := ht.table.setD i l } = ht
      rw [Array.setD, dif_neg hi]
    rw [this]
    exact hpl

/-- Value-only surgery on a chain leaves the key list unchanged. -/
theorem modify_val_keys (v : Option V) :
    ∀ (n : Nat) (l : List (DictEntry K V)),
      (List.modify (fun e => { e with val := v }) n l).map (·.key) =
        l.map (·.key) := by
  intro n
  induction n with
  | zero =>
    intro l
    cases l with
    | nil => rfl
    | cons a l =>
      have hstep : List.modify (fun e => ({ e with val := v } : DictEntry K V))
          0 (a :: l) = { a with val := v } :: l := rfl
      rw [hstep]
      rfl
  | succ n ih =>
    intro l
    cases l with
    | nil => rfl
    | cons a l =>
      have hstep : List.modify (fun e => ({ e with val := v } : DictEntry K V))
          (n + 1) (a :: l) =
          a :: List.modify (fun e => { e with val := v }) n l := rfl
      rw [hstep, List.map_cons, List.map_cons, ih l]

/-- Effect of the `dictAddRaw` bucket insertion on a well-formed table. -/
theorem htInsert_spec (t : DictType K V) (ht : Dictht K V) (e : DictEntry K V)
    (i : Nat) (hwf : htWF ht) (hu : usedWF ht) (hpl : placedWF t ht)
    (hpos : 0 < ht.size) (hi : i = hashOf t e.key &&& ht.sizemask) :
    htWF (htInsert ht i e) ∧ usedWF (htInsert ht i e) ∧
    placedWF t (htInsert ht i e) ∧
    ((tableFlatten (htInsert ht i e) : Multiset (DictEntry K V)) =
      e ::ₘ (tableFlatten ht : Multiset (DictEntry K V))) ∧
    (htInsert ht i e).size = ht.size ∧
    (htInsert ht i e).sizemask = ht.sizemask ∧
    (htInsert ht i e).used = ht.used + 1 ∧
    (htInsert ht i e).table.size = ht.table.size ∧
    bucketGet (htInsert ht i e) i = e :: bucketGet ht i ∧
    (∀ j, j ≠ i → bucketGet (htInsert ht i e) j = bucketGet ht j) := by
  have hile : i ≤ ht.sizemask := by
    rw [hi]
    exact Nat.and_le_right
  have hilt : i < ht.table.size := by
    have h1 := hwf.1
    have h2 := hwf.2
    omega
  have hbf := bucketSet_fields ht i (e :: bucketGet ht i)
  have htblsz : (htInsert ht i e).table.size = ht.table.size := hbf.2.2.2.2
  have hsizee : (htInsert ht i e).size = ht.size := hbf.1
  have hmaske : (htInsert ht i e).sizemask = ht.sizemask := hbf.2.1
  have hgete : ∀ j, bucketGet (htInsert ht i e) j =
      bucketGet (bucketSet ht i (e :: bucketGet ht i)) j := fun _ => rfl
  have hflat : tableFlatten (htInsert ht i e) =
      tableFlatten (bucketSet ht i (e :: bucketGet ht i)) := rfl
  have hms := tableFlatten_bucketSet_ms ht i (e :: bucketGet ht i) hilt
  rw [← Multiset.cons_coe, ← Multiset.singleton_add, ← add_assoc] at hms
  have hflatms : (tableFlatten (htInsert ht i e) : Multiset (DictEntry K V)) =
      e ::ₘ (tableFlatten ht : Multiset (DictEntry K V)) := by
    rw [hflat]
    have h3 : (tableFlatten (bucketSet ht i (e :: bucketGet ht i)) :
        Multiset (DictEntry K V)) =
        (tableFlatten ht : Multiset (DictEntry K V)) + {e} :=
      add_right_cancel hms
    rw [h3, add_comm, Multiset.singleton_add]
  refine ⟨⟨by rw [htblsz, hsizee, hwf.1], by rw [hmaske, hsizee, hwf.2]⟩,
    ?_, ?_, hflatms, hsizee, hmaske, rfl, htblsz, ?_, ?_⟩
  · rw [usedWF_iff]
    have hcard := congrArg Multiset.card hflatms
    rw [Multiset.card_cons] at hcard
    simp only [Multiset.coe_card] at hcard
    have hu2 := (usedWF_iff ht).1 hu
    show ht.used + 1 = (tableFlatten (htInsert ht i e)).length
    omega
  · show placedWF t (htInsert ht i e)
    have hkeys : ∀ e2 ∈ (e :: bucketGet ht i),
        hashOf t e2.key &&& ht.sizemask = i := by
      intro e2 he2
      rcases List.mem_cons.1 he2 with rfl | he3
      · exact hi.symm
      · exact hpl i hilt e2 he3
    have hpl2 := placedWF_bucketSet t ht i (e :: bucketGet ht i) hpl hkeys
    intro j hj e2 he2
    exact hpl2 j hj e2 he2
  · rw [hgete, bucketGet_bucketSet ht i _ hilt, if_pos rfl]
  · intro j hj
    rw [hgete, bucketGet_bucketSet ht i _ hilt, if_neg hj]

/-- `_dictKeyIndex` from a well-formed state: the dictionary it returns is
the (possibly expanded) state, and the index outcome characterises key
presence. -/
theorem _dictKeyIndex_spec (cr : Bool) (a : Nat) (d : Dict K V) (k : K)
    (hWF : WF d) (hcc : CompareCoherent d.type) :
    ∃ d2, WF d2 ∧ d2.type = d.type ∧ d2.iterators = d.iterators ∧
      dictSize d2 = dictSize d ∧
      ((allEntries d2 : Multiset (DictEntry K V)) =
        (allEntries d : Multiset (DictEntry K V))) ∧
      ((_dictKeyIndex cr a d k = (none, d2) ∧ keyPresent d k) ∨
        (∃ tt : Nat, (tt = if dictIsRehashing d2 = true then 1 else 0) ∧
          _dictKeyIndex cr a d k =
            (some (hashOf d.type k &&& (htGet d2 tt).sizemask), d2) ∧
          ¬ keyPresent d k ∧ 0 < (htGet d2 tt).size)) := by
  obtain ⟨d2, hexp, hW2, hty, hit, hsz, hal, hpos0, _⟩ :=
    _dictExpandIfNeeded_spec cr a d hWF
  have hcc2 : CompareCoherent d2.type := by
    rw [hty]
    exact hcc
  have hpres : keyPresent d2 k ↔ keyPresent d k := keyPresent_congr d d2 k hal hty
  have hunf : _dictKeyIndex cr a d k =
      (if (chainFindPos d2.type k
            (bucketGet d2.ht0 (hashOf d2.type k &&& d2.ht0.sizemask))).isSome
        then ((none : Option Nat), d2)
        else if ¬ dictIsRehashing d2 = true
        then (some (hashOf d2.type k &&& d2.ht0.sizemask), d2)
        else if (chainFindPos d2.type k
            (bucketGet d2.ht1 (hashOf d2.type k &&& d2.ht1.sizemask))).isSome
        then (none, d2)
        else (some (hashOf d2.type k &&& d2.ht1.sizemask), d2)) := by
    rw [_dictKeyIndex, hexp]
    rfl
  have hbuckets := keyPresent_iff_buckets d2 k hW2 hcc2
  by_cases hf0 : (chainFindPos d2.type k
      (bucketGet d2.ht0 (hashOf d2.type k &&& d2.ht0.sizemask))).isSome = true
  · refine ⟨d2, hW2, hty, hit, hsz, hal, Or.inl ⟨?_, ?_⟩⟩
    · rw [hunf, if_pos hf0]
    · exact hpres.1 (hbuckets.2 (Or.inl hf0))
  · by_cases hreh2 : dictIsRehashing d2 = true
    · by_cases hf1 : (chainFindPos d2.type k
          (bucketGet d2.ht1 (hashOf d2.type k &&& d2.ht1.sizemask))).isSome = true
      · refine ⟨d2, hW2, hty, hit, hsz, hal, Or.inl ⟨?_, ?_⟩⟩
        · rw [hunf, if_neg hf0, if_neg (fun hc => hc hreh2), if_pos hf1]
        · exact hpres.1 (hbuckets.2 (Or.inr ⟨hreh2, hf1⟩))
      · refine ⟨d2, hW2, hty, hit, hsz, hal,
          Or.inr ⟨1, by rw [if_pos hreh2], ?_, ?_, ?_⟩⟩
        · rw [hunf, if_neg hf0, if_neg (fun hc => hc hreh2), if_neg hf1, hty]
          rfl
        · intro hp
          rcases hbuckets.1 (hpres.2 hp) with h | ⟨_, h⟩
          · exact hf0 h
          · exact hf1 h
        · show 0 < d2.ht1.size
          exact (hW2.2.2.2.2.2.2.1 hreh2).2.2.2.1
    · refine ⟨d2, hW2, hty, hit, hsz, hal,
        Or.inr ⟨0, by rw [if_neg hreh2], ?_, ?_, ?_⟩⟩
      · rw [hunf, if_neg hf0, if_pos hreh2, hty]
        rfl
      · intro hp
        rcases hbuckets.1 (hpres.2 hp) with h | ⟨hr, _⟩
        · exact hf0 h
        · exact hreh2 hr
      · show 0 < d2.ht0.size
        exact hpos0 (by simpa using hreh2)

/-- The `dictAddRaw` contract from a well-formed state: it never fails
fatally, returns `NULL` exactly when the key is already present (leaving the
stored entries and the entry count unchanged), and otherwise prepends a new
entry carrying the (possibly duplicated) key to its hash bucket in `ht[1]`
while rehashing and `ht[0]` otherwise, growing the count by one. -/
theorem dictAddRaw_spec (cr : Bool) (a : Nat) (d : Dict K V) (k : K)
    (hWF : WF d) (hcc : CompareCoherent d.type) (hdc : DupCoherent d.type) :
    ∃ res d2, dictAddRaw cr a d k = some (res, d2) ∧ WF d2 ∧
      d2.type = d.type ∧ d2.iterators = d.iterators ∧
      ((res = none ∧ keyPresent d k ∧
        ((allEntries d2 : Multiset (DictEntry K V)) =
          (allEntries d : Multiset (DictEntry K V))) ∧
        dictSize d2 = dictSize d) ∨
       (∃ tt i rest, res = some (tt, i) ∧ ¬ keyPresent d k ∧
        (tt = if dictIsRehashing d2 = true then 1 else 0) ∧
        i = hashOf d.type k &&& (htGet d2 tt).sizemask ∧
        bucketGet (htGet d2 tt) i =
          { key := dictKeyDupApply d.type k, val := (none : Option V) } :: rest ∧
        ((allEntries d2 : Multiset (DictEntry K V)) =
          ({ key := dictKeyDupApply d.type k, val := none } : DictEntry K V) ::ₘ
            (allEntries d : Multiset (DictEntry K V))) ∧
        dictSize d2 = dictSize d + 1)) := by
  obtain ⟨d1, hstep, hW1, hty1, hit1, hsz1, hal1⟩ := stepIfRehashing_WF d hWF
  have heq : dictAddRaw cr a d k = some (addRawCore cr a d1 k) := by
    rw [dictAddRaw_unfold, hstep]
  have hcc1 : CompareCoherent d1.type := by
    rw [hty1]
    exact hcc
  have hpres1 : keyPresent d1 k ↔ keyPresent d k := keyPresent_congr d d1 k hal1 hty1
  obtain ⟨d2, hW2, hty2, hit2, hsz2, hal2, hres⟩ :=
    _dictKeyIndex_spec cr a d1 k hW1 hcc1
  rcases hres with ⟨hkieq, hkp⟩ | ⟨tt, htt, hkieq, hknp, hpos⟩
  · have hcore : addRawCore cr a d1 k = (none, d2) := by
      simp [addRawCore, hkieq]
    refine ⟨none, d2, by rw [heq, hcore], hW2, by rw [hty2, hty1],
      by rw [hit2, hit1],
      Or.inl ⟨rfl, hpres1.1 hkp, by rw [hal2, hal1], by rw [hsz2, hsz1]⟩⟩
  · have hty21 : d2.type = d.type := by rw [hty2, hty1]
    have hdc2 : DupCoherent d2.type := by
      rw [hty21]
      exact hdc
    have hhash : hashOf d2.type (dictKeyDupApply d2.type k) = hashOf d2.type k :=
      hdc2 k
    have hnp : ¬ keyPresent d k := fun hp => hknp (hpres1.2 hp)
    obtain ⟨hwf0, hwf1, hu0, hu1, hp0, hp1, hcur, hnreh⟩ := hW2
    by_cases hreh2 : dictIsRehashing d2 = true
    · have htt1 : tt = 1 := by rw [htt, if_pos hreh2]
      rw [htt1] at hkieq
      have hkieq1 : _dictKeyIndex cr a d1 k =
          (some (hashOf d1.type k &&& d2.ht1.sizemask), d2) := hkieq
      have hi1 : (hashOf d1.type k &&& d2.ht1.sizemask) =
          hashOf d2.type (dictKeyDupApply d2.type k) &&& d2.ht1.sizemask := by
        rw [hhash, hty2]
      obtain ⟨hiwf, hiu, hipl, hiflat, hisize, himask, hiused, hitbl, hibkt, _⟩ :=
        htInsert_spec d2.type d2.ht1 { key := dictKeyDupApply d2.type k, val := none } (hashOf d1.type k &&& d2.ht1.sizemask) hwf1 hu1 hp1 (by rw [htt1] at hpos; exact hpos) hi1
      have hcore : addRawCore cr a d1 k =
          (some (1, hashOf d1.type k &&& d2.ht1.sizemask), { d2 with ht1 := htInsert d2.ht1 (hashOf d1.type k &&& d2.ht1.sizemask) { key := dictKeyDupApply d2.type k, val := none } }) := by
        simp [addRawCore, hkieq1, hreh2, htGet, htPut, htInsert]
      refine ⟨some (1, hashOf d1.type k &&& d2.ht1.sizemask),
        { d2 with ht1 := htInsert d2.ht1 (hashOf d1.type k &&& d2.ht1.sizemask) { key := dictKeyDupApply d2.type k, val := none } },
        by rw [heq, hcore], ?_, hty21,
        by show d2.iterators = d.iterators; rw [hit2, hit1],
        Or.inr ⟨1, hashOf d1.type k &&& d2.ht1.sizemask,
          bucketGet d2.ht1 (hashOf d1.type k &&& d2.ht1.sizemask),
          rfl, hnp, ?_, ?_, ?_, ?_, ?_⟩⟩
      · refine ⟨hwf0, hiwf, hu0, hiu, hp0, hipl, ?_, ?_⟩
        · intro _
          obtain ⟨ha1, ha2, ha3, ha4, ha5⟩ := hcur hreh2
          refine ⟨ha1, ha2, ha3, ?_, ha5⟩
          show 0 < (htInsert d2.ht1 _ _).size
          rw [hisize]
          exact ha4
        · intro hcon
          have hcon2 : dictIsRehashing d2 = false := hcon
          rw [hreh2] at hcon2
          exact Bool.noConfusion hcon2
      · show (1 : Nat) = if dictIsRehashing d2 = true then 1 else 0
        rw [if_pos hreh2]
      · have hm2 : (htGet { d2 with ht1 := htInsert d2.ht1 (hashOf d1.type k &&& d2.ht1.sizemask) { key := dictKeyDupApply d2.type k, val := none } } 1).sizemask = d2.ht1.sizemask := himask
        rw [hm2, hty1]
      · have hb2 : bucketGet (htGet { d2 with ht1 := htInsert d2.ht1 (hashOf d1.type k &&& d2.ht1.sizemask) { key := dictKeyDupApply d2.type k, val := none } } 1) (hashOf d1.type k &&& d2.ht1.sizemask) = ({ key := dictKeyDupApply d2.type k, val := none } : DictEntry K V) :: bucketGet d2.ht1 (hashOf d1.type k &&& d2.ht1.sizemask) := hibkt
        rw [hb2, hty21]
      · show ((tableFlatten d2.ht0 ++ tableFlatten (htInsert d2.ht1 (hashOf d1.type k &&& d2.ht1.sizemask) { key := dictKeyDupApply d2.type k, val := none }) : List _) : Multiset (DictEntry K V)) = _
        rw [← Multiset.coe_add, hiflat, Multiset.add_cons, ← hal1]
        have hal2b : ((tableFlatten d2.ht0 : List (DictEntry K V)) :
            Multiset (DictEntry K V)) + (tableFlatten d2.ht1 : List _) =
            (allEntries d1 : Multiset (DictEntry K V)) := by
          rw [← hal2]
          show _ = ((tableFlatten d2.ht0 ++ tableFlatten d2.ht1 : List _) :
            Multiset (DictEntry K V))
          rw [← Multiset.coe_add]
        rw [hal2b, hty21]
      · show d2.ht0.used + (htInsert d2.ht1 (hashOf d1.type k &&& d2.ht1.sizemask) { key := dictKeyDupApply d2.type k, val := none }).used = dictSize d + 1
        rw [hiused, ← hsz1, ← hsz2]
        show d2.ht0.used + (d2.ht1.used + 1) = d2.ht0.used + d2.ht1.used + 1
        omega
    · have htt0 : tt = 0 := by rw [htt, if_neg hreh2]
      rw [htt0] at hkieq
      have hkieq0 : _dictKeyIndex cr a d1 k =
          (some (hashOf d1.type k &&& d2.ht0.sizemask), d2) := hkieq
      have hi0 : (hashOf d1.type k &&& d2.ht0.sizemask) =
          hashOf d2.type (dictKeyDupApply d2.type k) &&& d2.ht0.sizemask := by
        rw [hhash, hty2]
      obtain ⟨hiwf, hiu, hipl, hiflat, hisize, himask, hiused, hitbl, hibkt, _⟩ :=
        htInsert_spec d2.type d2.ht0 { key := dictKeyDupApply d2.type k, val := none } (hashOf d1.type k &&& d2.ht0.sizemask) hwf0 hu0 hp0 (by rw [htt0] at hpos; exact hpos) hi0
      have hreh2f : dictIsRehashing d2 = false := by simpa using hreh2
      have hcore : addRawCore cr a d1 k =
          (some (0, hashOf d1.type k &&& d2.ht0.sizemask), { d2 with ht0 := htInsert d2.ht0 (hashOf d1.type k &&& d2.ht0.sizemask) { key := dictKeyDupApply d2.type k, val := none } }) := by
        simp [addRawCore, hkieq0, hreh2f, htGet, htPut, htInsert]
      refine ⟨some (0, hashOf d1.type k &&& d2.ht0.sizemask),
        { d2 with ht0 := htInsert d2.ht0 (hashOf d1.type k &&& d2.ht0.sizemask) { key := dictKeyDupApply d2.type k, val := none } },
        by rw [heq, hcore], ?_, hty21,
        by show d2.iterators = d.iterators; rw [hit2, hit1],
        Or.inr ⟨0, hashOf d1.type k &&& d2.ht0.sizemask,
          bucketGet d2.ht0 (hashOf d1.type k &&& d2.ht0.sizemask),
          rfl, hnp, ?_, ?_, ?_, ?_, ?_⟩⟩
      · refine ⟨hiwf, hwf1, hiu, hu1, hipl, hp1, ?_, ?_⟩
        · intro hcon
          have hcon2 : dictIsRehashing d2 = true := hcon
          rw [hreh2f] at hcon2
          exact Bool.noConfusion hcon2
        · intro _
          exact hnreh hreh2f
      · show (0 : Nat) = if dictIsRehashing d2 = true then 1 else 0
        rw [if_neg hreh2]
      · have hm2 : (htGet { d2 with ht0 := htInsert d2.ht0 (hashOf d1.type k &&& d2.ht0.sizemask) { key := dictKeyDupApply d2.type k, val := none } } 0).sizemask = d2.ht0.sizemask := himask
        rw [hm2, hty1]
      · have hb2 : bucketGet (htGet { d2 with ht0 := htInsert d2.ht0 (hashOf d1.type k &&& d2.ht0.sizemask) { key := dictKeyDupApply d2.type k, val := none } } 0) (hashOf d1.type k &&& d2.ht0.sizemask) = ({ key := dictKeyDupApply d2.type k, val := none } : DictEntry K V) :: bucketGet d2.ht0 (hashOf d1.type k &&& d2.ht0.sizemask) := hibkt
        rw [hb2, hty21]
      · show ((tableFlatten (htInsert d2.ht0 (hashOf d1.type k &&& d2.ht0.sizemask) { key := dictKeyDupApply d2.type k, val := none }) ++ tableFlatten d2.ht1 : List _) : Multiset (DictEntry K V)) = _
        rw [← Multiset.coe_add, hiflat, Multiset.cons_add, ← hal1]
        have hal2b : ((tableFlatten d2.ht0 : List (DictEntry K V)) :
            Multiset (DictEntry K V)) + (tableFlatten d2.ht1 : List _) =
            (allEntries d1 : Multiset (DictEntry K V)) := by
          rw [← hal2]
          show _ = ((tableFlatten d2.ht0 ++ tableFlatten d2.ht1 : List _) :
            Multiset (DictEntry K V))
          rw [← Multiset.coe_add]
        rw [hal2b, hty21]
      · show (htInsert d2.ht0 (hashOf d1.type k &&& d2.ht0.sizemask) { key := dictKeyDupApply d2.type k, val := none }).used + d2.ht1.used = dictSize d + 1
        rw [hiused, ← hsz1, ← hsz2]
        show d2.ht0.used + 1 + d2.ht1.used = d2.ht0.used + d2.ht1.used + 1
        omega

/-- Writing out of range is a no-op (`zcalloc`ed arrays are never indexed out
of range by the C code; the model's `setD` mirrors that). -/
theorem bucketSet_oob (ht : Dictht K V) (i : Nat) (l : List (DictEntry K V))
    (h : ¬ i < ht.table.size) : bucketSet ht i l = ht := by
  show ({ ht with table := ht.table.setD i l }) = ht
  rw [Array.setD, dif_neg h]

/-- Replacing one bucket by a chain with the same keys (in order) preserves
the whole dictionary invariant and every observable size. -/
theorem dict_bucketSurgery_WF (d : Dict K V) (t i : Nat)
    (l' : List (DictEntry K V)) (hWF : WF d)
    (hkeysmap : l'.map (·.key) = (bucketGet (htGet d t) i).map (·.key)) :
    WF (htPut d t (bucketSet (htGet d t) i l')) ∧
    (htPut d t (bucketSet (htGet d t) i l')).type = d.type ∧
    (htPut d t (bucketSet (htGet d t) i l')).iterators = d.iterators ∧
    (htPut d t (bucketSet (htGet d t) i l')).rehashidx = d.rehashidx ∧
    dictSize (htPut d t (bucketSet (htGet d t) i l')) = dictSize d := by
  by_cases hio : i < (htGet d t).table.size
  · have hlen : l'.length = (bucketGet (htGet d t) i).length := by
      have := congrArg List.length hkeysmap
      simpa using this
    have hkeys : ∀ e ∈ l',
        hashOf d.type e.key &&& (htGet d t).sizemask = i := by
      intro e he
      have hk : e.key ∈ (bucketGet (htGet d t) i).map (·.key) := by
        rw [← hkeysmap]
        exact List.mem_map.2 ⟨e, he, rfl⟩
      obtain ⟨e0, he0, hke⟩ := List.mem_map.1 hk
      have hpl : placedWF d.type (htGet d t) := by
        by_cases ht0c : t = 0
        · subst ht0c
          exact hWF.2.2.2.2.1
        · show placedWF d.type (if t = 0 then d.ht0 else d.ht1)
          rw [if_neg ht0c]
          exact hWF.2.2.2.2.2.1
      rw [← hke]
      exact hpl i hio e0 he0
    have hflatlen : (tableFlatten (bucketSet (htGet d t) i l')).length =
        (tableFlatten (htGet d t)).length := by
      have hms := tableFlatten_bucketSet_ms (htGet d t) i l' hio
      have hcard := congrArg Multiset.card hms
      rw [Multiset.card_add, Multiset.card_add] at hcard
      simp only [Multiset.coe_card] at hcard
      omega
    have hbf := bucketSet_fields (htGet d t) i l'
    have hhtWF : htWF (bucketSet (htGet d t) i l') := by
      have hwf : htWF (htGet d t) := by
        by_cases ht0c : t = 0
        · subst ht0c
          exact hWF.1
        · show htWF (if t = 0 then d.ht0 else d.ht1)
          rw [if_neg ht0c]
          exact hWF.2.1
      exact ⟨by rw [hbf.2.2.2.2, hbf.1, hwf.1], by rw [hbf.2.1, hbf.1, hwf.2]⟩
    have huWF : usedWF (bucketSet (htGet d t) i l') := by
      have hu : usedWF (htGet d t) := by
        by_cases ht0c : t = 0
        · subst ht0c
          exact hWF.2.2.1
        · show usedWF (if t = 0 then d.ht0 else d.ht1)
          rw [if_neg ht0c]
          exact hWF.2.2.2.1
      rw [usedWF_iff] at hu ⊢
      rw [hbf.2.2.1, hflatlen]
      exact hu
    have hpWF : placedWF d.type (bucketSet (htGet d t) i l') := by
      have hpl : placedWF d.type (htGet d t) := by
        by_cases ht0c : t = 0
        · subst ht0c
          exact hWF.2.2.2.2.1
        · show placedWF d.type (if t = 0 then d.ht0 else d.ht1)
          rw [if_neg ht0c]
          exact hWF.2.2.2.2.2.1
      exact placedWF_bucketSet d.type (htGet d t) i l' hpl hkeys
    obtain ⟨hwf0, hwf1, hu0, hu1, hp0, hp1, hcur, hnreh⟩ := hWF
    by_cases ht0c : t = 0
    · subst ht0c
      have hbf0 := bucketSet_fields d.ht0 i l'
      refine ⟨⟨hhtWF, hwf1, huWF, hu1, hpWF, hp1, ?_, ?_⟩, rfl, rfl, rfl, ?_⟩
      · intro hreh
        obtain ⟨ha1, ha2, ha3, ha4, ha5⟩ := hcur hreh
        refine ⟨ha1, ?_, ?_, ha4, ?_⟩
        · show d.rehashidx ≤ ((bucketSet d.ht0 i l').size : Int)
          rw [hbf0.1]
          exact ha2
        · intro j hj
          show bucketGet (bucketSet d.ht0 i l') j = []
          rw [bucketGet_bucketSet d.ht0 i l' hio j]
          by_cases hji : j = i
          · rw [if_pos hji]
            have hbi : bucketGet d.ht0 i = [] := by
              rw [← hji]
              exact ha3 j hj
            have hmap : l'.map (·.key) = ([] : List (DictEntry K V)).map (·.key) := by
              rw [hkeysmap]
              show (bucketGet d.ht0 i).map (·.key) = _
              rw [hbi]
            exact List.map_eq_nil.1 hmap
          · rw [if_neg hji]
            exact ha3 j hj
        · show 0 < (bucketSet d.ht0 i l').size
          rw [hbf0.1]
          exact ha5
      · intro hnr
        exact hnreh hnr
      · show (bucketSet d.ht0 i l').used + d.ht1.used = d.ht0.used + d.ht1.used
        rw [hbf0.2.2.1]
    · have hput : htPut d t (bucketSet (htGet d t) i l') =
          { d with ht1 := bucketSet (htGet d t) i l' } := by
        show (if t = 0 then _ else _) = _
        rw [if_neg ht0c]
      have hget : htGet d t = d.ht1 := by
        show (if t = 0 then d.ht0 else d.ht1) = d.ht1
        rw [if_neg ht0c]
      rw [hput]
      refine ⟨⟨hwf0, hhtWF, hu0, huWF, hp0, hpWF, ?_, ?_⟩, rfl, rfl, rfl, ?_⟩
      · intro hreh
        obtain ⟨ha1, ha2, ha3, ha4, ha5⟩ := hcur hreh
        refine ⟨ha1, ha2, ha3, ?_, ha5⟩
        show 0 < (bucketSet (htGet d t) i l').size
        rw [hbf.1, hget]
        exact ha4
      · intro hnr
        exfalso
        have hreset := hnreh hnr
        rw [hget, hreset] at hio
        exact absurd hio (Nat.not_lt_zero i)
      · show d.ht0.used + (bucketSet (htGet d t) i l').used =
          d.ht0.used + d.ht1.used
        rw [hbf.2.2.1, hget]
  · rw [bucketSet_oob (htGet d t) i l' hio]
    have hput : htPut d t (htGet d t) = d := by
      by_cases ht0c : t = 0
      · subst ht0c
        rfl
      · show (if t = 0 then _ else _) = d
        rw [if_neg ht0c]
        show ({ d with ht1 := if t = 0 then d.ht0 else d.ht1 }) = d
        rw [if_neg ht0c]
    rw [hput]
    exact ⟨hWF, rfl, rfl, rfl, rfl⟩

/-- `setValAt` (the `dictSetVal` of `dictReplace`) preserves the invariant
and every observable size. -/
theorem setValAt_WF (d : Dict K V) (loc : Nat × Nat × Nat) (v : Option V)
    (hWF : WF d) :
    WF (setValAt d loc v) ∧ (setValAt d loc v).type = d.type ∧
    (setValAt d loc v).iterators = d.iterators ∧
    (setValAt d loc v).rehashidx = d.rehashidx ∧
    dictSize (setValAt d loc v) = dictSize d := by
  have hkm : (List.modify (fun e => { e with val := v }) loc.2.2
      (bucketGet (htGet d loc.1) loc.2.1)).map (·.key) =
      (bucketGet (htGet d loc.1) loc.2.1).map (·.key) :=
    modify_val_keys v loc.2.2 (bucketGet (htGet d loc.1) loc.2.1)
  exact dict_bucketSurgery_WF d loc.1 loc.2.1 _ hWF hkm

/-- `setHeadVal` (the `dictSetVal` of `dictAdd`) preserves the invariant and
every observable size. -/
theorem setHeadVal_WF (d : Dict K V) (t idx : Nat) (v : Option V)
    (hWF : WF d) :
    WF (setHeadVal d t idx v) ∧ (setHeadVal d t idx v).type = d.type ∧
    (setHeadVal d t idx v).iterators = d.iterators ∧
    (setHeadVal d t idx v).rehashidx = d.rehashidx ∧
    dictSize (setHeadVal d t idx v) = dictSize d := by
  rw [setHeadVal]
  cases hb : bucketGet (htGet d t) idx with
  | nil => exact ⟨hWF, rfl, rfl, rfl, rfl⟩
  | cons e rest =>
    have hkm : (({ e with val := v } : DictEntry K V) :: rest).map (·.key) =
        (bucketGet (htGet d t) idx).map (·.key) := by
      rw [hb]
      rfl
    exact dict_bucketSurgery_WF d t idx _ hWF hkm

/-- Value surgery at position `n` rewrites exactly that chain slot. -/
theorem get_modify (f : DictEntry K V → DictEntry K V) :
    ∀ (n : Nat) (l : List (DictEntry K V)),
      (List.modify f n l).get? n = (l.get? n).map f := by
  intro n
  induction n with
  | zero =>
    intro l
    cases l with
    | nil => rfl
    | cons a l => rfl
  | succ n ih =>
    intro l
    cases l with
    | nil => rfl
    | cons a l =>
      show (List.modify f n l).get? n = (l.get? n).map f
      exact ih l

theorem chainUnlink_mem (t : DictType K V) (k : K) (l : List (DictEntry K V))
    (he : DictEntry K V) (rest : List (DictEntry K V))
    (h : chainUnlink t k l = some (he, rest)) :
    ∀ e ∈ rest, e ∈ l := by
  intro e hrest
  have hms := chainUnlink_ms t k l he rest h
  have : e ∈ (l : Multiset (DictEntry K V)) := by
    rw [hms]
    exact Multiset.mem_cons_of_mem (by simpa using hrest)
  simpa using this

/-- Effect of the `dictGenericDelete` bucket splice on a well-formed table. -/
theorem htRemoveAt_spec (t : DictType K V) (ht : Dictht K V) (k : K)
    (he : DictEntry K V) (rest : List (DictEntry K V)) (i : Nat)
    (hwf : htWF ht) (hu : usedWF ht) (hpl : placedWF t ht)
    (hun : chainUnlink t k (bucketGet ht i) = some (he, rest)) :
    htWF (htRemoveAt ht i rest) ∧ usedWF (htRemoveAt ht i rest) ∧
    placedWF t (htRemoveAt ht i rest) ∧
    ((tableFlatten (htRemoveAt ht i rest) : Multiset (DictEntry K V)) + {he} =
      (tableFlatten ht : Multiset (DictEntry K V))) ∧
    (htRemoveAt ht i rest).size = ht.size ∧
    (htRemoveAt ht i rest).sizemask = ht.sizemask ∧
    (htRemoveAt ht i rest).used = ht.used - 1 ∧
    (htRemoveAt ht i rest).table.size = ht.table.size ∧
    (∀ j, j ≠ i → bucketGet (htRemoveAt ht i rest) j = bucketGet ht j) ∧
    bucketGet ht i ≠ [] := by
  have hne : bucketGet ht i ≠ [] := by
    intro hnil
    rw [hnil] at hun
    simp [chainUnlink] at hun
  have hio := bucketGet_ne_nil_lt ht i hne
  have hbf := bucketSet_fields ht i rest
  have hms := tableFlatten_bucketSet_ms ht i rest hio
  rw [chainUnlink_ms t k (bucketGet ht i) he rest hun,
    ← Multiset.singleton_add, ← add_assoc] at hms
  have hcancel : (tableFlatten (bucketSet ht i rest) :
      Multiset (DictEntry K V)) + {he} =
      (tableFlatten ht : Multiset (DictEntry K V)) :=
    add_right_cancel hms
  have hflatr : (tableFlatten (htRemoveAt ht i rest) :
      Multiset (DictEntry K V)) + {he} =
      (tableFlatten ht : Multiset (DictEntry K V)) := hcancel
  have hcard := congrArg Multiset.card hflatr
  rw [Multiset.card_add] at hcard
  simp only [Multiset.coe_card, Multiset.card_singleton] at hcard
  have hulen := (usedWF_iff ht).1 hu
  refine ⟨⟨?_, ?_⟩, ?_, ?_, hflatr, hbf.1, hbf.2.1, rfl, hbf.2.2.2.2, ?_, hne⟩
  · show (bucketSet ht i rest).table.size = (bucketSet ht i rest).size
    rw [hbf.2.2.2.2, hbf.1, hwf.1]
  · show (bucketSet ht i rest).sizemask = (bucketSet ht i rest).size - 1
    rw [hbf.2.1, hbf.1, hwf.2]
  · rw [usedWF_iff]
    show ht.used - 1 = (tableFlatten (htRemoveAt ht i rest)).length
    omega
  · have hkeys : ∀ e ∈ rest, hashOf t e.key &&& ht.sizemask = i := by
      intro e herest
      exact hpl i hio e (chainUnlink_mem t k (bucketGet ht i) he rest hun e herest)
    have hpl2 := placedWF_bucketSet t ht i rest hpl hkeys
    intro j hj e2 he2
    exact hpl2 j hj e2 he2
  · intro j hj
    show bucketGet (bucketSet ht i rest) j = bucketGet ht j
    rw [bucketGet_bucketSet ht i rest hio j, if_neg hj]

/-- `dictGenericDelete` from a well-formed state never hits undefined
behaviour and preserves the invariant and the descriptor. -/
theorem dictGenericDelete_spec (d : Dict K V) (k : K) (nofree : Bool)
    (hWF : WF d) :
    ∃ ok d2 evs, dictGenericDelete d k nofree = some ((ok, d2), evs) ∧
      WF d2 ∧ d2.type = d.type ∧ d2.iterators = d.iterators := by
  by_cases h0 : d.ht0.size = 0
  · exact ⟨false, d, [], by rw [dictGenericDelete_unfold, if_pos h0], hWF, rfl, rfl⟩
  · obtain ⟨d1, hstep, hW1, hty1, hit1, hsz1, hal1⟩ := stepIfRehashing_WF d hWF
    have heq : dictGenericDelete d k nofree = some (deleteCore d1 k nofree) := by
      rw [dictGenericDelete_unfold, if_neg h0, hstep]
    obtain ⟨hwf0, hwf1, hu0, hu1, hp0, hp1, hcur, hnreh⟩ := hW1
    cases hu0c : chainUnlink d1.type k
        (bucketGet d1.ht0 (hashOf d1.type k &&& d1.ht0.sizemask)) with
    | some p0 =>
      obtain ⟨he, rest⟩ := p0
      obtain ⟨hrwf, hru, hrpl, hrflat, hrsize, hrmask, hrused, hrtbl, hrget, hrne⟩ :=
        htRemoveAt_spec d1.type d1.ht0 k he rest
          (hashOf d1.type k &&& d1.ht0.sizemask) hwf0 hu0 hp0 hu0c
      have hcore : deleteCore d1 k nofree =
          ((true, { d1 with ht0 := htRemoveAt d1.ht0 (hashOf d1.type k &&& d1.ht0.sizemask) rest }), if nofree then [] else dictFreeValEvents d1.type he.val) := by
        simp only [deleteCore, hu0c]
        rfl
      refine ⟨true, { d1 with ht0 := htRemoveAt d1.ht0 (hashOf d1.type k &&& d1.ht0.sizemask) rest }, _, by rw [heq, hcore], ?_, hty1, hit1⟩
      refine ⟨hrwf, hwf1, hru, hu1, hrpl, hp1, ?_, ?_⟩
      · intro hreh
        obtain ⟨ha1, ha2, ha3, ha4, ha5⟩ := hcur hreh
        refine ⟨ha1, ?_, ?_, ha4, ?_⟩
        · show d1.rehashidx ≤ ((htRemoveAt d1.ht0 _ rest).size : Int)
          rw [hrsize]
          exact ha2
        · intro j hj
          show bucketGet (htRemoveAt d1.ht0 _ rest) j = []
          by_cases hji : j = (hashOf d1.type k &&& d1.ht0.sizemask)
          · exfalso
            apply hrne
            rw [← hji]
            exact ha3 j hj
          · rw [hrget j hji]
            exact ha3 j hj
        · show 0 < (htRemoveAt d1.ht0 _ rest).size
          rw [hrsize]
          exact ha5
      · intro hnr
        exact hnreh hnr
    | none =>
      by_cases hreh : dictIsRehashing d1 = true
      · cases hu1c : chainUnlink d1.type k
            (bucketGet d1.ht1 (hashOf d1.type k &&& d1.ht1.sizemask)) with
        | some p1 =>
          obtain ⟨he, rest⟩ := p1
          obtain ⟨hrwf, hru, hrpl, hrflat, hrsize, hrmask, hrused, hrtbl, hrget, hrne⟩ :=
            htRemoveAt_spec d1.type d1.ht1 k he rest
              (hashOf d1.type k &&& d1.ht1.sizemask) hwf1 hu1 hp1 hu1c
          have hcore : deleteCore d1 k nofree =
              ((true, { d1 with ht1 := htRemoveAt d1.ht1 (hashOf d1.type k &&& d1.ht1.sizemask) rest }), if nofree then [] else dictFreeValEvents d1.type he.val) := by
            simp [deleteCore, hu0c, hu1c, hreh]
            rfl
          refine ⟨true, { d1 with ht1 := htRemoveAt d1.ht1 (hashOf d1.type k &&& d1.ht1.sizemask) rest }, _, by rw [heq, hcore], ?_, hty1, hit1⟩
          refine ⟨hwf0, hrwf, hu0, hru, hp0, hrpl, ?_, ?_⟩
          · intro _
            obtain ⟨ha1, ha2, ha3, ha4, ha5⟩ := hcur hreh
            refine ⟨ha1, ha2, ha3, ?_, ha5⟩
            show 0 < (htRemoveAt d1.ht1 _ rest).size
            rw [hrsize]
            exact ha4
          · intro hcon
            have hcon2 : dictIsRehashing d1 = false := hcon
            rw [hreh] at hcon2
            exact Bool.noConfusion hcon2
        | none =>
          have hcore : deleteCore d1 k nofree = ((false, d1), []) := by
            simp [deleteCore, hu0c, hu1c, hreh]
          exact ⟨false, d1, [], by rw [heq, hcore],
            ⟨hwf0, hwf1, hu0, hu1, hp0, hp1, hcur, hnreh⟩, hty1, hit1⟩
      · have hrehf : dictIsRehashing d1 = false := by simpa using hreh
        have hcore : deleteCore d1 k nofree = ((false, d1), []) := by
          simp [deleteCore, hu0c, hrehf]
        exact ⟨false, d1, [], by rw [heq, hcore],
          ⟨hwf0, hwf1, hu0, hu1, hp0, hp1, hcur, hnreh⟩, hty1, hit1⟩

/-- The `dictAdd` contract: success installs the (possibly duplicated) value
in the fresh entry and reports it; failure reports the existing key and
changes nothing observable. -/
theorem dictAdd_spec (cr : Bool) (a : Nat) (d : Dict K V) (k : K) (v : V)
    (hWF : WF d) (hcc : CompareCoherent d.type) (hdc : DupCoherent d.type) :
    ∃ ok d2 evs, dictAdd cr a d k v = some ((ok, d2), evs) ∧ WF d2 ∧
      d2.type = d.type ∧ d2.iterators = d.iterators ∧
      ((ok = false ∧ keyPresent d k ∧ evs = [] ∧
        ((allEntries d2 : Multiset (DictEntry K V)) =
          (allEntries d : Multiset (DictEntry K V))) ∧
        dictSize d2 = dictSize d) ∨
       (ok = true ∧ ¬ keyPresent d k ∧
        evs = [DictEvent.setVal (some (dictValDupApply d.type v))] ∧
        dictSize d2 = dictSize d + 1)) := by
  obtain ⟨res, d2, hraw, hW2, hty2, hit2, hcase⟩ :=
    dictAddRaw_spec cr a d k hWF hcc hdc
  rcases hcase with ⟨hres, hkp, hal, hsz⟩ | ⟨tt, i, rest, hres, hknp, _, _, _, _, hsz⟩
  · subst hres
    have heq : dictAdd cr a d k v = some ((false, d2), []) := by
      rw [dictAdd, hraw]
      rfl
    exact ⟨false, d2, [], heq, hW2, hty2, hit2,
      Or.inl ⟨rfl, hkp, rfl, hal, hsz⟩⟩
  · subst hres
    have heq : dictAdd cr a d k v =
        some ((true, setHeadVal d2 tt i (some (dictValDupApply d2.type v))),
          [DictEvent.setVal (some (dictValDupApply d2.type v))]) := by
      rw [dictAdd, hraw]
      rfl
    obtain ⟨hW3, hty3, hit3, _, hsz3⟩ :=
      setHeadVal_WF d2 tt i (some (dictValDupApply d2.type v)) hW2
    refine ⟨true, setHeadVal d2 tt i (some (dictValDupApply d2.type v)),
      [DictEvent.setVal (some (dictValDupApply d2.type v))], heq, hW3,
      by rw [hty3, hty2], by rw [hit3, hit2],
      Or.inr ⟨rfl, hknp, by rw [hty2], by rw [hsz3, hsz]⟩⟩

/-- The `dictFind` contract: the dictionary only takes the opportunistic
rehash step, and the returned location is a real, comparing-equal entry
exactly when the key is present. -/
theorem dictFind_spec (d : Dict K V) (k : K) (hWF : WF d)
    (hcc : CompareCoherent d.type) :
    ∃ r d1, dictFind d k = some (r, d1) ∧ WF d1 ∧ d1.type = d.type ∧
      d1.iterators = d.iterators ∧ dictSize d1 = dictSize d ∧
      ((allEntries d1 : Multiset (DictEntry K V)) =
        (allEntries d : Multiset (DictEntry K V))) ∧
      ((r = none ∧ ¬ keyPresent d k) ∨
        (∃ loc e, r = some loc ∧ keyPresent d k ∧ entryAt d1 loc = some e ∧
          dictCompareKeys d.type k e.key = true)) := by
  by_cases h0 : d.ht0.size = 0
  · have heq : dictFind d k = some (none, d) := by
      rw [dictFind_unfold, if_pos h0]
    refine ⟨none, d, heq, hWF, rfl, rfl, rfl, rfl, Or.inl ⟨rfl, ?_⟩⟩
    have hnreh : dictIsRehashing d = false := by
      rcases Bool.eq_false_or_eq_true (dictIsRehashing d) with hr | hr
      · have := (hWF.2.2.2.2.2.2.1 hr).2.2.2.2
        omega
      · exact hr
    have hreset := hWF.2.2.2.2.2.2.2 hnreh
    have hflat0 : tableFlatten d.ht0 = [] :=
      tableFlatten_of_size_zero d.ht0 (by rw [hWF.1.1, h0])
    rintro ⟨e, he, _⟩
    rw [show allEntries d = tableFlatten d.ht0 ++ tableFlatten d.ht1 from rfl,
      hflat0, hreset, _dictReset_tableFlatten] at he
    exact List.not_mem_nil e he
  · obtain ⟨d1, hstep, hW1, hty1, hit1, hsz1, hal1⟩ := stepIfRehashing_WF d hWF
    have heq : dictFind d k = some (findPure d1 k, d1) := by
      rw [dictFind_unfold, if_neg h0, hstep]
    have hcc1 : CompareCoherent d1.type := by
      rw [hty1]
      exact hcc
    have hpres1 : keyPresent d1 k ↔ keyPresent d k :=
      keyPresent_congr d d1 k hal1 hty1
    have hbuckets := keyPresent_iff_buckets d1 k hW1 hcc1
    cases hf0 : chainFindPos d1.type k
        (bucketGet d1.ht0 (hashOf d1.type k &&& d1.ht0.sizemask)) with
    | some p =>
      have hfp : findPure d1 k =
          some (0, hashOf d1.type k &&& d1.ht0.sizemask, p) := by
        simp only [findPure, hf0]
      obtain ⟨e, hget, hcmp⟩ := chainFindPos_some_get d1.type k _ p hf0
      refine ⟨findPure d1 k, d1, heq, hW1, hty1, hit1, hsz1, hal1,
        Or.inr ⟨(0, hashOf d1.type k &&& d1.ht0.sizemask, p), e, hfp,
          hpres1.1 (hbuckets.2 (Or.inl (by rw [hf0]; rfl))), hget,
          by rw [← hty1]; exact hcmp⟩⟩
    | none =>
      by_cases hreh1 : dictIsRehashing d1 = true
      · cases hf1 : chainFindPos d1.type k
            (bucketGet d1.ht1 (hashOf d1.type k &&& d1.ht1.sizemask)) with
        | some p =>
          have hfp : findPure d1 k =
              some (1, hashOf d1.type k &&& d1.ht1.sizemask, p) := by
            simp [findPure, hf0, hreh1, hf1]
          obtain ⟨e, hget, hcmp⟩ := chainFindPos_some_get d1.type k _ p hf1
          refine ⟨findPure d1 k, d1, heq, hW1, hty1, hit1, hsz1, hal1,
            Or.inr ⟨(1, hashOf d1.type k &&& d1.ht1.sizemask, p), e, hfp,
              hpres1.1 (hbuckets.2 (Or.inr ⟨hreh1, by rw [hf1]; rfl⟩)), hget,
              by rw [← hty1]; exact hcmp⟩⟩
        | none =>
          have hfp : findPure d1 k = none := by
            simp [findPure, hf0, hreh1, hf1]
          refine ⟨findPure d1 k, d1, heq, hW1, hty1, hit1, hsz1, hal1,
            Or.inl ⟨hfp, ?_⟩⟩
          intro hp
          rcases hbuckets.1 (hpres1.2 hp) with h | ⟨_, h⟩
          · rw [hf0] at h
            exact Bool.noConfusion h
          · rw [hf1] at h
            exact Bool.noConfusion h
      · have hfp : findPure d1 k = none := by
          simp only [findPure, hf0, if_pos hreh1]
        refine ⟨findPure d1 k, d1, heq, hW1, hty1, hit1, hsz1, hal1,
          Or.inl ⟨hfp, ?_⟩⟩
        intro hp
        rcases hbuckets.1 (hpres1.2 hp) with h | ⟨hr, _⟩
        · rw [hf0] at h
          exact Bool.noConfusion h
        · exact hreh1 hr

theorem htGet_htPut (d : Dict K V) (t : Nat) (ht : Dictht K V) :
    htGet (htPut d t ht) t = ht := by
  by_cases h : t = 0
  · subst h
    rfl
  · show htGet (if t = 0 then { d with ht0 := ht } else { d with ht1 := ht }) t = ht
    rw [if_neg h]
    show (if t = 0 then d.ht0 else ht) = ht
    rw [if_neg h]

/-- The `dictReplace` contract: add-or-update with set-then-free on the
update path and the value destructor run exactly once (when installed). -/
theorem dictReplace_spec (cr : Bool) (a : Nat) (d : Dict K V) (k : K) (v : V)
    (hWF : WF d) (hcc : CompareCoherent d.type) (hdc : DupCoherent d.type) :
    ∃ created d2 evs, dictReplace cr a d k v = some ((created, d2), evs) ∧
      WF d2 ∧ d2.type = d.type ∧ d2.iterators = d.iterators ∧
      (created = true ↔ ¬ keyPresent d k) ∧
      (created = true → dictSize d2 = dictSize d + 1) ∧
      (created = false →
        dictSize d2 = dictSize d ∧
        ∃ aux : DictEntry K V,
          evs = DictEvent.setVal (some (dictValDupApply d.type v)) ::
            dictFreeValEvents d.type aux.val ∧
          (d.type.valDestructor = true →
            evs = [DictEvent.setVal (some (dictValDupApply d.type v)),
              DictEvent.freeVal aux.val]) ∧
          ∃ loc, entryAt d2 loc =
            some { key := aux.key, val := some (dictValDupApply d.type v) }) := by
  obtain ⟨ok, dA, evsA, hadd, hWA, htyA, hitA, hcaseA⟩ :=
    dictAdd_spec cr a d k v hWF hcc hdc
  rcases hcaseA with ⟨hok, hkp, hevsA, halA, hszA⟩ | ⟨hok, hknp, hevsA, hszA⟩
  · -- the key existed: add failed, find it and swap the value
    subst hok
    subst hevsA
    have hccA : CompareCoherent dA.type := by
      rw [htyA]
      exact hcc
    have hpA : keyPresent dA k := (keyPresent_congr d dA k halA htyA).2 hkp
    obtain ⟨r, dF, hfind, hWFF, htyF, hitF, hszF, halF, hcaseF⟩ :=
      dictFind_spec dA k hWA hccA
    rcases hcaseF with ⟨hr, hnp⟩ | ⟨loc, aux, hr, _, hentry, hcmp⟩
    · exact absurd hpA hnp
    · subst hr
      obtain ⟨hWSV, htySV, hitSV, _, hszSV⟩ :=
        setValAt_WF dF loc (some (dictValDupApply dF.type v)) hWFF
      have heq : dictReplace cr a d k v =
          some ((false, setValAt dF loc (some (dictValDupApply dF.type v))),
            DictEvent.setVal (some (dictValDupApply dF.type v)) ::
              dictFreeValEvents
                (setValAt dF loc (some (dictValDupApply dF.type v))).type
                aux.val) := by
        simp [dictReplace, hadd, hfind, hentry]
      have hinb : loc.2.1 < (htGet dF loc.1).table.size := by
        apply bucketGet_ne_nil_lt
        intro hnil
        rw [entryAt, hnil] at hentry
        simp at hnil hentry
      have hupdated : entryAt
          (setValAt dF loc (some (dictValDupApply dF.type v))) loc =
          some { key := aux.key, val := some (dictValDupApply dF.type v) } := by
        show (bucketGet (htGet (setValAt dF loc
            (some (dictValDupApply dF.type v))) loc.1) loc.2.1).get? loc.2.2 = _
        have hg : htGet (setValAt dF loc
            (some (dictValDupApply dF.type v))) loc.1 =
            bucketSet (htGet dF loc.1) loc.2.1
              (List.modify (fun e => { e with
                val := some (dictValDupApply dF.type v) }) loc.2.2
                (bucketGet (htGet dF loc.1) loc.2.1)) :=
          htGet_htPut dF loc.1 _
        rw [hg, bucketGet_bucketSet _ _ _ hinb, if_pos rfl, get_modify]
        have hb : (bucketGet (htGet dF loc.1) loc.2.1).get? loc.2.2 = some aux :=
          hentry
        rw [hb]
        rfl
      refine ⟨false, setValAt dF loc (some (dictValDupApply dF.type v)), _,
        heq, hWSV, by rw [htySV, htyF, htyA], by rw [hitSV, hitF, hitA],
        ?_, ?_, ?_⟩
      · constructor
        · intro hcon
          exact Bool.noConfusion hcon
        · intro hn
          exact absurd hkp hn
      · intro hcon
        exact Bool.noConfusion hcon
      · intro _
        refine ⟨by rw [hszSV, hszF, hszA], aux, ?_, ?_, loc, ?_⟩
        · rw [htySV, htyF, htyA]
        · intro hvd
          rw [htySV, htyF, htyA, dictFreeValEvents, if_pos hvd]
        · rw [hupdated, htyF, htyA]
  · -- fresh key: add succeeded
    subst hok
    subst hevsA
    have heq : dictReplace cr a d k v =
        some ((true, dA), [DictEvent.setVal (some (dictValDupApply d.type v))]) := by
      simp [dictReplace, hadd]
    refine ⟨true, dA, _, heq, hWA, htyA, hitA, ?_, fun _ => hszA, ?_⟩
    · exact ⟨fun _ => hknp, fun _ => rfl⟩
    · intro hcon
      exact Bool.noConfusion hcon

theorem natDictType_CompareCoherent : CompareCoherent natDictType := by
  intro k1 k2 h
  have h2 : k1 = k2 := by
    simpa [dictCompareKeys, natDictType] using h
  rw [h2]

theorem natDictType_DupCoherent : DupCoherent natDictType := fun _ => rfl

theorem natDictTypeD_CompareCoherent : CompareCoherent natDictTypeD := by
  intro k1 k2 h
  have h2 : k1 = k2 := by
    simpa [dictCompareKeys, natDictTypeD, natDictType] using h
  rw [h2]

theorem natDictTypeD_DupCoherent : DupCoherent natDictTypeD := fun _ => rfl

/-- C4 counterexample: adding the already-present key 3 to a full size-4
table fails (returns `NULL`) — but does *not* leave the dictionary unchanged:
`_dictExpandIfNeeded` runs before the existence check, so the failed add arms
incremental rehashing (`rehashidx` -1 → 0) and allocates a size-8 `ht[1]`. -/
theorem C4_counterexample_failed_add_still_restructures :
    keyPresent c5base 3 ∧ c5base.rehashidx = -1 ∧ c5base.ht1.size = 0 ∧
    (dictAddRaw true 400 c5base 3).map
        (fun p => (p.1.isNone, p.2.rehashidx, p.2.ht1.size)) =
      some (true, 0, 8) := by
  decide

/-- C4 (amended): from a well-formed state with a coherent descriptor,
`dictAddRaw` fails exactly when the key is already present (searching both
tables only while rehashing, per `keyPresent_iff_buckets`), and on failure
the *stored entries and the entry count* are unchanged — though the
opportunistic rehash step and a ratio-triggered expansion may still
restructure the tables (see the counterexample).  On success it prepends a
new entry carrying the (possibly duplicated) key to its hash bucket's chain
in `ht[1]` if rehashing and `ht[0]` otherwise, growing that table's
used-count (and `dictSize`) by one. -/
theorem C4_amended_addRaw_contract (cr : Bool) (a : Nat) (d : Dict K V) (k : K)
    (hWF : WF d) (hcc : CompareCoherent d.type) (hdc : DupCoherent d.type) :
    ∃ res d2, dictAddRaw cr a d k = some (res, d2) ∧ WF d2 ∧
      d2.type = d.type ∧ d2.iterators = d.iterators ∧
      ((res = none ∧ keyPresent d k ∧
        ((allEntries d2 : Multiset (DictEntry K V)) =
          (allEntries d : Multiset (DictEntry K V))) ∧
        dictSize d2 = dictSize d) ∨
       (∃ tt i rest, res = some (tt, i) ∧ ¬ keyPresent d k ∧
        (tt = if dictIsRehashing d2 = true then 1 else 0) ∧
        i = hashOf d.type k &&& (htGet d2 tt).sizemask ∧
        bucketGet (htGet d2 tt) i =
          { key := dictKeyDupApply d.type k, val := (none : Option V) } :: rest ∧
        ((allEntries d2 : Multiset (DictEntry K V)) =
          ({ key := dictKeyDupApply d.type k, val := none } : DictEntry K V) ::ₘ
            (allEntries d : Multiset (DictEntry K V))) ∧
        dictSize d2 = dictSize d + 1)) :=
  dictAddRaw_spec cr a d k hWF hcc hdc

/-- Witness for the amended C4: a fresh key 5 on the full size-4 table. -/
theorem C4_amended_witness :
    ∃ res d2, dictAddRaw true 400 c5base 5 = some (res, d2) ∧ WF d2 ∧
      d2.type = c5base.type ∧ d2.iterators = c5base.iterators ∧
      ((res = none ∧ keyPresent c5base 5 ∧
        ((allEntries d2 : Multiset (DictEntry Nat Nat)) =
          (allEntries c5base : Multiset (DictEntry Nat Nat))) ∧
        dictSize d2 = dictSize c5base) ∨
       (∃ tt i rest, res = some (tt, i) ∧ ¬ keyPresent c5base 5 ∧
        (tt = if dictIsRehashing d2 = true then 1 else 0) ∧
        i = hashOf c5base.type 5 &&& (htGet d2 tt).sizemask ∧
        bucketGet (htGet d2 tt) i =
          { key := dictKeyDupApply c5base.type 5, val := (none : Option Nat) } :: rest ∧
        ((allEntries d2 : Multiset (DictEntry Nat Nat)) =
          ({ key := dictKeyDupApply c5base.type 5, val := none } : DictEntry Nat Nat) ::ₘ
            (allEntries c5base : Multiset (DictEntry Nat Nat))) ∧
        dictSize d2 = dictSize c5base + 1)) :=
  C4_amended_addRaw_contract true 400 c5base 5 (by decide)
    natDictType_CompareCoherent natDictType_DupCoherent

/-- C6: `dictReplace` returns true exactly when the key was newly inserted;
on an existing key it preserves `dictSize`, installs the (possibly
duplicated) new value in the found entry *before* freeing the old value
(set-then-free: the trace is `setVal` followed by the `freeVal` of the old
value), and with a value destructor installed that destructor runs exactly
once, on the old value. -/
theorem C6_replace_set_then_free (cr : Bool) (a : Nat) (d : Dict K V) (k : K)
    (v : V) (hWF : WF d) (hcc : CompareCoherent d.type)
    (hdc : DupCoherent d.type) :
    ∃ created d2 evs, dictReplace cr a d k v = some ((created, d2), evs) ∧
      WF d2 ∧ d2.type = d.type ∧ d2.iterators = d.iterators ∧
      (created = true ↔ ¬ keyPresent d k) ∧
      (created = true → dictSize d2 = dictSize d + 1) ∧
      (created = false →
        dictSize d2 = dictSize d ∧
        ∃ aux : DictEntry K V,
          evs = DictEvent.setVal (some (dictValDupApply d.type v)) ::
            dictFreeValEvents d.type aux.val ∧
          (d.type.valDestructor = true →
            evs = [DictEvent.setVal (some (dictValDupApply d.type v)),
              DictEvent.freeVal aux.val]) ∧
          ∃ loc, entryAt d2 loc =
            some { key := aux.key, val := some (dictValDupApply d.type v) }) :=
  dictReplace_spec cr a d k v hWF hcc hdc

/-- Witness for C6: replacing the value of the existing key 1. -/
theorem C6_witness :
    ∃ created d2 evs, dictReplace true 50 c6d 1 99 = some ((created, d2), evs) ∧
      WF d2 ∧ d2.type = c6d.type ∧ d2.iterators = c6d.iterators ∧
      (created = true ↔ ¬ keyPresent c6d 1) ∧
      (created = true → dictSize d2 = dictSize c6d + 1) ∧
      (created = false →
        dictSize d2 = dictSize c6d ∧
        ∃ aux : DictEntry Nat Nat,
          evs = DictEvent.setVal (some (dictValDupApply c6d.type 99)) ::
            dictFreeValEvents c6d.type aux.val ∧
          (c6d.type.valDestructor = true →
            evs = [DictEvent.setVal (some (dictValDupApply c6d.type 99)),
              DictEvent.freeVal aux.val]) ∧
          ∃ loc, entryAt d2 loc =
            some { key := aux.key, val := some (dictValDupApply c6d.type 99) }) :=
  C6_replace_set_then_free true 50 c6d 1 99 (by decide)
    natDictTypeD_CompareCoherent natDictTypeD_DupCoherent

/-- Every single operation preserves the invariant and the descriptor. -/
theorem applyOp_WF (d : Dict K V) (op : DictOp K V) (d2 : Dict K V)
    (hWF : WF d) (hcc : CompareCoherent d.type) (hdc : DupCoherent d.type)
    (h : applyOp d op = some d2) : WF d2 ∧ d2.type = d.type := by
  cases op with
  | add cr a k v =>
    obtain ⟨ok, dA, evs, hadd, hWA, htyA, _, _⟩ :=
      dictAdd_spec cr a d k v hWF hcc hdc
    have h2 : (dictAdd cr a d k v).map (fun p => p.1.2) = some d2 := h
    rw [hadd, Option.map_some'] at h2
    obtain rfl : dA = d2 := Option.some.inj h2
    exact ⟨hWA, htyA⟩
  | replace cr a k v =>
    obtain ⟨created, dR, evs, hrep, hWR, htyR, _, _⟩ :=
      dictReplace_spec cr a d k v hWF hcc hdc
    have h2 : (dictReplace cr a d k v).map (fun p => p.1.2) = some d2 := h
    rw [hrep, Option.map_some'] at h2
    obtain rfl : dR = d2 := Option.some.inj h2
    exact ⟨hWR, htyR⟩
  | delete k =>
    obtain ⟨ok, dD, evs, hdel, hWD, htyD, _⟩ :=
      dictGenericDelete_spec d k false hWF
    have h2 : (dictGenericDelete d k false).map (fun p => p.1.2) = some d2 := h
    rw [hdel, Option.map_some'] at h2
    obtain rfl : dD = d2 := Option.some.inj h2
    exact ⟨hWD, htyD⟩
  | deleteNoFree k =>
    obtain ⟨ok, dD, evs, hdel, hWD, htyD, _⟩ :=
      dictGenericDelete_spec d k true hWF
    have h2 : (dictGenericDelete d k true).map (fun p => p.1.2) = some d2 := h
    rw [hdel, Option.map_some'] at h2
    obtain rfl : dD = d2 := Option.some.inj h2
    exact ⟨hWD, htyD⟩
  | expand n a =>
    obtain ⟨hWE, htyE, _⟩ := dictExpand_WF d n a hWF
    have h2 : some (dictExpand d n a).2 = some d2 := h
    obtain rfl : (dictExpand d n a).2 = d2 := Option.some.inj h2
    exact ⟨hWE, htyE⟩
  | rehash n =>
    obtain ⟨r, dR, hreh, hWR, htyR, _⟩ := dictRehash_WF d n hWF
    have h2 : (dictRehash d n).map (fun p => p.2) = some d2 := h
    rw [hreh, Option.map_some'] at h2
    obtain rfl : dR = d2 := Option.some.inj h2
    exact ⟨hWR, htyR⟩

/-- Any executable operation sequence preserves the invariant and the
descriptor. -/
theorem applyOps_WF :
    ∀ (ops : List (DictOp K V)) (d d2 : Dict K V),
      WF d → CompareCoherent d.type → DupCoherent d.type →
      applyOps d ops = some d2 → WF d2 ∧ d2.type = d.type := by
  intro ops
  induction ops with
  | nil =>
    intro d d2 hWF _ _ h
    obtain rfl : d = d2 := Option.some.inj h
    exact ⟨hWF, rfl⟩
  | cons op ops ih =>
    intro d d2 hWF hcc hdc h
    rw [applyOps] at h
    cases hop : applyOp d op with
    | none =>
      rw [hop] at h
      exact absurd h (by simp)
    | some dmid =>
      rw [hop] at h
      obtain ⟨hWm, htym⟩ := applyOp_WF d op dmid hWF hcc hdc hop
      obtain ⟨hW2, hty2⟩ := ih dmid d2 hWm (by rw [htym]; exact hcc)
        (by rw [htym]; exact hdc) h
      exact ⟨hW2, by rw [hty2, htym]⟩

/-- A freshly created dictionary is well-formed. -/
theorem dictCreate_WF (t : DictType K V) : WF (dictCreate t) := by
  refine ⟨_dictReset_htWF, _dictReset_htWF, _dictReset_usedWF,
    _dictReset_usedWF, _dictReset_placedWF t, _dictReset_placedWF t, ?_, ?_⟩
  · intro hcon
    exact Bool.noConfusion hcon
  · intro _
    rfl

/-- C3: after any executable sequence of operations (add, replace, delete,
expand, rehash steps) from `dictCreate`, with a coherent descriptor (the
comparator identifies only equal-hash keys and key duplication preserves the
hash), every stored entry sits at bucket `hash(key) & sizemask` of the table
it resides in. -/
theorem C3_bucket_placement_invariant (t : DictType K V)
    (ops : List (DictOp K V)) (d : Dict K V)
    (hcc : CompareCoherent t) (hdc : DupCoherent t)
    (h : applyOps (dictCreate t) ops = some d) :
    placedWF d.type d.ht0 ∧ placedWF d.type d.ht1 := by
  obtain ⟨hW, _⟩ := applyOps_WF ops (dictCreate t) d (dictCreate_WF t) hcc hdc h
  exact ⟨hW.2.2.2.2.1, hW.2.2.2.2.2.1⟩

/-- Witness for C3 at the concrete sequence. -/
theorem C3_witness :
    placedWF c3final.type c3final.ht0 ∧ placedWF c3final.type c3final.ht1 :=
  C3_bucket_placement_invariant natDictType c3ops c3final
    natDictType_CompareCoherent natDictType_DupCoherent (by rfl)

/-! ## C7: safe-iterator traversal -/

theorem tailBuckets_zero (ht : Dictht K V) : tailBuckets ht 0 = tableFlatten ht := rfl

theorem tailBuckets_oob (ht : Dictht K V) (i : Nat) (h : ht.table.size ≤ i) :
    tailBuckets ht i = [] := by
  rw [tailBuckets, List.drop_eq_nil_of_le (by simpa using h)]
  rfl

theorem tailBuckets_cons (ht : Dictht K V) (i : Nat) (h : i < ht.table.size) :
    tailBuckets ht i = bucketGet ht i ++ tailBuckets ht (i + 1) := by
  have hlen : i < ht.table.toList.length := by simpa using h
  rw [tailBuckets, tailBuckets, List.drop_eq_getElem_cons hlen,
    List.flatten_cons, bucketGet_eq_getD, List.getD_eq_getElem?_getD,
    List.getElem?_eq_getElem hlen]
  rfl

theorem dictNextAux_emit (f : Nat) (d d2 : Dict K V) (it it2 : DictIterator K V)
    (e : DictEntry K V) (h : dictNextBody d it = (some (some e), d2, it2)) :
    dictNextAux (f + 1) d it = (some e, d2, it2) := by
  show (match dictNextBody d it with
    | (some r, d3, it3) => (r, d3, it3)
    | (none, d3, it3) => dictNextAux f d3 it3) = ((some e : Option (DictEntry K V)), d2, it2)
  rw [h]

theorem dictNextAux_none (f : Nat) (d d2 : Dict K V) (it it2 : DictIterator K V)
    (h : dictNextBody d it = (some none, d2, it2)) :
    dictNextAux (f + 1) d it = (none, d2, it2) := by
  show (match dictNextBody d it with
    | (some r, d3, it3) => (r, d3, it3)
    | (none, d3, it3) => dictNextAux f d3 it3) = ((none : Option (DictEntry K V)), d2, it2)
  rw [h]

theorem dictNextAux_loop (f : Nat) (d d2 : Dict K V) (it it2 : DictIterator K V)
    (h : dictNextBody d it = (none, d2, it2)) :
    dictNextAux (f + 1) d it = dictNextAux f d2 it2 := by
  show (match dictNextBody d it with
    | (some r, d3, it3) => (r, d3, it3)
    | (none, d3, it3) => dictNextAux f d3 it3) = dictNextAux f d2 it2
  rw [h]

/-- One `dictNext` loop pass from a bucket-scanning state (`entry` exhausted,
positioned on bucket `j` of table `T`): move to the next bucket, switching to
`ht[1]` or terminating at the end of the table. -/
theorem dictNextBody_scan (d : Dict K V) (it : DictIterator K V) (T j : Nat)
    (hT : it.table = T) (hidx : it.index = (j : Int)) (hent : it.entry = []) :
    dictNextBody d it =
      if ((j : Int) + 1) ≥ ((htGet d T).size : Int) then
        if dictIsRehashing d = true ∧ T = 0 then
          dictNextEmit d { it with table := 1, index := 0, entry := bucketGet (htGet d 1) 0 }
        else (some none, d, { it with index := (j : Int) + 1 })
      else
        dictNextEmit d { it with index := (j : Int) + 1, entry := bucketGet (htGet d T) ((j : Int) + 1).toNat } := by
  have hfresh : ¬ (it.index = -1 ∧ it.table = 0) := by
    rintro ⟨hc, _⟩
    rw [hidx] at hc
    omega
  have hemp : it.entry.isEmpty = true := by
    rw [hent]
    rfl
  rw [dictNextBody, if_pos hemp, if_neg hfresh]
  dsimp only
  rw [hidx, hT]

/-- The `while(1)` loop of `dictNext` from a bucket-scanning state finds the
next stored entry (or correctly reports exhaustion) without touching the
dictionary, given fuel for the remaining buckets. -/
theorem dictNextAux_scan :
    ∀ (fuel : Nat) (d : Dict K V) (it : DictIterator K V) (T j : Nat),
      WF d → it.safe = true → it.table = T →
      (T = 0 ∨ (T = 1 ∧ dictIsRehashing d = true)) →
      it.index = (j : Int) → j < (htGet d T).size → it.entry = [] →
      (htGet d T).size - j +
        (if T = 0 ∧ dictIsRehashing d = true then d.ht1.size else 0) + 1 ≤ fuel →
      ((tailAll d T j = [] → (dictNextAux fuel d it).1 = none ∧
          (dictNextAux fuel d it).2.1 = d) ∧
        (∀ e rest, tailAll d T j = e :: rest →
          ∃ it2, dictNextAux fuel d it = (some e, d, it2) ∧ IterInv d it2 rest)) := by
  intro fuel
  induction fuel with
  | zero =>
    intro d it T j _ _ _ _ _ _ _ hb
    omega
  | succ f ih =>
    intro d it T j hWF hsafe hT hTok hidx hjlt hent hb
    have hbody := dictNextBody_scan d it T j hT hidx hent
    have hhtwf : htWF (htGet d T) := by
      rcases hTok with h0 | ⟨h1, _⟩
      · subst h0
        exact hWF.1
      · subst h1
        exact hWF.2.1
    have htbl : (htGet d T).table.size = (htGet d T).size := hhtwf.1
    by_cases hge : ((j : Int) + 1) ≥ (((htGet d T).size : Nat) : Int)
    · have hgeN : (htGet d T).size ≤ j + 1 := by omega
      rw [if_pos hge] at hbody
      by_cases hrh : dictIsRehashing d = true ∧ T = 0
      · obtain ⟨hreh, hT0⟩ := hrh
        subst hT0
        rw [if_pos ⟨hreh, rfl⟩] at hbody
        have htail0 : tailBuckets (htGet d 0) (j + 1) = [] :=
          tailBuckets_oob _ _ (by omega)
        have htailAll : tailAll d 0 j = tableFlatten d.ht1 := by
          rw [tailAll, htail0, if_pos ⟨rfl, hreh⟩, List.nil_append]
        have hht1pos : 0 < d.ht1.size := (hWF.2.2.2.2.2.2.1 hreh).2.2.2.1
        have hht1wf : htWF d.ht1 := hWF.2.1
        have hjsz1 : 0 < (htGet d 1).size := by
          show 0 < d.ht1.size
          omega
        have hflat1 : tableFlatten d.ht1 =
            bucketGet d.ht1 0 ++ tailBuckets d.ht1 1 := by
          rw [← tailBuckets_zero, tailBuckets_cons d.ht1 0 (by rw [hht1wf.1]; omega)]
        have htail10 : tailAll d 1 0 = tailBuckets d.ht1 1 := by
          rw [tailAll, if_neg (by simp), List.append_nil]
          rfl
        have hbound1 : (htGet d 1).size - 0 +
            (if (1 : Nat) = 0 ∧ dictIsRehashing d = true then d.ht1.size else 0) +
            1 ≤ f := by
          rw [if_neg (by simp)]
          show d.ht1.size - 0 + 0 + 1 ≤ f
          rw [if_pos ⟨rfl, hreh⟩] at hb
          have hs0 : (htGet d 0).size = d.ht0.size := rfl
          rw [hs0] at hb hjlt
          omega
        cases hb1 : bucketGet d.ht1 0 with
        | nil =>
          have hbody2 : dictNextBody d it =
              (none, d, { it with table := 1, index := 0, entry := bucketGet (htGet d 1) 0 }) := by
            rw [hbody, dictNextEmit]
            have hb1g : bucketGet (htGet d 1) 0 = ([] : List (DictEntry K V)) := hb1
            simp only [hb1g]
          have haux := dictNextAux_loop f d d it
            { it with table := 1, index := 0, entry := bucketGet (htGet d 1) 0 } hbody2
          have hIH := ih d
            { it with table := 1, index := 0, entry := bucketGet (htGet d 1) 0 }
            1 0 hWF hsafe rfl (Or.inr ⟨rfl, hreh⟩) rfl hjsz1 hb1 hbound1
          constructor
          · intro hnil
            rw [haux]
            refine (hIH.1 ?_)
            rw [htail10]
            rw [htailAll, hflat1, hb1, List.nil_append] at hnil
            exact hnil
          · intro e rest heq
            rw [haux]
            apply hIH.2
            rw [htail10]
            rw [htailAll, hflat1, hb1, List.nil_append] at heq
            exact heq
        | cons e0 rest0 =>
          have hbody2 : dictNextBody d it =
              (some (some e0), d,
                { it with table := 1, index := 0, entry := bucketGet (htGet d 1) 0, nextEntry := rest0 }) := by
            rw [hbody, dictNextEmit]
            have hb1g : bucketGet (htGet d 1) 0 = e0 :: rest0 := hb1
            simp only [hb1g]
          have haux := dictNextAux_emit f d d it
            { it with table := 1, index := 0, entry := bucketGet (htGet d 1) 0, nextEntry := rest0 }
            e0 hbody2
          have hrem : tailAll d 0 j = e0 :: (rest0 ++ tailAll d 1 0) := by
            rw [htailAll, hflat1, hb1, htail10]
            rfl
          constructor
          · intro hnil
            rw [hrem] at hnil
            exact absurd hnil (by simp)
          · intro e rest heq
            rw [hrem] at heq
            obtain ⟨he, hrest⟩ : e0 = e ∧ rest0 ++ tailAll d 1 0 = rest := by
              have h1 := List.head_eq_of_cons_eq heq
              have h2 := List.tail_eq_of_cons_eq heq
              exact ⟨h1, h2⟩
            refine ⟨{ it with table := 1, index := 0, entry := bucketGet (htGet d 1) 0, nextEntry := rest0 },
              by rw [haux, he], hsafe, 1, 0, rest0,
              Or.inr ⟨rfl, hreh⟩, rfl, rfl, hjsz1, ?_, rfl, hrest.symm⟩
            show bucketGet (htGet d 1) 0 ≠ []
            rw [show bucketGet (htGet d 1) 0 = bucketGet d.ht1 0 from rfl, hb1]
            simp
      · rw [if_neg hrh] at hbody
        have htail : tailAll d T j = [] := by
          rw [tailAll, tailBuckets_oob _ _ (by omega),
            if_neg (fun hc => hrh ⟨hc.2, hc.1⟩), List.nil_append]
        have haux := dictNextAux_none f d d it
          { it with index := (j : Int) + 1 } hbody
        constructor
        · intro _
          rw [haux]
          exact ⟨rfl, rfl⟩
        · intro e rest heq
          rw [htail] at heq
          exact absurd heq (by simp)
    · have hjlt1 : j + 1 < (htGet d T).size := by omega
      rw [if_neg hge] at hbody
      have htn : ((j : Int) + 1).toNat = j + 1 := by omega
      rw [htn] at hbody
      have htailc : tailAll d T j =
          bucketGet (htGet d T) (j + 1) ++ tailAll d T (j + 1) := by
        rw [tailAll, tailAll, tailBuckets_cons (htGet d T) (j + 1) (by omega),
          List.append_assoc]
      cases hbj : bucketGet (htGet d T) (j + 1) with
      | nil =>
        have hbody2 : dictNextBody d it =
            (none, d, { it with index := (j : Int) + 1, entry := bucketGet (htGet d T) (j + 1) }) := by
          rw [hbody, dictNextEmit]
          simp only [hbj]
        have haux := dictNextAux_loop f d d it
          { it with index := (j : Int) + 1, entry := bucketGet (htGet d T) (j + 1) } hbody2
        have hIH := ih d
          { it with index := (j : Int) + 1, entry := bucketGet (htGet d T) (j + 1) }
          T (j + 1) hWF hsafe hT hTok (by show (j : Int) + 1 = ((j + 1 : Nat) : Int); omega)
          hjlt1 hbj (by omega)
        constructor
        · intro hnil
          rw [haux]
          refine hIH.1 ?_
          rw [htailc, hbj, List.nil_append] at hnil
          exact hnil
        · intro e rest heq
          rw [haux]
          apply hIH.2
          rw [htailc, hbj, List.nil_append] at heq
          exact heq
      | cons e0 rest0 =>
        have hbody2 : dictNextBody d it =
            (some (some e0), d,
              { it with index := (j : Int) + 1, entry := bucketGet (htGet d T) (j + 1), nextEntry := rest0 }) := by
          rw [hbody, dictNextEmit]
          simp only [hbj]
        have haux := dictNextAux_emit f d d it
          { it with index := (j : Int) + 1, entry := bucketGet (htGet d T) (j + 1), nextEntry := rest0 }
          e0 hbody2
        have hrem : tailAll d T j = e0 :: (rest0 ++ tailAll d T (j + 1)) := by
          rw [htailc, hbj]
          rfl
        constructor
        · intro hnil
          rw [hrem] at hnil
          exact absurd hnil (by simp)
        · intro e rest heq
          rw [hrem] at heq
          obtain ⟨he, hrest⟩ : e0 = e ∧ rest0 ++ tailAll d T (j + 1) = rest := by
            have h1 := List.head_eq_of_cons_eq heq
            have h2 := List.tail_eq_of_cons_eq heq
            exact ⟨h1, h2⟩
          refine ⟨{ it with index := (j : Int) + 1, entry := bucketGet (htGet d T) (j + 1), nextEntry := rest0 },
            by rw [haux, he], hsafe, T, j + 1, rest0, hTok, hT,
            by show (j : Int) + 1 = ((j + 1 : Nat) : Int); omega, hjlt1, ?_,
            rfl, hrest.symm⟩
          show bucketGet (htGet d T) (j + 1) ≠ []
          rw [hbj]
          simp

/-- One `dictNext` call from a mid-traversal state: it emits exactly the
head of the remaining list (or `NULL` when nothing remains) and leaves the
dictionary untouched. -/
theorem dictNext_step (d : Dict K V) (it : DictIterator K V)
    (rem : List (DictEntry K V)) (hWF : WF d) (hInv : IterInv d it rem) :
    (rem = [] → (dictNext d it).1 = none ∧ (dictNext d it).2.1 = d) ∧
    (∀ e rest, rem = e :: rest →
      ∃ it2, dictNext d it = (some e, d, it2) ∧ IterInv d it2 rest) := by
  obtain ⟨hsafe, T, j, next, hTok, hT, hidx, hjlt, hent, hnext, hrem⟩ := hInv
  have hemp : ¬ it.entry.isEmpty = true := by
    cases hE : it.entry with
    | nil => exact absurd hE hent
    | cons a l => simp
  have hbody : dictNextBody d it = dictNextEmit d { it with entry := it.nextEntry } := by
    rw [dictNextBody, if_neg hemp]
  cases hn : next with
  | nil =>
    have hbody2 : dictNextBody d it =
        (none, d, { it with entry := it.nextEntry }) := by
      rw [hbody, dictNextEmit]
      simp only [hnext, hn]
    have haux : dictNext d it =
        dictNextAux (d.ht0.size + d.ht1.size + 3) d { it with entry := it.nextEntry } := by
      show dictNextAux (d.ht0.size + d.ht1.size + 3 + 1) d it = _
      exact dictNextAux_loop (d.ht0.size + d.ht1.size + 3) d d it _ hbody2
    have hbound : (htGet d T).size - j +
        (if T = 0 ∧ dictIsRehashing d = true then d.ht1.size else 0) + 1 ≤
        d.ht0.size + d.ht1.size + 3 := by
      rcases hTok with h0 | ⟨h1, _⟩
      · subst h0
        have hs : (htGet d 0).size = d.ht0.size := rfl
        rw [hs]
        by_cases hr : (0 : Nat) = 0 ∧ dictIsRehashing d = true
        · rw [if_pos hr]
          omega
        · rw [if_neg hr]
          omega
      · subst h1
        have hs : (htGet d 1).size = d.ht1.size := rfl
        rw [hs, if_neg (by simp)]
        omega
    have hscan := dictNextAux_scan (d.ht0.size + d.ht1.size + 3) d
      { it with entry := it.nextEntry } T j hWF hsafe hT hTok hidx hjlt
      (by show it.nextEntry = ([] : List (DictEntry K V)); rw [hnext, hn]) hbound
    have hremt : rem = tailAll d T j := by
      rw [hrem, hn, List.nil_append]
    constructor
    · intro hnil
      rw [haux]
      exact hscan.1 (by rw [← hremt]; exact hnil)
    · intro e rest heq
      obtain ⟨it2, hx, hinv2⟩ := hscan.2 e rest (by rw [← hremt]; exact heq)
      exact ⟨it2, by rw [haux]; exact hx, hinv2⟩
  | cons e2 rest2 =>
    have hbody2 : dictNextBody d it =
        (some (some e2), d, { { it with entry := it.nextEntry } with nextEntry := rest2 }) := by
      rw [hbody, dictNextEmit]
      simp only [hnext, hn]
    have haux : dictNext d it =
        (some e2, d, { { it with entry := it.nextEntry } with nextEntry := rest2 }) := by
      show dictNextAux (d.ht0.size + d.ht1.size + 3 + 1) d it = _
      exact dictNextAux_emit (d.ht0.size + d.ht1.size + 3) d d it _ e2 hbody2
    have hremc : rem = e2 :: (rest2 ++ tailAll d T j) := by
      rw [hrem, hn]
      rfl
    constructor
    · intro hnil
      rw [hremc] at hnil
      exact absurd hnil (by simp)
    · intro e rest heq
      rw [hremc] at heq
      obtain ⟨he, hrest⟩ : e2 = e ∧ rest2 ++ tailAll d T j = rest := by
        have h1 := List.head_eq_of_cons_eq heq
        have h2 := List.tail_eq_of_cons_eq heq
        exact ⟨h1, h2⟩
      refine ⟨{ { it with entry := it.nextEntry } with nextEntry := rest2 },
        by rw [haux, he], hsafe, T, j, rest2, hTok, hT, hidx, hjlt, ?_, rfl,
        hrest.symm⟩
      show it.nextEntry ≠ []
      rw [hnext, hn]
      simp

/-- From any mid-traversal state, running the iterator with one call of fuel
per remaining entry (plus the final `NULL` call) yields exactly the
remaining entries. -/
theorem runIter_inv :
    ∀ (n : Nat) (d : Dict K V) (it : DictIterator K V)
      (rem : List (DictEntry K V)), WF d → IterInv d it rem →
      rem.length = n → runIter d it (n + 1) = rem := by
  intro n
  induction n with
  | zero =>
    intro d it rem hWF hInv hlen
    have hrem : rem = [] := List.eq_nil_of_length_eq_zero hlen
    subst hrem
    obtain ⟨h1, h2⟩ := (dictNext_step d it [] hWF hInv).1 rfl
    rw [runIter]
    rcases hdx : dictNext d it with ⟨r, d2, it2⟩
    rw [hdx] at h1
    obtain rfl : r = none := h1
    rfl
  | succ n ih =>
    intro d it rem hWF hInv hlen
    cases rem with
    | nil => simp at hlen
    | cons e rest =>
      obtain ⟨it2, hdx, hinv2⟩ := (dictNext_step d it (e :: rest) hWF hInv).2 e rest rfl
      rw [runIter, hdx]
      show e :: runIter d it2 (n + 1) = e :: rest
      rw [ih d it2 rest hWF hinv2 (by simpa using hlen)]

/-- The first advance of a safe iterator on a dictionary with an allocated
`ht[0]`: the counter is bumped and bucket 0 is opened. -/
theorem dictNextBody_safeFresh (d : Dict K V) (hpos : 0 < d.ht0.size) :
    (bucketGet d.ht0 0 = [] →
      dictNextBody d (dictGetSafeIterator : DictIterator K V) =
        (none, { d with iterators := d.iterators + 1 },
          { (dictGetSafeIterator : DictIterator K V) with index := 0, entry := bucketGet d.ht0 0 })) ∧
    (∀ e rest, bucketGet d.ht0 0 = e :: rest →
      dictNextBody d (dictGetSafeIterator : DictIterator K V) =
        (some (some e), { d with iterators := d.iterators + 1 },
          { (dictGetSafeIterator : DictIterator K V) with index := 0, entry := bucketGet d.ht0 0, nextEntry := rest })) := by
  have h2 : ¬ d.ht0.size = 0 := by omega
  constructor
  · intro hb
    simp [dictNextBody, dictNextEmit, dictGetSafeIterator, dictGetIterator,
      htGet, h2, hb]
  · intro e rest hb
    simp [dictNextBody, dictNextEmit, dictGetSafeIterator, dictGetIterator,
      htGet, h2, hb]

/-- The first advance of a safe iterator on a dictionary that never
allocated `ht[0]` immediately reports exhaustion. -/
theorem dictNextBody_safeFresh_empty (d : Dict K V) (h0 : d.ht0.size = 0)
    (hnr : dictIsRehashing d = false) :
    dictNextBody d (dictGetSafeIterator : DictIterator K V) =
      (some none, { d with iterators := d.iterators + 1 },
        { (dictGetSafeIterator : DictIterator K V) with index := 0 }) := by
  have hr : d.rehashidx = -1 := by
    have := hnr
    rw [dictIsRehashing] at this
    simpa using this
  simp [dictNextBody, dictNextEmit, dictGetSafeIterator, dictGetIterator,
    htGet, h0, dictIsRehashing, hr]

/-- C7: iterating a well-formed dictionary to exhaustion with a safe
iterator, performing no mutating operations, yields exactly the `dictSize d`
stored entries — each exactly once — visiting table 0 in ascending bucket
order (chain order within a bucket) and then, only while a rehash is in
progress, table 1. -/
theorem C7_safe_iteration_exact (d : Dict K V) (hWF : WF d) :
    runIter d (dictGetSafeIterator : DictIterator K V) (dictSize d + 1) =
      tableFlatten d.ht0 ++
        (if dictIsRehashing d = true then tableFlatten d.ht1 else []) ∧
    (runIter d (dictGetSafeIterator : DictIterator K V)
        (dictSize d + 1)).length = dictSize d := by
  have hElen : (tableFlatten d.ht0 ++
      (if dictIsRehashing d = true then tableFlatten d.ht1 else [])).length =
      dictSize d := by
    have hu0 := (usedWF_iff d.ht0).1 hWF.2.2.1
    rw [List.length_append]
    by_cases hreh : dictIsRehashing d = true
    · have hu1 := (usedWF_iff d.ht1).1 hWF.2.2.2.1
      rw [if_pos hreh]
      show (tableFlatten d.ht0).length + (tableFlatten d.ht1).length =
        d.ht0.used + d.ht1.used
      omega
    · have hreset := hWF.2.2.2.2.2.2.2 (by simpa using hreh)
      have hu1 : d.ht1.used = 0 := by
        rw [hreset]
        rfl
      rw [if_neg hreh]
      show (tableFlatten d.ht0).length + ([] : List (DictEntry K V)).length =
        d.ht0.used + d.ht1.used
      rw [List.length_nil]
      omega
  suffices hmain : runIter d (dictGetSafeIterator : DictIterator K V)
      (dictSize d + 1) =
      tableFlatten d.ht0 ++
        (if dictIsRehashing d = true then tableFlatten d.ht1 else []) by
    exact ⟨hmain, by rw [hmain, hElen]⟩
  have hWFb : WF { d with iterators := d.iterators + 1 } := hWF
  by_cases h0 : d.ht0.size = 0
  · have hnr : dictIsRehashing d = false := by
      rcases Bool.eq_false_or_eq_true (dictIsRehashing d) with hr | hr
      · have := (hWF.2.2.2.2.2.2.1 hr).2.2.2.2
        omega
      · exact hr
    have hflat0 : tableFlatten d.ht0 = [] :=
      tableFlatten_of_size_zero d.ht0 (by rw [hWF.1.1, h0])
    have hreset := hWF.2.2.2.2.2.2.2 hnr
    have hds0 : dictSize d = 0 := by
      have hu0 := (usedWF_iff d.ht0).1 hWF.2.2.1
      have hu1 : d.ht1.used = 0 := by
        rw [hreset]
        rfl
      rw [hflat0] at hu0
      show d.ht0.used + d.ht1.used = 0
      simp at hu0
      omega
    have hbody := dictNextBody_safeFresh_empty d h0 hnr
    have hnext : dictNext d (dictGetSafeIterator : DictIterator K V) =
        (none, { d with iterators := d.iterators + 1 },
          { (dictGetSafeIterator : DictIterator K V) with index := 0 }) := by
      show dictNextAux (d.ht0.size + d.ht1.size + 3 + 1) d _ = _
      exact dictNextAux_none (d.ht0.size + d.ht1.size + 3) d _ _ _ hbody
    rw [hds0, runIter, hnext, hflat0, if_neg (by rw [hnr]; simp)]
    rfl
  · have hpos : 0 < d.ht0.size := by omega
    have hE : tableFlatten d.ht0 ++
        (if dictIsRehashing d = true then tableFlatten d.ht1 else []) =
        bucketGet d.ht0 0 ++ tailAll { d with iterators := d.iterators + 1 } 0 0 := by
      have h1 : tableFlatten d.ht0 = bucketGet d.ht0 0 ++ tailBuckets d.ht0 1 := by
        rw [← tailBuckets_zero, tailBuckets_cons d.ht0 0 (by rw [hWF.1.1]; exact hpos)]
      have h2 : tailAll { d with iterators := d.iterators + 1 } 0 0 =
          tailBuckets d.ht0 1 ++
            (if dictIsRehashing d = true then tableFlatten d.ht1 else []) := by
        rw [tailAll]
        by_cases hreh : dictIsRehashing d = true
        · rw [if_pos (show (0 : Nat) = 0 ∧
              dictIsRehashing { d with iterators := d.iterators + 1 } = true
              from ⟨rfl, hreh⟩), if_pos hreh]
          rfl
        · rw [if_neg (fun hc => hreh hc.2), if_neg hreh]
          rfl
      rw [h1, h2, List.append_assoc]
    have hbound : (htGet { d with iterators := d.iterators + 1 } 0).size - 0 +
        (if (0 : Nat) = 0 ∧
            dictIsRehashing { d with iterators := d.iterators + 1 } = true
          then ({ d with iterators := d.iterators + 1 } : Dict K V).ht1.size
          else 0) + 1 ≤ d.ht0.size + d.ht1.size + 3 := by
      show d.ht0.size - 0 + (if (0 : Nat) = 0 ∧
          dictIsRehashing { d with iterators := d.iterators + 1 } = true
        then d.ht1.size else 0) + 1 ≤ d.ht0.size + d.ht1.size + 3
      by_cases hr : (0 : Nat) = 0 ∧
          dictIsRehashing { d with iterators := d.iterators + 1 } = true
      · rw [if_pos hr]
        omega
      · rw [if_neg hr]
        omega
    cases hb0 : bucketGet d.ht0 0 with
    | nil =>
      have hbody := (dictNextBody_safeFresh d hpos).1 hb0
      have haux : dictNext d (dictGetSafeIterator : DictIterator K V) =
          dictNextAux (d.ht0.size + d.ht1.size + 3)
            { d with iterators := d.iterators + 1 }
            { (dictGetSafeIterator : DictIterator K V) with index := 0, entry := bucketGet d.ht0 0 } := by
        show dictNextAux (d.ht0.size + d.ht1.size + 3 + 1) d _ = _
        exact dictNextAux_loop (d.ht0.size + d.ht1.size + 3) d _ _ _ hbody
      have hscan := dictNextAux_scan (d.ht0.size + d.ht1.size + 3)
        { d with iterators := d.iterators + 1 }
        { (dictGetSafeIterator : DictIterator K V) with index := 0, entry := bucketGet d.ht0 0 }
        0 0 hWFb rfl rfl (Or.inl rfl) rfl hpos hb0 hbound
      cases hEcase : tailAll { d with iterators := d.iterators + 1 } 0 0 with
      | nil =>
        obtain ⟨h1, _⟩ := hscan.1 hEcase
        rw [hE, hb0, hEcase, List.nil_append]
        have hds0 : dictSize d = 0 := by
          rw [← hElen, hE, hb0, hEcase]
          rfl
        rw [hds0, runIter]
        rcases hdx : dictNext d (dictGetSafeIterator : DictIterator K V) with ⟨r, dx, itx⟩
        rw [haux] at hdx
        rw [hdx] at h1
        obtain rfl : r = none := h1
        rfl
      | cons e rest =>
        obtain ⟨it2, hx, hinv2⟩ := hscan.2 e rest hEcase
        have hnext2 : dictNext d (dictGetSafeIterator : DictIterator K V) =
            (some e, { d with iterators := d.iterators + 1 }, it2) := by
          rw [haux, hx]
        have hds : dictSize d = rest.length + 1 := by
          rw [← hElen, hE, hb0, hEcase]
          simp
        rw [hds, runIter, hnext2]
        show e :: runIter { d with iterators := d.iterators + 1 } it2
          (rest.length + 1) = _
        rw [runIter_inv rest.length { d with iterators := d.iterators + 1 }
          it2 rest hWFb hinv2 rfl, hE, hb0, hEcase, List.nil_append]
    | cons e rest0 =>
      have hbody := (dictNextBody_safeFresh d hpos).2 e rest0 hb0
      have hnext2 : dictNext d (dictGetSafeIterator : DictIterator K V) =
          (some e, { d with iterators := d.iterators + 1 },
            { (dictGetSafeIterator : DictIterator K V) with index := 0, entry := bucketGet d.ht0 0, nextEntry := rest0 }) := by
        show dictNextAux (d.ht0.size + d.ht1.size + 3 + 1) d _ = _
        exact dictNextAux_emit (d.ht0.size + d.ht1.size + 3) d _ _ _ e hbody
      have hinv : IterInv { d with iterators := d.iterators + 1 }
          { (dictGetSafeIterator : DictIterator K V) with index := 0, entry := bucketGet d.ht0 0, nextEntry := rest0 }
          (rest0 ++ tailAll { d with iterators := d.iterators + 1 } 0 0) := by
        refine ⟨rfl, 0, 0, rest0, Or.inl rfl, rfl, rfl, hpos, ?_, rfl, rfl⟩
        show bucketGet d.ht0 0 ≠ []
        rw [hb0]
        simp
      have hds : dictSize d =
          (rest0 ++ tailAll { d with iterators := d.iterators + 1 } 0 0).length + 1 := by
        rw [← hElen, hE, hb0]
        simp
      rw [hds, runIter, hnext2]
      show e :: runIter { d with iterators := d.iterators + 1 } _
        ((rest0 ++ tailAll { d with iterators := d.iterators + 1 } 0 0).length + 1) = _
      rw [runIter_inv _ { d with iterators := d.iterators + 1 } _ _ hWFb hinv rfl,
        hE, hb0]
      rfl

/-- Witness for C7 at the mid-rehash dictionary `rehashingEx`. -/
theorem C7_witness :
    runIter rehashingEx (dictGetSafeIterator : DictIterator Nat Nat)
        (dictSize rehashingEx + 1) =
      tableFlatten rehashingEx.ht0 ++
        (if dictIsRehashing rehashingEx = true
          then tableFlatten rehashingEx.ht1 else []) ∧
    (runIter rehashingEx (dictGetSafeIterator : DictIterator Nat Nat)
        (dictSize rehashingEx + 1)).length = dictSize rehashingEx :=
  C7_safe_iteration_exact rehashingEx (by decide)

end RedisDict
